import Mathlib

/-!
Seoul / NUL: capability range descriptors and the UTCB.

A shallow embedding of `sys/desc.h` (class `Crd`), `sys/utcb.h`
(struct `Utcb`: bound checks, `add_mappings`, `reset`), `nul/vcpu.h` (the
parameter slots and `copy_inout`), `model/vbios.cc` (the memory routine of
the BIOS bridge) and `service/params.h` (the queue of all parameters).

Machine integers are natural numbers with explicit reductions.  The word
sizes are those of the 32-bit x86 target (the `#else` branches of the
`__x86_64__` conditionals): `unsigned`, `unsigned long` and `mword` are
32 bits wide, `uint16` is 16 bits wide.

`Cpu::minshift` (`service/cpu.h`) is not among the sources: `add_mappings`
takes it as a parameter, and `Cpu.minshift` models it from the spec.  A run
of `add_mappings` ends in an `Outcome`, which also covers the failed assertion
(`do_exit`) and a shift count that `int` does not define.
-/

/-! ## sys/desc.h -/

/-- Number of values of a 32-bit `unsigned` / `unsigned long` / `mword`. -/
def WORD : Nat := 4294967296

/-- Number of values of a `uint16`. -/
def HALF : Nat := 65536

def DESC_TYPE_MEM : Nat := 1
def DESC_TYPE_IO : Nat := 2
def DESC_TYPE_CAP : Nat := 3
def DESC_RIGHT_R : Nat := 0x4
def DESC_RIGHT_EC_RECALL : Nat := 0x4
def DESC_RIGHT_PD : Nat := 0x4
def DESC_RIGHT_EC : Nat := 0x8
def DESC_RIGHT_SC : Nat := 0x10
def DESC_RIGHT_PT : Nat := 0x20
def DESC_RIGHT_SM : Nat := 0x40
def DESC_RIGHTS_ALL : Nat := 0x7c
def DESC_MEM_ALL : Nat := DESC_TYPE_MEM ||| DESC_RIGHTS_ALL
def DESC_IO_ALL : Nat := DESC_TYPE_IO ||| DESC_RIGHTS_ALL
def DESC_CAP_ALL : Nat := DESC_TYPE_CAP ||| DESC_RIGHTS_ALL
def MAP_HBIT : Nat := 0x801
def MAP_EPT : Nat := 0x401
def MAP_DPT : Nat := 0x201
def MAP_MAP : Nat := 1

/-- Class `Desc`: one `unsigned` word, read back by `value()`. -/
structure Desc where
  value : Nat
deriving DecidableEq, Repr

/-- Class `Crd : public Desc`, a capability range descriptor. -/
structure Crd extends Desc
deriving DecidableEq, Repr

namespace Crd

/-- Constructor `Crd(unsigned v)`. -/
def ofValue (v : Nat) : Crd := ⟨⟨v % WORD⟩⟩

/-- Constructor `Crd(unsigned offset, unsigned order, unsigned attr)`:
`Desc((offset << 12) | (order << 7) | attr)`, every operation in 32-bit
unsigned arithmetic. -/
def new (offset order attr : Nat) : Crd :=
  ⟨⟨(((offset % WORD) <<< 12) % WORD) ||| (((order % WORD) <<< 7) % WORD) ||| (attr % WORD)⟩⟩

/-- The member `order()`: `(_value >> 7) & 0x1f`. -/
def order (c : Crd) : Nat := (c.value >>> 7) &&& 0x1f

/-- The member `base()`: `_value & ~0xfff`; `~0xfff` converts to the unsigned
word `0xfffff000`. -/
def base (c : Crd) : Nat := c.value &&& 0xfffff000

/-- The member `attr()`: `_value & 0x1f`. -/
def attr (c : Crd) : Nat := c.value &&& 0x1f

/-- The member `cap()`: `_value >> 12`. -/
def cap (c : Crd) : Nat := c.value >>> 12

/-- The member `size()`: `1 << (order() + 12)`; the shift of the `int` 1 by 32
bits or more is not defined. -/
def size (c : Crd) : Option Nat :=
  if c.order + 12 < 32 then some (2 ^ (c.order + 12)) else none

end Crd

/-! ## service/cpu.h -/

namespace Cpu

/-- Modelled from the spec: `Cpu::minshift(start, size)` of `service/cpu.h`,
which is not among the sources.  The spec describes its result as the
largest alignment shift `s` such that a page of size `2^s` is compatible with
the address it is given and does not exceed the remaining size: the largest
`s` with `2^s` dividing `start` and `2^s <= size`.  A 32-bit `size` admits
no shift above 31, so the search starts there. -/
def minshift (start size : Nat) : Nat :=
  Nat.findGreatest (fun s => 2 ^ s ∣ start ∧ 2 ^ s ≤ size) 31

end Cpu

/-! ## sys/utcb.h -/

namespace Utcb

/-- Index where a "frame pointer" to the top of the stack is stored. -/
def STACK_START : Nat := 512

def MINSHIFT : Nat := 12

/-- The constant `sizeof(struct head)`: four `mword`s. -/
def HEADER_SIZE : Nat := 16

/-- The constant `sizeof(msg) / sizeof(msg[0])`, with
`sizeof(msg) = 4096 - sizeof(struct head)` and 4-byte words. -/
def MAX_DATA_WORDS : Nat := (4096 - HEADER_SIZE) / 4

def MAX_FRAME_WORDS : Nat := MAX_DATA_WORDS - STACK_START - 1

/-- The member `struct head`; `mtr` is the union view of `untyped` (low half)
and `typed` (high half). -/
structure Head where
  untyped : Nat
  typed : Nat
  crd_translate : Nat
  crd : Nat
  nul_cpunr : Nat

end Utcb

/-- The UTCB: the header and the message words.  `msg i` is the word at
`&msg[i]`; the indices from `MAX_DATA_WORDS` on stand for the memory behind
the 4096-byte UTCB, which `this + 1` points to. -/
structure Utcb where
  head : Utcb.Head
  msg : Nat → Nat

namespace Utcb

/-- The member `frame_words()`.  With 16-bit counters the sum stays far below
`2^32`. -/
def frame_words (u : Utcb) : Nat :=
  HEADER_SIZE / 4 + u.head.untyped + 2 * u.head.typed + 1

/-- The member `item_start()`, as a word index relative to `&msg[0]`:
`this + 1` is `&msg[MAX_DATA_WORDS]`. -/
def item_start (u : Utcb) : Int :=
  (MAX_DATA_WORDS : Int) - 2 * (u.head.typed : Int)

def validate_send_bounds (u : Utcb) : Bool :=
  decide (u.head.untyped ≤ STACK_START) &&
  decide (u.head.typed * 2 ≤ MAX_DATA_WORDS - STACK_START - 1) &&
  decide (u.frame_words ≤ MAX_DATA_WORDS - STACK_START - 1)

def validate_recv_bounds (u : Utcb) : Bool :=
  decide (u.msg STACK_START = 0) &&
  decide (u.head.untyped ≤ STACK_START) &&
  decide (u.head.typed * 2 ≤ MAX_DATA_WORDS - STACK_START - 1) &&
  decide (u.frame_words ≤ MAX_DATA_WORDS - STACK_START - 1)

/-- The store `msg[i] = v`. -/
def store (u : Utcb) (i v : Nat) : Utcb :=
  { u with msg := fun j => if j = i then v else u.msg j }

/-- The member `reset()`: `head.mtr = 0` clears both counters, then
`msg[STACK_START] = 0`. -/
def reset (u : Utcb) : Utcb :=
  store { u with head := { u.head with untyped := 0, typed := 0 } } STACK_START 0

/-- One typed item written by `add_mappings`: the word index of `item[0]`
and the values of `addr`, `size`, `hotspot` and `minshift` in the iteration
that wrote it. -/
structure Item where
  slot : Nat
  addr : Nat
  size : Nat
  hotspot : Nat
  minshift : Nat
deriving DecidableEq, Repr

namespace Item

/-- The value stored to `item[1]`. -/
def word1 (it : Item) : Nat := it.hotspot % WORD

/-- The value stored to `item[0]`:
`addr | ((minshift - Utcb::MINSHIFT) << 7) | rights`. -/
def word0 (it : Item) (rights : Nat) : Nat :=
  (it.addr ||| (((it.minshift - MINSHIFT) <<< 7) % WORD) ||| rights) % WORD

/-- The value of `mapsize = 1 << minshift` in the iteration of the item. -/
def mapsize (it : Item) : Nat := 2 ^ it.minshift

end Item

/-- How a run of `add_mappings` ends. -/
inductive Status where
  /-- The statement `return size` was reached, with this value. -/
  | returned (left : Nat)
  /-- The assertion `minshift >= Utcb::MINSHIFT` failed: `do_exit`. -/
  | asserted
  /-- The expression `1 << minshift` has a shift count of 32 or more. -/
  | undefined
  /-- The iteration bound of the model was reached. -/
  | unfinished
deriving DecidableEq, Repr

/-- The end of a run: how it ended, the UTCB at that point, and the items
written, in the order of writing (`add_mappings_items_stored` relates them to
the words of `msg`). -/
structure Outcome where
  status : Status
  utcb : Utcb
  items : List Item

/-- The statement `head.typed++` on the 16-bit counter. -/
def reserve (u : Utcb) : Utcb :=
  { u with head := { u.head with typed := (u.head.typed + 1) % HALF } }

/-- The statement `head.typed--` on the 16-bit counter: zero wraps to 65535. -/
def release (u : Utcb) : Utcb :=
  { u with head := { u.head with typed := if u.head.typed = 0 then 65535 else u.head.typed - 1 } }

/-- The two stores `item[1] = hotspot; item[0] = addr | ... | rights`. -/
def put (u : Utcb) (it : Item) (rights : Nat) : Utcb :=
  (u.store (it.slot + 1) it.word1).store it.slot (it.word0 rights)

/-- The test that follows `head.typed++` in `add_mappings`; true when the
reservation is undone. -/
def rejects (u : Utcb) (frame : Bool) (max_items : Nat) : Bool :=
  decide (u.item_start < (u.head.untyped : Int)) ||
  decide (u.head.typed > max_items) ||
  (frame && !u.validate_send_bounds)

/-- The loop of `add_mappings`, at most `fuel` iterations.  `minshift` stands
for `Cpu::minshift`. -/
def add_mappings_loop (minshift : Nat → Nat → Nat) (rights : Nat) (frame : Bool)
    (max_items : Nat) : Nat → Nat → Nat → Nat → Utcb → Outcome
  | 0, _, _, _, u => ⟨.unfinished, u, []⟩
  | fuel + 1, addr, size, hotspot, u =>
    if size = 0 then ⟨.returned size, u, []⟩
    else
      let ms := minshift (addr ||| (hotspot &&& 0xfffff000)) size
      if ms < MINSHIFT then ⟨.asserted, u, []⟩
      else if rejects u.reserve frame max_items then ⟨.returned size, u.reserve.release, []⟩
      else
        let it : Item := ⟨(u.reserve.item_start).toNat, addr, size, hotspot, ms⟩
        if 32 ≤ ms then ⟨.undefined, u.reserve.put it rights, [it]⟩
        else
          let mapsize := 2 ^ ms
          let o := add_mappings_loop minshift rights frame max_items fuel
            ((addr + mapsize) % WORD) ((size + (WORD - mapsize)) % WORD)
            ((hotspot + mapsize) % WORD) (u.reserve.put it rights)
          { o with items := it :: o.items }

/-- The member `add_mappings`.  The loop stops after at most 512 iterations,
whatever `minshift` returns (see `add_mappings_finishes`). -/
def add_mappings (minshift : Nat → Nat → Nat) (u : Utcb) (addr size hotspot rights : Nat)
    (frame : Bool) (max_items : Nat) : Outcome :=
  add_mappings_loop minshift rights frame max_items MAX_DATA_WORDS addr size hotspot u

/-- The default of `max_items`: `sizeof(msg) / sizeof(msg[0]) / 2`. -/
def default_max_items : Nat := MAX_DATA_WORDS / 2

/-- An all-zero UTCB. -/
def zero : Utcb := ⟨⟨0, 0, 0, 0, 0⟩, fun _ => 0⟩

end Utcb

namespace Utcb

/-- The items lie back to back from address `a` on, each one starting where
the one before it ends (modulo the 32-bit address space). -/
def Chained : Nat → List Item → Prop
  | _, [] => True
  | a, it :: rest => it.addr = a ∧ Chained ((a + it.mapsize) % WORD) rest

/-- Modelled from the spec: the caller of `add_mappings`, which the doc comment
requires to handle a non-zero return value (`sigma0.cc map_self` is not among
the sources).  It re-issues `add_mappings` on the emptied UTCB, with address
and hotspot advanced by the amount already consumed, until nothing is left,
and collects the items of all rounds; at most `rounds` calls. -/
def map_region (minshift : Nat → Nat → Nat) (rights : Nat) (frame : Bool) (max_items : Nat) :
    Nat → Utcb → Nat → Nat → Nat → Option (List Item)
  | 0, _, _, _, _ => none
  | rounds + 1, u, addr, size, hotspot =>
    match add_mappings minshift u.reset addr size hotspot rights frame max_items with
    | ⟨.returned left, u1, items⟩ =>
      if left = 0 then some items
      else
        (map_region minshift rights frame max_items rounds u1
          ((addr + (size - left)) % WORD) left ((hotspot + (size - left)) % WORD)).map
          (fun more => items ++ more)
    | _ => none

/-- Modelled from the spec: the repeated application of `add_mappings` to a
whole region.  Every round that leaves something consumes a page or more, so
`size / 4096 + 1` rounds are enough. -/
def map_all (minshift : Nat → Nat → Nat) (u : Utcb) (addr size hotspot rights : Nat)
    (frame : Bool) (max_items : Nat) : Option (List Item) :=
  map_region minshift rights frame max_items (size / 4096 + 1) u addr size hotspot

/-- The sizes left when the items were written go down from `s` by the chunk
of each item, and no chunk exceeds the size left. -/
def Draining : Nat → List Item → Prop
  | _, [] => True
  | s, it :: rest => it.size = s ∧ it.mapsize ≤ s ∧ Draining (s - it.mapsize) rest

/-- The blocks of shifts `ss`, laid back to back from the address `a` and the
hotspot `h` on, cover exactly `n` bytes: each block has a shift of 12 or more,
is aligned to its own size both in the address and in the hotspot, and fits
the bytes left. -/
def Tiles : Nat → Nat → List Nat → Nat → Prop
  | _, _, [], n => n = 0
  | a, h, s :: rest, n =>
    12 ≤ s ∧ 2 ^ s ∣ a ∧ 2 ^ s ∣ h ∧ 2 ^ s ≤ n ∧ Tiles (a + 2 ^ s) (h + 2 ^ s) rest (n - 2 ^ s)

/-- A UTCB whose header claims 600 typed items. -/
def overfull : Utcb := ⟨⟨0, 600, 0, 0, 0⟩, fun _ => 0⟩

/-- A UTCB holding 16 typed items. -/
def sixteen : Utcb := ⟨⟨0, 16, 0, 0, 0⟩, fun _ => 0⟩

/-- A UTCB whose 16-bit counter of typed items is at its maximum. -/
def full_counter : Utcb := ⟨⟨0, 65535, 0, 0, 0⟩, fun _ => 0⟩

end Utcb

/-! ## nul/bus.h -/

namespace DBus

/-- Modelled from the spec: one entry of a bus (`nul/bus.h` is not among the
sources), a subscriber, named by a number, with its callback.  The callback
gets the message by reference and returns whether it claims it; `σ` is the
state the subscribers work on. -/
structure Entry (M σ : Type) where
  dev : Nat
  func : M → σ → Bool × M × σ

/-- The end of one `send`: whether the message was claimed, the message and
the state afterwards, and the subscribers invoked, in order, each with its
answer. -/
structure Sent (M σ : Type) where
  claimed : Bool
  msg : M
  state : σ
  invoked : List (Nat × Bool)

/-- Modelled from the spec: `add(dev, func)` appends the callback to the
dispatch list of the bus; no deduplication. -/
def add {M σ : Type} (bus : List (Entry M σ)) (dev : Nat) (func : M → σ → Bool × M × σ) :
    List (Entry M σ) :=
  bus ++ [⟨dev, func⟩]

/-- Modelled from the spec: `send(msg, flag)` invokes each registered callback
in registration order, stops at the first one that claims the message, and
returns whether any callback claimed it.  The flag selects the best-effort
mode, in which dispatch still stops at the first claim and an unclaimed
message is no error: the bus raises no error in either mode. -/
def send {M σ : Type} : List (Entry M σ) → M → Bool → σ → Sent M σ
  | [], msg, _, s => ⟨false, msg, s, []⟩
  | e :: rest, msg, flag, s =>
    let r := e.func msg s
    if r.1 then ⟨true, r.2.1, r.2.2, [(e.dev, true)]⟩
    else
      let t := send rest r.2.1 flag r.2.2
      { t with invoked := (e.dev, false) :: t.invoked }

end DBus

/-- A callback on a counter: it adds its mark `k` to the counter and answers
`claim`. -/
def mark (k : Nat) (claim : Bool) : Nat → Nat → Bool × Nat × Nat :=
  fun msg s => (claim, msg, s + k)

/-! ## nul/message.h, as used by nul/vcpu.h -/

/-- A memory transaction `MessageMem(read, phys, ptr)`; `value` is the word
that `ptr` points to. -/
structure MessageMem where
  read : Bool
  phys : Nat
  value : Nat
deriving DecidableEq, Repr

/-- The answer to `MessageMemRegion(page)`: the host pointer and the pages
`[start_page, start_page + count)` that it covers. -/
structure MessageMemRegion where
  page : Nat
  start_page : Nat
  count : Nat
  ptr : Nat
deriving DecidableEq, Repr

/-! ## nul/vcpu.h -/

/-- Byte `i` of a word, little endian. -/
def byte (w i : Nat) : Nat := (w / 256 ^ i) % 256

/-- The 32-bit word whose bytes, little endian, are `b 0 .. b 3`. -/
def word_of (b : Nat → Nat) : Nat :=
  b 0 % 256 + 256 * (b 1 % 256) + 65536 * (b 2 % 256) + 16777216 * (b 3 % 256)

/-- The call `memcpy((char *)&value + k, p, l)`: the bytes `k .. k+l-1` of the
word `value` are replaced by `p[0] .. p[l-1]`. -/
def patch (value k l : Nat) (p : Nat → Nat) : Nat :=
  word_of (fun j => if k ≤ j ∧ j < k + l then p (j - k) else byte value j)

/-- The four bytes at `p[off] ..` of a buffer become the bytes of `w`. -/
def poke (p : Nat → Nat) (off w : Nat) : Nat → Nat :=
  fun i => if off ≤ i ∧ i < off + 4 then byte w (i - off) else p i

namespace VCpu

def SIZEOF_VCPU_PARAMETER : Nat := 12
def NUM_VCPU_PARAMETER : Nat := 5

structure GuestPtr where
  seg : Nat
  ofs : Nat
deriving DecidableEq, Repr

/-- One parameter of the copy-in and copy-out loop; `count`, `seg` and `ofs`
are `unsigned short`. -/
structure Parameter where
  count : Nat
  src : GuestPtr
  dst : GuestPtr
deriving DecidableEq, Repr

/-- The linear address `(p.seg << 4) + p.ofs`. -/
def GuestPtr.linear (p : GuestPtr) : Nat := (p.seg <<< 4) + p.ofs

/-- The pair `seg = a >> 4; ofs = a - (seg << 4)`, each stored to an
`unsigned short`. -/
def GuestPtr.of (a : Nat) : GuestPtr :=
  ⟨(a >>> 4) % HALF, ((a + WORD - (((a >>> 4) % HALF) <<< 4)) % WORD) % HALF⟩

end VCpu

/-- The members of `VCpu` that the copy routines use: `shmem.params` (index
5 and above is the rest of `shmem.bytes`) and `params_used`. -/
structure VCpu where
  params : Nat → VCpu.Parameter
  params_used : Nat

namespace VCpu

/-- The member `get_shmem_ptr()`. -/
def get_shmem_ptr (v : VCpu) : Nat :=
  (List.range v.params_used).foldl (fun res i => (res + (v.params i).count) % WORD)
    ((v.params 0).dst.linear % WORD)

/-- The assignment to `shmem.params[i]`. -/
def set_param (v : VCpu) (i : Nat) (p : Parameter) : VCpu :=
  { v with params := fun j => if j = i then p else v.params j }

/-- The member `add_param`; `none` when the assertion
`params_used < sizeof(shmem.params) / sizeof(Parameter)` fails.  The
references `src` and `dst` are the fields `src` and `dst` of the slot for a
read, and swapped for a write; `get_shmem_ptr()` is called after `count` and
`src` are stored. -/
def add_param (v : VCpu) (address count : Nat) (read : Bool) : Option VCpu :=
  if v.params_used < NUM_VCPU_PARAMETER then
    let i := v.params_used
    let s := v.params i
    let s1 : Parameter := { s with count := count % HALF }
    let s2 : Parameter :=
      if read then { s1 with src := GuestPtr.of address } else { s1 with dst := GuestPtr.of address }
    let v2 := v.set_param i s2
    let shmem_ptr := v2.get_shmem_ptr
    let s3 : Parameter :=
      if read then { s2 with dst := GuestPtr.of shmem_ptr }
      else { s2 with src := GuestPtr.of shmem_ptr }
    some { v2.set_param i s3 with params_used := (v.params_used + 1) % WORD }
  else none

/-- The test of the search loop in `check_params`. -/
def matches_slot (v : VCpu) (address count i : Nat) : Bool :=
  decide (address = (v.params i).src.linear) && decide ((v.params i).count = count)

/-- The member `check_params`: the value returned, the address afterwards
and the `VCpu` afterwards; `none` when `add_param` fails its assertion. -/
def check_params (v : VCpu) (address count : Nat) (read : Bool) : Option (Bool × Nat × VCpu) :=
  if v.params_used = 0 then some (true, address, v)
  else if read then
    match (List.range v.params_used).find? (fun i => v.matches_slot address count i) with
    | some i => some (true, (v.params i).dst.linear, v)
    | none => (v.add_param address count true).map (fun v1 => (false, address, v1))
  else
    let naddress := v.get_shmem_ptr
    (v.add_param address count false).map (fun v1 => (true, naddress, v1))

end VCpu

namespace VCpu

/-- The two buses that `copy_inout` sends on, as functions of the state `σ`
behind them (`nul/bus.h` is not among the sources).  `mem msg flag s` stands
for `mem.send(msg, flag)` and gives whether the message was claimed, the word
behind `msg.ptr` afterwards and the state afterwards; `memregion page s` stands
for `memregion.send(msg)` on `MessageMemRegion msg(page)` and gives whether it
was claimed, the message afterwards and the state afterwards. -/
structure Buses (σ : Type) where
  mem : MessageMem → Bool → σ → Bool × Nat × σ
  memregion : Nat → σ → Bool × MessageMemRegion × σ

/-- One `send` of `copy_inout`, with its result. -/
inductive Event where
  | region (page : Nat) (claimed : Bool)
  | mem (msg : MessageMem) (flag : Bool) (claimed : Bool)
deriving DecidableEq, Repr

/-- The slow path after some steps: whether no `send` has failed so far, the
state behind the buses, the caller's buffer, and the sends so far. -/
structure Slow (σ : Type) where
  ok : Bool
  dev : σ
  buf : Nat → Nat
  trace : List Event

/-- The block `if (count) { ... }` that ends the slow path; `junk` is the
indeterminate content of the local `value`. -/
def slow_tail {σ : Type} (b : Buses σ) (read : Bool) (junk : Nat)
    (count address off : Nat) (dev : σ) (buf : Nat → Nat) : Slow σ :=
  if count = 0 then ⟨true, dev, buf, []⟩
  else
    let m1 : MessageMem := ⟨true, address, junk⟩
    let r1 := b.mem m1 true dev
    if r1.1 = false then ⟨false, r1.2.2, buf, [.mem m1 true false]⟩
    else
      let value := patch r1.2.1 0 count (fun j => buf (off + j))
      if read then ⟨true, r1.2.2, buf, [.mem m1 true true]⟩
      else
        let m2 : MessageMem := ⟨false, address, value⟩
        let r2 := b.mem m2 true r1.2.2
        ⟨r2.1, r2.2.2, buf, [.mem m1 true true, .mem m2 true r2.1]⟩

/-- The loop `while (count >= 4) { ... }` of the slow path, followed by the
closing block.  The message is built with `read = false` and sent with the
flag `read`; its pointer is `p`, so the word behind it is the four bytes of
the buffer at `p`. -/
def slow_words {σ : Type} (b : Buses σ) (read : Bool) (junk : Nat) :
    Nat → Nat → Nat → σ → (Nat → Nat) → Slow σ
  | count + 4, address, off, dev, buf =>
    let m : MessageMem := ⟨false, address, word_of (fun j => buf (off + j))⟩
    let r := b.mem m read dev
    if r.1 = false then ⟨false, r.2.2, poke buf off r.2.1, [.mem m read false]⟩
    else
      let t := slow_words b read junk count ((address + 4) % WORD) (off + 4) r.2.2
        (poke buf off r.2.1)
      { t with trace := .mem m read true :: t.trace }
  | count, address, off, dev, buf => slow_tail b read junk count address off dev buf

/-- The slow path of `copy_inout`: the block `if (address & 3) { ... }`, then
the loop and the closing block.  `junk0` and `junk` are the indeterminate
contents of the two locals `value`. -/
def slow_path {σ : Type} (b : Buses σ) (read : Bool) (junk0 junk : Nat)
    (address count : Nat) (dev : σ) (buf : Nat → Nat) : Slow σ :=
  if address &&& 3 ≠ 0 then
    let m1 : MessageMem := ⟨true, address &&& 0xfffffffc, junk0⟩
    let r1 := b.mem m1 true dev
    if r1.1 = false then ⟨false, r1.2.2, buf, [.mem m1 true false]⟩
    else
      let l := if 4 - (address &&& 3) > count then count else 4 - (address &&& 3)
      let value := patch r1.2.1 (address &&& 3) l buf
      if read then
        let t := slow_words b read junk (count - l) ((address + l) % WORD) l r1.2.2 buf
        { t with trace := .mem m1 true true :: t.trace }
      else
        let m2 : MessageMem := ⟨false, address &&& 0xfffffffc, value⟩
        let r2 := b.mem m2 true r1.2.2
        if r2.1 = false then
          ⟨false, r2.2.2, buf, [.mem m1 true true, .mem m2 true false]⟩
        else
          let t := slow_words b read junk (count - l) ((address + l) % WORD) l r2.2.2 buf
          { t with trace := .mem m1 true true :: .mem m2 true true :: t.trace }
  else slow_words b read junk count address 0 dev buf

/-- The end of a call of `copy_inout`: the value returned, the `VCpu`, the
state behind the buses, the host memory (bytes, by host address), the
caller's buffer (bytes, by offset), and the sends, in order. -/
structure Copied (σ : Type) where
  ret : Bool
  vcpu : VCpu
  dev : σ
  host : Nat → Nat
  buf : Nat → Nat
  trace : List Event

/-- The member `copy_inout`; `none` when `add_param` fails its assertion. -/
def copy_inout {σ : Type} (b : Buses σ) (junk0 junk : Nat) (v : VCpu) (dev : σ)
    (host : Nat → Nat) (address : Nat) (buf : Nat → Nat) (count : Nat) (read : Bool) :
    Option (Copied σ) :=
  match v.check_params address count read with
  | none => none
  | some (false, _, v1) => some ⟨false, v1, dev, host, buf, []⟩
  | some (true, address, v1) =>
    let r := b.memregion (address >>> 12) dev
    let msg := r.2.1
    if r.1 = false ∨ msg.ptr = 0 ∨
        (address + count) % WORD > ((msg.start_page + msg.count) <<< 12) % WORD then
      let t := slow_path b read junk0 junk address count r.2.2 buf
      some ⟨t.ok, v1, t.dev, host, t.buf, .region (address >>> 12) r.1 :: t.trace⟩
    else
      let from_region := msg.ptr + (address + WORD - (msg.start_page <<< 12) % WORD) % WORD
      if read then
        some ⟨true, v1, r.2.2, host,
          fun i => if i < count then host (from_region + i) else buf i,
          [.region (address >>> 12) true]⟩
      else
        some ⟨true, v1, r.2.2,
          fun x => if from_region ≤ x ∧ x < from_region + count then buf (x - from_region)
            else host x,
          buf, [.region (address >>> 12) true]⟩

/-- The members `copy_in` and `copy_out`. -/
def copy_in {σ : Type} (b : Buses σ) (junk0 junk : Nat) (v : VCpu) (dev : σ)
    (host : Nat → Nat) (address : Nat) (buf : Nat → Nat) (count : Nat) : Option (Copied σ) :=
  copy_inout b junk0 junk v dev host address buf count true

def copy_out {σ : Type} (b : Buses σ) (junk0 junk : Nat) (v : VCpu) (dev : σ)
    (host : Nat → Nat) (address : Nat) (buf : Nat → Nat) (count : Nat) : Option (Copied σ) :=
  copy_inout b junk0 junk v dev host address buf count false

/-- Byte-addressable guest memory behind the memory bus: it claims every
transaction; a read returns the word at the four bytes from `phys` on, a
write stores the four bytes of the word there. -/
def guest_mem : MessageMem → Bool → (Nat → Nat) → Bool × Nat × (Nat → Nat) :=
  fun msg _ m =>
    if msg.read then (true, word_of (fun j => m ((msg.phys + j) % WORD)), m)
    else (true, msg.value,
      fun x => if x = msg.phys % WORD then byte msg.value 0
        else if x = (msg.phys + 1) % WORD then byte msg.value 1
        else if x = (msg.phys + 2) % WORD then byte msg.value 2
        else if x = (msg.phys + 3) % WORD then byte msg.value 3
        else m x)

/-- Buses without a direct mapping: the region bus claims nothing, and the
memory bus is byte-addressable guest memory. -/
def guest_buses : Buses (Nat → Nat) :=
  ⟨guest_mem, fun page m => (false, ⟨page, 0, 0, 0⟩, m)⟩

/-- A `VCpu` without parameters. -/
def idle : VCpu := ⟨fun _ => ⟨0, ⟨0, 0⟩, ⟨0, 0⟩⟩, 0⟩

end VCpu

namespace VCpu

/-- The replay of a list of sends on the buses, from the state `s` on: the
state after the last one, or `none` when a bus answers a send otherwise than
the list has it. -/
def replay {σ : Type} (b : Buses σ) : σ → List Event → Option σ
  | s, [] => some s
  | s, .region page c :: rest =>
    if (b.memregion page s).1 = c then replay b (b.memregion page s).2.2 rest else none
  | s, .mem msg flag c :: rest =>
    if (b.mem msg flag s).1 = c then replay b (b.mem msg flag s).2.2 rest else none

/-- No send to the memory bus that went unclaimed is followed by another
send. -/
def Halts : List Event → Prop
  | [] => True
  | .mem _ _ false :: rest => rest = []
  | _ :: rest => Halts rest

/-- Whether some send to the memory bus went unclaimed. -/
def unclaimed : List Event → Bool
  | [] => false
  | .mem _ _ false :: _ => true
  | _ :: rest => unclaimed rest

/-- Guest memory with the bytes `0x11, 0x22, .., 0x88` at `0x1000 .. 0x1007` and
zero elsewhere. -/
def sample_mem : Nat → Nat :=
  fun a => if 0x1000 ≤ a ∧ a < 0x1008 then 0x11 * (a - 0x1000 + 1) else 0

/-- A memory bus that claims the transactions below `0x1004` only, on
byte-addressable guest memory. -/
def low_buses : Buses (Nat → Nat) :=
  ⟨fun msg flag m => if msg.phys < 0x1004 then guest_mem msg flag m else (false, msg.value, m),
   fun page m => (false, ⟨page, 0, 0, 0⟩, m)⟩

/-- A region bus that maps the page `0x10` to the host pointer `0x7000`, next
to guest memory on the memory bus. -/
def mapped_buses : Buses (Nat → Nat) :=
  ⟨guest_mem, fun page m => (decide (page = 0x10), ⟨page, 0x10, 1, 0x7000⟩, m)⟩

/-- A region bus that maps the 32 pages below 4 GiB, from page `0xfffe0` on, to
the host pointer `0x7000`, next to guest memory on the memory bus. -/
def top_buses : Buses (Nat → Nat) :=
  ⟨guest_mem, fun page m => (decide (0xfffe0 ≤ page), ⟨page, 0xfffe0, 0x20, 0x7000⟩, m)⟩

/-- What the sends of a part of the slow path amount to: they replay to the
state reached, an unclaimed one is the last, and the part succeeds exactly
when none went unclaimed. -/
def Sound {σ : Type} (b : Buses σ) (dev : σ) (t : Slow σ) : Prop :=
  replay b dev t.trace = some t.dev ∧ Halts t.trace ∧ t.ok = !unclaimed t.trace

/-- Guest memory `m1` is guest memory `m` with the bytes `p 0 .. p (n-1)` stored
from `address` on (addresses wrap at the word size), and holds bytes. -/
def Stored (m m1 : Nat → Nat) (address : Nat) (p : Nat → Nat) (n : Nat) : Prop :=
  (∀ x, m1 x < 256) ∧
  (∀ i, i < n → m1 ((address + i) % WORD) = p i % 256) ∧
  (∀ x, (∀ i, i < n → x ≠ (address + i) % WORD) → m1 x = m x)

/-- The `VCpu` at the start of a BIOS call: no parameter in use, the scratch
region at `0xf1000` as destination of slot 0. -/
def fresh : VCpu := ⟨fun _ => ⟨0, ⟨0, 0⟩, GuestPtr.of 0xf1000⟩, 0⟩

/-- A `VCpu` with one slot in use: a read of `0x20` bytes at `0x500`, with
the scratch region at `0xf1000` as destination. -/
def booted : VCpu :=
  ⟨fun i => if i = 0 then ⟨0x20, GuestPtr.of 0x500, GuestPtr.of 0xf1000⟩
    else ⟨0, ⟨0, 0⟩, ⟨0, 0⟩⟩, 1⟩

/-- The `VCpu` after `fresh` recorded a read of `0x20` bytes at `0x500`. -/
def one_read : Option VCpu := fresh.add_param 0x500 0x20 true

/-- The `VCpu` after that, once a write of 4 bytes at `0x2000` went through
`check_params`. -/
def read_then_write : Option VCpu :=
  one_read.bind (fun v => (v.check_params 0x2000 4 false).map (fun r => r.2.2))

/-- A `VCpu` with two slots in use: slot 0 recorded for a read of `0x20` bytes
at `0x500`, slot 1 recorded for a write of 4 bytes at `0x2000`, whose source is
the scratch address `0xf1020`. -/
def mixed : VCpu :=
  ⟨fun i => if i = 0 then ⟨0x20, GuestPtr.of 0x500, GuestPtr.of 0xf1000⟩
    else if i = 1 then ⟨4, GuestPtr.of 0xf1020, GuestPtr.of 0x2000⟩
    else ⟨0, ⟨0, 0⟩, ⟨0, 0⟩⟩, 2⟩

end VCpu

namespace VCpu

/-- A `VCpu` with all five slots in use, each for a read of 4 bytes. -/
def crowded : VCpu :=
  ⟨fun i => ⟨4, GuestPtr.of (0x500 + 16 * i), GuestPtr.of (0xf1040 + 4 * i)⟩, 5⟩

/-- A `VCpu` with one slot in use, for a read of `0xf000` bytes, with the
scratch region at `0xf1000` as its destination. -/
def large : VCpu :=
  ⟨fun i => if i = 0 then ⟨0xf000, GuestPtr.of 0x500, GuestPtr.of 0xf1000⟩
    else ⟨0, ⟨0, 0⟩, ⟨0, 0⟩⟩, 1⟩

end VCpu

/-! ## model/vbios.cc -/

/-- The bridge between a `VCpu` and the BIOS bus, as far as its memory routine
goes: the `VCpu` with its shared-memory area, and the member `dummy` of each
slot of that area, which `VCpu.Parameter` leaves out. -/
structure VBios where
  vcpu : VCpu
  dummy : Nat → Nat

namespace VBios

def BIOS_BASE : Nat := 0xf0000
def BIOS_CODE_OFFSET : Nat := 0x200
def BIOS_SHMEM_BASE : Nat := BIOS_BASE + 0x1000

/-- The constant `sizeof(_vcpu->shmem.params)`. -/
def SIZEOF_PARAMS : Nat := VCpu.NUM_VCPU_PARAMETER * VCpu.SIZEOF_VCPU_PARAMETER

/-- The constant `sizeof(_vcpu->shmem)`: the union of the slots and of
`char bytes[4096]`. -/
def SIZEOF_SHMEM : Nat := 4096

/-- Modelled from the spec: `in_range(address, base, size)` of
`service/helper.h`, which is not among the sources: whether
`base <= address < base + size`. -/
def in_range (address base size : Nat) : Bool :=
  decide (base ≤ address) && decide (address - base < size)

/-- The `unsigned short` number `k` of slot `i` of the area: `count`, `src.seg`,
`src.ofs`, `dst.seg`, `dst.ofs`, `dummy`. -/
def field (s : VBios) (i k : Nat) : Nat :=
  match k with
  | 0 => (s.vcpu.params i).count
  | 1 => (s.vcpu.params i).src.seg
  | 2 => (s.vcpu.params i).src.ofs
  | 3 => (s.vcpu.params i).dst.seg
  | 4 => (s.vcpu.params i).dst.ofs
  | _ => s.dummy i

/-- The byte `shmem.bytes[off]`: the slots lie back to back, 12 bytes each,
their fields little endian. -/
def shmem_byte (s : VBios) (off : Nat) : Nat :=
  byte (s.field (off / 12) (off % 12 / 2)) (off % 2)

/-- The store of the `unsigned short` number `k` of slot `i`. -/
def set_field (s : VBios) (i k v : Nat) : VBios :=
  match k with
  | 0 => ⟨s.vcpu.set_param i ⟨v, (s.vcpu.params i).src, (s.vcpu.params i).dst⟩, s.dummy⟩
  | 1 => ⟨s.vcpu.set_param i
      ⟨(s.vcpu.params i).count, ⟨v, (s.vcpu.params i).src.ofs⟩, (s.vcpu.params i).dst⟩, s.dummy⟩
  | 2 => ⟨s.vcpu.set_param i
      ⟨(s.vcpu.params i).count, ⟨(s.vcpu.params i).src.seg, v⟩, (s.vcpu.params i).dst⟩, s.dummy⟩
  | 3 => ⟨s.vcpu.set_param i
      ⟨(s.vcpu.params i).count, (s.vcpu.params i).src, ⟨v, (s.vcpu.params i).dst.ofs⟩⟩, s.dummy⟩
  | 4 => ⟨s.vcpu.set_param i
      ⟨(s.vcpu.params i).count, (s.vcpu.params i).src, ⟨(s.vcpu.params i).dst.seg, v⟩⟩, s.dummy⟩
  | _ => ⟨s.vcpu, fun j => if j = i then v else s.dummy j⟩

/-- The store `shmem.bytes[off] = b`. -/
def shmem_store (s : VBios) (off b : Nat) : VBios :=
  s.set_field (off / 12) (off % 12 / 2)
    (if off % 2 = 0 then byte (s.field (off / 12) (off % 12 / 2)) 1 * 256 + b % 256
     else (b % 256) * 256 + byte (s.field (off / 12) (off % 12 / 2)) 0)

/-- The call `memset(shmem.params + 1, 0, sizeof(shmem.params) - sizeof(*shmem.params))`:
the slots 1 to 4 become all-zero. -/
def clear_params (s : VBios) : VBios :=
  { vcpu := { s.vcpu with
      params := fun i => if 1 ≤ i ∧ i < VCpu.NUM_VCPU_PARAMETER then ⟨0, ⟨0, 0⟩, ⟨0, 0⟩⟩
        else s.vcpu.params i },
    dummy := fun i => if 1 ≤ i ∧ i < VCpu.NUM_VCPU_PARAMETER then 0 else s.dummy i }

/-- The assignment `_vcpu->params_used = n`. -/
def set_used (s : VBios) (n : Nat) : VBios :=
  { s with vcpu := { s.vcpu with params_used := n } }

/-- The first block of `receive(MessageMem &)`, which triggers on the read of
the count of a slot.  `serve number s` stands for the lines from the set-up of
the stack frame to the copy-out, run when `number == params_used`: the send of
a `MessageBios` on the BIOS bus and, when it was claimed, the copy of the
registers back to the frame and `copy_out`; it gives whether the message was
claimed and the state afterwards, or `none` when an assertion failed on the
way.  The subscribers of the BIOS bus, `MessageBios` and `CpuState` are not
among the sources. -/
def trigger (serve : Nat → VBios → Option (Bool × VBios)) (msg : MessageMem) (s : VBios) :
    Option VBios :=
  if msg.read && in_range msg.phys BIOS_SHMEM_BASE SIZEOF_PARAMS &&
      decide ((msg.phys - BIOS_SHMEM_BASE) % VCpu.SIZEOF_VCPU_PARAMETER = 0) then
    let number := (msg.phys - BIOS_SHMEM_BASE) / VCpu.SIZEOF_VCPU_PARAMETER
    if number = 0 then some (s.clear_params.set_used 1)
    else if number = s.vcpu.params_used then
      (serve number s).map (fun r =>
        let s2 := if r.1 then r.2.set_used 0 else r.2
        if s2.vcpu.params_used = number then s2.set_used 0 else s2)
    else some s
  else some s

/-- The method `receive(MessageMem &msg)`: whether the message is claimed, the
word behind `msg.ptr` afterwards, and the state afterwards.  `Cpu::move<2>`
(`service/cpu.h`, not among the sources) copies `1 << 2` bytes; `mem msg2`
stands for `_mb.bus_mem.send(msg2)` on the bus of the motherboard. -/
def receive (serve : Nat → VBios → Option (Bool × VBios)) (mem : MessageMem → Bool × Nat)
    (msg : MessageMem) (s : VBios) : Option (Bool × Nat × VBios) :=
  (trigger serve msg s).map (fun s1 =>
    if in_range msg.phys BIOS_SHMEM_BASE (SIZEOF_SHMEM - 3) then
      if msg.read then
        (true, word_of (fun j => s1.shmem_byte (msg.phys - BIOS_SHMEM_BASE + j)), s1)
      else
        (true, msg.value,
          (((s1.shmem_store (msg.phys - BIOS_SHMEM_BASE) (byte msg.value 0)).shmem_store
            (msg.phys - BIOS_SHMEM_BASE + 1) (byte msg.value 1)).shmem_store
            (msg.phys - BIOS_SHMEM_BASE + 2) (byte msg.value 2)).shmem_store
            (msg.phys - BIOS_SHMEM_BASE + 3) (byte msg.value 3))
    else if !msg.read || !in_range msg.phys 0xfffffff0 0x10 then (false, msg.value, s1)
    else
      let r := mem ⟨msg.read, msg.phys &&& 0xfffff, msg.value⟩
      (r.1, r.2, s1))

/-- A bridge in the middle of a call: three slots in use, each for 4 bytes. -/
def busy : VBios :=
  ⟨⟨fun i => if i < 3 then ⟨4, VCpu.GuestPtr.of (0x500 + 16 * i), VCpu.GuestPtr.of (0xf1040 + 4 * i)⟩
    else ⟨0, ⟨0, 0⟩, ⟨0, 0⟩⟩, 3⟩, fun _ => 0⟩

/-- A BIOS bus without subscribers: nothing is claimed. -/
def no_bios : Nat → VBios → Option (Bool × VBios) := fun _ s => some (false, s)

/-- A BIOS call that must not be made: it ends in a failed assertion. -/
def no_call : Nat → VBios → Option (Bool × VBios) := fun _ _ => none

/-- A memory bus of the motherboard without subscribers. -/
def no_mem : MessageMem → Bool × Nat := fun msg => (false, msg.value)

end VBios

/-! ## service/params.h -/

/-- Class `Parameter`, an element of the queue of all parameters: its name and
its handler, a function pointer. -/
structure Parameter where
  name : String
  func : Nat
deriving DecidableEq, Repr

namespace Fifo

/-- Modelled from the spec: `Genode::Fifo<Parameter>::enqueue` of `util/fifo.h`,
which is not among the sources; the registry is a queue, filled in
registration order: the element goes to the tail. -/
def enqueue (q : List Parameter) (p : Parameter) : List Parameter := q ++ [p]

/-- Modelled from the spec: `Genode::Fifo<Parameter>::dequeue`, which takes the
element at the head off the queue and returns it, or returns the null pointer
when there is none. -/
def dequeue (q : List Parameter) : Option Parameter × List Parameter := (q.head?, q.tail)

/-- Modelled from the spec: `Genode::Fifo<Parameter>::empty`. -/
def empty (q : List Parameter) : Bool := q.isEmpty

end Fifo

namespace Parameter

/-- The end of a `PARAM_ITER` loop: the parameters that the body ran on, in
order, the state that the body works on, and the queue of all parameters. -/
structure Iterated (σ : Type) where
  visited : List Parameter
  state : σ
  all_parameters : List Parameter

/-- The loop of `PARAM_ITER(p)` from its test on, with `pp` already assigned:
`for (...; !all_parameters().empty(); pp = all_parameters().dequeue(), p = &pp) body`,
at most `fuel` tests.  The body reads `PARAM_DEREF(p)`, which is `*pp`; `none`
stands for a body that runs on the null pointer, and for the bound of the
model. -/
def iterate {σ : Type} (body : Parameter → σ → σ) :
    Nat → Option Parameter → List Parameter → σ → Option (Iterated σ)
  | 0, _, _, _ => none
  | fuel + 1, pp, q, s =>
    if Fifo.empty q then some ⟨[], s, q⟩
    else
      match pp with
      | none => none
      | some a =>
        (iterate body fuel (Fifo.dequeue q).1 (Fifo.dequeue q).2 (body a s)).map
          (fun t => { t with visited := a :: t.visited })

/-- The macro `PARAM_ITER(p)` with its body: the initialisation
`pp = all_parameters().dequeue(), p = &pp`, then the loop.  Every test but the
last is followed by a `dequeue`, so the length of the queue and one more bound
the tests. -/
def PARAM_ITER {σ : Type} (body : Parameter → σ → σ) (q : List Parameter) (s : σ) :
    Option (Iterated σ) :=
  iterate body (q.length + 1) (Fifo.dequeue q).1 (Fifo.dequeue q).2 s

/-- The parameter that `PARAM_HANDLER(vbios, ...)` of `model/vbios.cc`
registers. -/
def vbios : Parameter := ⟨"vbios", 0⟩

end Parameter

/-! ## Bit-level facts -/

theorem and_mask5 (v : Nat) : v &&& 0x1f = v % 32 := by
  have h := Nat.and_pow_two_sub_one_eq_mod v 5
  simpa using h

theorem and_page_mask (v : Nat) (h : v < WORD) : v &&& 0xfffff000 = v / 4096 * 4096 := by
  apply Nat.eq_of_testBit_eq
  intro i
  have e1 : (0xfffff000 : Nat) = (2 ^ 20 - 1) <<< 12 := by decide
  have e2 : v / 4096 * 4096 = (v >>> 12) <<< 12 := by
    rw [Nat.shiftLeft_eq, Nat.shiftRight_eq_div_pow]
  rw [e1, e2]
  simp only [Nat.testBit_and, Nat.testBit_shiftLeft, Nat.testBit_shiftRight,
    Nat.testBit_two_pow_sub_one]
  by_cases hi : 12 ≤ i
  · have e3 : 12 + (i - 12) = i := by omega
    simp only [hi, decide_True, Bool.true_and, e3, ge_iff_le]
    by_cases h2 : i - 12 < 20
    · simp [h2]
    · simp only [h2, decide_False, Bool.and_false]
      have hv : v < 2 ^ i := by
        calc v < 2 ^ 32 := by simpa [WORD] using h
          _ ≤ 2 ^ i := Nat.pow_le_pow_right (by decide) (by omega)
      simp [Nat.testBit_lt_two_pow hv]
  · simp [hi]

theorem or_eq_add (a b i : Nat) (hb : b < 2 ^ i) : (a * 2 ^ i) ||| b = a * 2 ^ i + b := by
  rw [Nat.mul_comm, Nat.mul_add_lt_is_or hb]

/-- The word built by the three-argument constructor, as a sum: the fields
occupy disjoint bits. -/
theorem Crd.new_value (offset order attr : Nat) (ho : offset < 2 ^ 20) (hr : order < 32)
    (ha : attr < 128) : (Crd.new offset order attr).value = offset * 4096 + order * 128 + attr := by
  have h1 : (offset % WORD) <<< 12 % WORD = offset * 2 ^ 12 := by
    rw [Nat.shiftLeft_eq]
    simp only [WORD] at *
    omega
  have h2 : (order % WORD) <<< 7 % WORD = order * 2 ^ 7 := by
    rw [Nat.shiftLeft_eq]
    simp only [WORD] at *
    omega
  have h3 : attr % WORD = attr := by
    simp only [WORD]
    omega
  simp only [Crd.new, h1, h2, h3]
  rw [Nat.lor_assoc, or_eq_add order attr 7 (by omega),
    or_eq_add offset (order * 2 ^ 7 + attr) 12 (by omega)]
  omega

namespace Utcb

@[simp] theorem reserve_untyped (u : Utcb) : u.reserve.head.untyped = u.head.untyped := by
  simp [reserve]
@[simp] theorem reserve_typed (u : Utcb) : u.reserve.head.typed = (u.head.typed + 1) % HALF := by
  simp [reserve]
@[simp] theorem reserve_msg (u : Utcb) : u.reserve.msg = u.msg := by simp [reserve]
@[simp] theorem release_untyped (u : Utcb) : u.release.head.untyped = u.head.untyped := by
  simp [release]
@[simp] theorem release_typed (u : Utcb) :
    u.release.head.typed = if u.head.typed = 0 then 65535 else u.head.typed - 1 := by
  simp [release]
@[simp] theorem release_msg (u : Utcb) : u.release.msg = u.msg := by simp [release]
@[simp] theorem put_head (u : Utcb) (it : Item) (r : Nat) : (u.put it r).head = u.head := by
  simp [put, store]
theorem put_msg (u : Utcb) (it : Item) (r : Nat) (j : Nat) :
    (u.put it r).msg j = if j = it.slot then it.word0 r else if j = it.slot + 1 then it.word1
      else u.msg j := by
  simp [put, store]

theorem release_reserve (u : Utcb) (h : u.head.typed < HALF) : u.reserve.release = u := by
  cases u with
  | mk head msg =>
    cases head with
    | mk un ty a b c =>
      simp only [reserve, release, HALF] at *
      congr 2
      split_ifs <;> omega
theorem validate_send_bounds_iff (u : Utcb) :
    u.validate_send_bounds = true ↔
      u.head.untyped ≤ 512 ∧ u.head.typed * 2 ≤ 507 ∧ u.head.untyped + 2 * u.head.typed ≤ 502 := by
  simp only [validate_send_bounds, frame_words, STACK_START, MAX_DATA_WORDS, HEADER_SIZE,
    Bool.and_eq_true, decide_eq_true_eq]
  omega

theorem rejects_eq_false_iff (u : Utcb) (frame : Bool) (max_items : Nat) :
    rejects u frame max_items = false ↔
      u.head.untyped + 2 * u.head.typed ≤ 1020 ∧ u.head.typed ≤ max_items ∧
      (frame = true → u.validate_send_bounds = true) := by
  simp only [rejects, item_start, MAX_DATA_WORDS, HEADER_SIZE, Bool.or_eq_false_iff,
    decide_eq_false_iff_not, Bool.and_eq_false_iff, Bool.not_eq_false_eq_eq_true]
  constructor
  · rintro ⟨⟨h1, h2⟩, h3⟩
    refine ⟨by omega, by omega, ?_⟩
    intro hf
    rcases h3 with h3 | h3
    · rw [hf] at h3; cases h3
    · simpa using h3
  · rintro ⟨h1, h2, h3⟩
    refine ⟨⟨by omega, by omega⟩, ?_⟩
    cases frame
    · exact Or.inl rfl
    · right; simp [h3 rfl]

/-- Invariants of the loop.  `V` is a predicate on the loop variables kept by
every completed iteration, `I` a predicate on the UTCB kept by an undone
reservation and by a written item, `Q` a predicate on items established at
every write: then `I` holds at the end and `Q` holds of all items. -/
theorem loop_induct (ms : Nat → Nat → Nat) (rights : Nat) (frame : Bool) (max_items : Nat)
    (V : Nat → Nat → Nat → Prop) (I : Utcb → Prop) (Q : Item → Prop)
    (hV : ∀ a s h, V a s h → s ≠ 0 →
      V ((a + 2 ^ ms (a ||| h &&& 0xfffff000) s) % WORD)
        ((s + (WORD - 2 ^ ms (a ||| h &&& 0xfffff000) s)) % WORD)
        ((h + 2 ^ ms (a ||| h &&& 0xfffff000) s) % WORD))
    (hrej : ∀ u, I u → rejects u.reserve frame max_items = true → I u.reserve.release)
    (hput : ∀ u a s h, V a s h → s ≠ 0 → MINSHIFT ≤ ms (a ||| h &&& 0xfffff000) s → I u →
      rejects u.reserve frame max_items = false →
      Q ⟨u.reserve.item_start.toNat, a, s, h, ms (a ||| h &&& 0xfffff000) s⟩ ∧
      I (u.reserve.put ⟨u.reserve.item_start.toNat, a, s, h, ms (a ||| h &&& 0xfffff000) s⟩
        rights)) :
    ∀ fuel addr size hotspot u, V addr size hotspot → I u →
      I (add_mappings_loop ms rights frame max_items fuel addr size hotspot u).utcb ∧
      ∀ it ∈ (add_mappings_loop ms rights frame max_items fuel addr size hotspot u).items,
        Q it := by
  intro fuel
  induction fuel with
  | zero => intro addr size hotspot u _ hu; simp [add_mappings_loop, hu]
  | succ n ih =>
    intro addr size hotspot u hv hu
    simp only [add_mappings_loop]
    split_ifs with h0 h1 h2 h3
    · simp [hu]
    · simp [hu]
    · simp [hrej u hu h2]
    · have hp := hput u addr size hotspot hv h0 (by omega) hu (by simpa using h2)
      simp [hp.1, hp.2]
    · have hp := hput u addr size hotspot hv h0 (by omega) hu (by simpa using h2)
      have hr := ih _ _ _ _ (hV addr size hotspot hv h0) hp.2
      refine ⟨hr.1, ?_⟩
      intro it hit
      simp only [List.mem_cons] at hit
      rcases hit with rfl | hit
      · exact hp.1
      · exact hr.2 it hit

/-- A rejected reservation ends the run with the size left; a run that returns
a non-zero size has just undone a rejected reservation. -/
theorem loop_returned {ms : Nat → Nat → Nat} {rights : Nat} {frame : Bool} {max_items : Nat} :
    ∀ fuel addr size hotspot u r, u.head.typed < HALF →
      (add_mappings_loop ms rights frame max_items fuel addr size hotspot u).status
        = .returned r → r ≠ 0 →
      rejects (add_mappings_loop ms rights frame max_items fuel addr size hotspot u).utcb.reserve
        frame max_items = true := by
  intro fuel
  induction fuel with
  | zero => intro addr size hotspot u r _ h; simp [add_mappings_loop] at h
  | succ n ih =>
    intro addr size hotspot u r ht
    simp only [add_mappings_loop]
    split_ifs with h0 h1 h2 h3
    · intro h hr; simp only [Status.returned.injEq] at h; omega
    · intro h; simp at h
    · intro _ _; rw [release_reserve u ht]; exact h2
    · intro h; simp at h
    · intro h hr
      refine ih _ _ _ _ r ?_ h hr
      simp only [put_head, reserve_typed, HALF]
      omega

/-- The iteration bound is not reached from a state with room for at most
`fuel` further items. -/
theorem loop_finishes_aux {ms : Nat → Nat → Nat} {rights : Nat} {frame : Bool} {max_items : Nat} :
    ∀ fuel addr size hotspot u, u.head.typed ≤ 511 → 512 ≤ fuel + u.head.typed →
      (add_mappings_loop ms rights frame max_items fuel addr size hotspot u).status
        ≠ .unfinished := by
  intro fuel
  induction fuel with
  | zero => intro addr size hotspot u h1 h2; omega
  | succ n ih =>
    intro addr size hotspot u h1 h2
    simp only [add_mappings_loop]
    split_ifs with h0 h3 h4 h5
    · simp
    · simp
    · simp
    · simp
    · have hr := (rejects_eq_false_iff _ _ _).1 (by simpa using h4)
      simp only [reserve_untyped, reserve_typed, HALF] at hr
      refine ih _ _ _ _ ?_ ?_
      · simp only [put_head, reserve_typed, HALF]; omega
      · simp only [put_head, reserve_typed, HALF]; omega

theorem loop_finishes {ms : Nat → Nat → Nat} {rights : Nat} {frame : Bool} {max_items : Nat}
    (fuel addr size hotspot : Nat) (u : Utcb) (hf : 513 ≤ fuel) :
    (add_mappings_loop ms rights frame max_items fuel addr size hotspot u).status
      ≠ .unfinished := by
  cases fuel with
  | zero => omega
  | succ n =>
    simp only [add_mappings_loop]
    split_ifs with h0 h3 h4 h5
    · simp
    · simp
    · simp
    · simp
    · have hr := (rejects_eq_false_iff _ _ _).1 (by simpa using h4)
      simp only [reserve_untyped, reserve_typed, HALF] at hr
      refine loop_finishes_aux _ _ _ _ _ ?_ ?_
      · simp only [put_head, reserve_typed, HALF]; omega
      · simp only [put_head, reserve_typed, HALF]; omega

/-- The loop of `add_mappings` ends within its iteration bound, whatever
`Cpu::minshift` returns. -/
theorem add_mappings_finishes (ms : Nat → Nat → Nat) (u : Utcb)
    (addr size hotspot rights : Nat) (frame : Bool) (max_items : Nat) :
    (add_mappings ms u addr size hotspot rights frame max_items).status ≠ .unfinished :=
  loop_finishes _ _ _ _ _ (by decide)

end Utcb

/-! ## Claims on the descriptor codec -/

/-- C5 (as stated, refuted): encoding the page-aligned base `0x1000`, order `0`
and rights `DESC_TYPE_MEM | DESC_RIGHT_PT` with `Crd(base, order, rights)` and
decoding does not give the triple back: `base()` is `0x1000000`, because the
constructor shifts its first argument by 12 bits, and `attr()` is
`DESC_TYPE_MEM`, because it keeps five bits only. -/
theorem C5_roundtrip_counterexample :
    0x1000 % 4096 = 0 ∧
    (Crd.new 0x1000 0 (DESC_TYPE_MEM ||| DESC_RIGHT_PT)).base = 0x1000000 ∧
    (Crd.new 0x1000 0 (DESC_TYPE_MEM ||| DESC_RIGHT_PT)).base ≠ 0x1000 ∧
    (Crd.new 0x1000 0 (DESC_TYPE_MEM ||| DESC_RIGHT_PT)).attr = DESC_TYPE_MEM ∧
    (Crd.new 0x1000 0 (DESC_TYPE_MEM ||| DESC_RIGHT_PT)).attr ≠ DESC_TYPE_MEM ||| DESC_RIGHT_PT := by
  decide

/-- C5 (amended): for every order in [0,31], every page-aligned 32-bit base
and every rights/type value below 32, encoding with
`Crd(base >> 12, order, rights)` (the constructor takes the page number) and
decoding with `base()`, `order()` and `attr()` yields the triple
`(base, order, rights)`. -/
theorem C5_roundtrip (base order rights : Nat) (hb : base % 4096 = 0) (hw : base < WORD)
    (ho : order ≤ 31) (hr : rights < 32) :
    (Crd.new (base >>> 12) order rights).base = base ∧
    (Crd.new (base >>> 12) order rights).order = order ∧
    (Crd.new (base >>> 12) order rights).attr = rights := by
  have hs : base >>> 12 = base / 4096 := by rw [Nat.shiftRight_eq_div_pow]
  have hv := Crd.new_value (base / 4096) order rights (by simp only [WORD] at hw; omega)
    (by omega) (by omega)
  have hlt : (Crd.new (base / 4096) order rights).value < WORD := by
    rw [hv]; simp only [WORD] at *; omega
  rw [hs]
  refine ⟨?_, ?_, ?_⟩
  · rw [Crd.base, and_page_mask _ hlt, hv]; omega
  · rw [Crd.order, and_mask5, Nat.shiftRight_eq_div_pow, hv]; omega
  · rw [Crd.attr, and_mask5, hv]; omega

theorem C5_roundtrip_witness :
    (Crd.new (0x5000 >>> 12) 3 (DESC_TYPE_MEM ||| DESC_RIGHT_R)).base = 0x5000 ∧
    (Crd.new (0x5000 >>> 12) 3 (DESC_TYPE_MEM ||| DESC_RIGHT_R)).order = 3 ∧
    (Crd.new (0x5000 >>> 12) 3 (DESC_TYPE_MEM ||| DESC_RIGHT_R)).attr
      = DESC_TYPE_MEM ||| DESC_RIGHT_R :=
  C5_roundtrip 0x5000 3 (DESC_TYPE_MEM ||| DESC_RIGHT_R) (by decide) (by decide) (by decide)
    (by decide)

/-- C6: for every page number `offset < 2^20`, every `order < 32` and every
`attr < 128` the fields of `Crd(offset, order, attr)` occupy disjoint bits:
`value()` is `offset*4096 + order*128 + attr`, `order()` is `order`, `base()`
is `offset*4096`, `cap()` is `offset`, and `attr()` is the low five bits of
`attr`. -/
theorem C6_layout (offset order attr : Nat) (ho : offset < 2 ^ 20) (hr : order < 32)
    (ha : attr < 128) :
    (Crd.new offset order attr).value = offset * 4096 + order * 128 + attr ∧
    (Crd.new offset order attr).order = order ∧
    (Crd.new offset order attr).base = offset * 4096 ∧
    (Crd.new offset order attr).cap = offset ∧
    (Crd.new offset order attr).attr = attr % 32 := by
  have hv := Crd.new_value offset order attr ho hr ha
  have hlt : (Crd.new offset order attr).value < WORD := by
    rw [hv]; simp only [WORD]; omega
  refine ⟨hv, ?_, ?_, ?_, ?_⟩
  · rw [Crd.order, and_mask5, Nat.shiftRight_eq_div_pow, hv]; omega
  · rw [Crd.base, and_page_mask _ hlt, hv]; omega
  · rw [Crd.cap, Nat.shiftRight_eq_div_pow, hv]; omega
  · rw [Crd.attr, and_mask5, hv]; omega

theorem C6_layout_witness :
    (Crd.new 0x12345 19 DESC_MEM_ALL).value = 0x12345 * 4096 + 19 * 128 + DESC_MEM_ALL ∧
    (Crd.new 0x12345 19 DESC_MEM_ALL).order = 19 ∧
    (Crd.new 0x12345 19 DESC_MEM_ALL).base = 0x12345 * 4096 ∧
    (Crd.new 0x12345 19 DESC_MEM_ALL).cap = 0x12345 ∧
    (Crd.new 0x12345 19 DESC_MEM_ALL).attr = DESC_MEM_ALL % 32 :=
  C6_layout 0x12345 19 DESC_MEM_ALL (by decide) (by decide) (by decide)

/-! ## Claims on the bound checks -/

/-- C7: for every UTCB, after `reset()` the call `validate_recv_bounds()`
returns true, `head.untyped` and `head.typed` are zero, and
`validate_send_bounds()` returns true as well. -/
theorem C7_reset_validates (u : Utcb) :
    u.reset.validate_recv_bounds = true ∧ u.reset.head.untyped = 0 ∧ u.reset.head.typed = 0 ∧
    u.reset.validate_send_bounds = true := by
  simp [Utcb.reset, Utcb.store, Utcb.validate_recv_bounds, Utcb.validate_send_bounds,
    Utcb.frame_words, Utcb.STACK_START, Utcb.MAX_DATA_WORDS, Utcb.HEADER_SIZE]

/-- C8: for every UTCB, `validate_send_bounds()` is the conjunction of the
three numeric checks, `validate_recv_bounds()` is true exactly when these three
checks hold and `msg[STACK_START]` reads as zero, and so recv-bounds implies
send-bounds. -/
theorem C8_recv_refines_send (u : Utcb) :
    (u.validate_send_bounds = true ↔
      (u.head.untyped ≤ Utcb.STACK_START ∧
       u.head.typed * 2 ≤ Utcb.MAX_DATA_WORDS - Utcb.STACK_START - 1 ∧
       u.frame_words ≤ Utcb.MAX_DATA_WORDS - Utcb.STACK_START - 1)) ∧
    (u.validate_recv_bounds = true ↔
      (u.validate_send_bounds = true ∧ u.msg Utcb.STACK_START = 0)) ∧
    (u.validate_recv_bounds = true → u.validate_send_bounds = true) := by
  simp only [Utcb.validate_recv_bounds, Utcb.validate_send_bounds, Bool.and_eq_true,
    decide_eq_true_eq]
  tauto

theorem C8_recv_refines_send_witness :
    Utcb.zero.validate_recv_bounds = true ∧ Utcb.zero.validate_send_bounds = true :=
  ⟨by decide, (C8_recv_refines_send Utcb.zero).2.2 (by decide)⟩

/-! ## Claims on `add_mappings`, for every `Cpu::minshift` -/

open Utcb

theorem validate_send_bounds_head {u v : Utcb} (h : u.head = v.head) :
    u.validate_send_bounds = v.validate_send_bounds := by
  simp only [validate_send_bounds, frame_words, h]

theorem validate_recv_bounds_iff (u : Utcb) :
    u.validate_recv_bounds = true ↔ u.validate_send_bounds = true ∧ u.msg STACK_START = 0 := by
  simp only [validate_recv_bounds, validate_send_bounds, Bool.and_eq_true, decide_eq_true_eq]
  tauto

/-- C10: with `frame = true`, whatever `Cpu::minshift` returns and for all
arguments, `add_mappings` never stores to `msg[STACK_START]` (every item lies
at word 514 or above), a UTCB that satisfied `validate_send_bounds()` before
the call satisfies it when the call ends, and so does one that satisfied
`validate_recv_bounds()`. -/
theorem C10_frame_keeps_bounds (ms : Nat → Nat → Nat) (u : Utcb)
    (addr size hotspot rights max_items : Nat) :
    (add_mappings ms u addr size hotspot rights true max_items).utcb.msg STACK_START
      = u.msg STACK_START ∧
    (∀ it ∈ (add_mappings ms u addr size hotspot rights true max_items).items,
      STACK_START + 2 ≤ it.slot) ∧
    (u.validate_send_bounds = true →
      (add_mappings ms u addr size hotspot rights true max_items).utcb.validate_send_bounds
        = true) ∧
    (u.validate_recv_bounds = true →
      (add_mappings ms u addr size hotspot rights true max_items).utcb.validate_recv_bounds
        = true) := by
  have key := loop_induct ms rights true max_items
    (fun _ _ _ => True)
    (fun v => v.msg STACK_START = u.msg STACK_START ∧
      (u.validate_send_bounds = true → v.validate_send_bounds = true))
    (fun it => STACK_START + 2 ≤ it.slot)
    (fun _ _ _ _ _ => trivial)
    (by
      intro v hv _
      refine ⟨by simpa using hv.1, ?_⟩
      intro hs
      have h1 := (validate_send_bounds_iff v).1 (hv.2 hs)
      rw [release_reserve v (by simp only [HALF]; omega)]
      exact hv.2 hs)
    (by
      intro v a s h _ _ _ hv hr
      have h1 := (rejects_eq_false_iff _ _ _).1 hr
      have h2 := (validate_send_bounds_iff _).1 (h1.2.2 rfl)
      have hslot : STACK_START + 2 ≤ v.reserve.item_start.toNat := by
        simp only [item_start, MAX_DATA_WORDS, HEADER_SIZE, STACK_START]
        omega
      refine ⟨hslot, ?_, ?_⟩
      · rw [put_msg]
        simp only []
        rw [if_neg (by omega), if_neg (by omega)]
        simpa using hv.1
      · intro _
        rw [validate_send_bounds_head (put_head _ _ _)]
        exact h1.2.2 rfl)
    MAX_DATA_WORDS addr size hotspot u trivial ⟨rfl, id⟩
  refine ⟨key.1.1, key.2, key.1.2, ?_⟩
  intro hr
  have h := (validate_recv_bounds_iff u).1 hr
  exact (validate_recv_bounds_iff _).2 ⟨key.1.2 h.1, key.1.1.trans h.2⟩

theorem C10_frame_keeps_bounds_witness :
    Utcb.zero.validate_recv_bounds = true ∧
    (add_mappings Cpu.minshift Utcb.zero 0x1000 0x3000 0 DESC_MEM_ALL true 16).utcb.validate_recv_bounds
      = true :=
  ⟨by decide,
   (C10_frame_keeps_bounds Cpu.minshift Utcb.zero 0x1000 0x3000 0 DESC_MEM_ALL 16).2.2.2 (by decide)⟩

/-- A first reservation that is rejected: the call returns `size` and leaves
the UTCB as it was. -/
theorem add_mappings_rejected (ms : Nat → Nat → Nat) (u : Utcb)
    (addr size hotspot rights : Nat) (frame : Bool) (max_items : Nat)
    (ht : u.head.typed < HALF) (hs : size ≠ 0)
    (hm : MINSHIFT ≤ ms (addr ||| hotspot &&& 0xfffff000) size)
    (hr : rejects u.reserve frame max_items = true) :
    (add_mappings ms u addr size hotspot rights frame max_items).status = .returned size ∧
    (add_mappings ms u addr size hotspot rights frame max_items).items = [] ∧
    (add_mappings ms u addr size hotspot rights frame max_items).utcb = u := by
  have e : add_mappings ms u addr size hotspot rights frame max_items
      = add_mappings_loop ms rights frame max_items (1019 + 1) addr size hotspot u := rfl
  rw [e, add_mappings_loop, if_neg hs, if_neg (by omega), if_pos hr]
  exact ⟨rfl, rfl, release_reserve u ht⟩

/-- C2 (as stated, refuted): on a UTCB with `head.untyped = 0` and
`head.typed = 600` the call `add_mappings(0x1000, 0x1000, 0, DESC_MEM_ALL)`
returns `0x1000` without writing an item, and `untyped + 2*typed` is 1200
after the call, above `MAX_DATA_WORDS` = 1020. -/
theorem C2_counterexample :
    (add_mappings Cpu.minshift overfull 0x1000 0x1000 0 DESC_MEM_ALL false
      default_max_items).status = .returned 0x1000 ∧
    (add_mappings Cpu.minshift overfull 0x1000 0x1000 0 DESC_MEM_ALL false
      default_max_items).items = [] ∧
    ¬ ((add_mappings Cpu.minshift overfull 0x1000 0x1000 0 DESC_MEM_ALL false
        default_max_items).utcb.head.untyped +
      2 * (add_mappings Cpu.minshift overfull 0x1000 0x1000 0 DESC_MEM_ALL false
        default_max_items).utcb.head.typed ≤ MAX_DATA_WORDS) := by
  decide

/-- C2 (amended): for every UTCB with `untyped + 2*typed <= MAX_DATA_WORDS` on
entry, whatever `Cpu::minshift` returns and for every argument list,
`add_mappings` writes no item into the untyped words: each item written lies
at a word index `>= head.untyped` and inside `msg`, the untyped words and
`head.untyped` are unchanged, and `untyped + 2*typed <= MAX_DATA_WORDS` holds
when the call ends; a non-zero size is returned only after a reservation was
rejected and undone, and when the first reservation is rejected the call
returns `size` with nothing written. -/
theorem C2_items_clear_of_untyped (ms : Nat → Nat → Nat) (u : Utcb)
    (addr size hotspot rights : Nat) (frame : Bool) (max_items : Nat)
    (h : u.head.untyped + 2 * u.head.typed ≤ MAX_DATA_WORDS) :
    (∀ it ∈ (add_mappings ms u addr size hotspot rights frame max_items).items,
      u.head.untyped ≤ it.slot ∧ it.slot + 1 < MAX_DATA_WORDS) ∧
    (∀ i, i < u.head.untyped →
      (add_mappings ms u addr size hotspot rights frame max_items).utcb.msg i = u.msg i) ∧
    (add_mappings ms u addr size hotspot rights frame max_items).utcb.head.untyped
      = u.head.untyped ∧
    (add_mappings ms u addr size hotspot rights frame max_items).utcb.head.untyped +
      2 * (add_mappings ms u addr size hotspot rights frame max_items).utcb.head.typed
        ≤ MAX_DATA_WORDS ∧
    (∀ r, (add_mappings ms u addr size hotspot rights frame max_items).status = .returned r →
      r ≠ 0 →
      rejects (add_mappings ms u addr size hotspot rights frame max_items).utcb.reserve
        frame max_items = true) ∧
    (size ≠ 0 → MINSHIFT ≤ ms (addr ||| hotspot &&& 0xfffff000) size →
      rejects u.reserve frame max_items = true →
      (add_mappings ms u addr size hotspot rights frame max_items).status = .returned size ∧
      (add_mappings ms u addr size hotspot rights frame max_items).items = [] ∧
      (add_mappings ms u addr size hotspot rights frame max_items).utcb = u) := by
  have hM : MAX_DATA_WORDS = 1020 := by decide
  rw [hM] at h
  have ht : u.head.typed < HALF := by simp only [HALF]; omega
  have key := loop_induct ms rights frame max_items
    (fun _ _ _ => True)
    (fun v => v.head.untyped = u.head.untyped ∧ v.head.untyped + 2 * v.head.typed ≤ 1020 ∧
      ∀ i, i < u.head.untyped → v.msg i = u.msg i)
    (fun it => u.head.untyped ≤ it.slot ∧ it.slot + 1 < 1020)
    (fun _ _ _ _ _ => trivial)
    (by
      intro v hv _
      rw [release_reserve v (by simp only [HALF]; omega)]
      exact hv)
    (by
      intro v a s h _ _ _ hv hr
      have h1 := (rejects_eq_false_iff _ _ _).1 hr
      simp only [reserve_untyped, reserve_typed, HALF] at h1
      have hslot : v.reserve.item_start.toNat = 1020 - 2 * (v.head.typed + 1) := by
        simp only [item_start, MAX_DATA_WORDS, HEADER_SIZE, reserve_typed, HALF]
        omega
      simp only [hslot, put_head, reserve_untyped, reserve_typed, HALF]
      refine ⟨by omega, by omega, by omega, ?_⟩
      intro i hi
      rw [put_msg]
      simp only [hslot]
      rw [if_neg (by omega), if_neg (by omega)]
      simpa using hv.2.2 i hi)
    MAX_DATA_WORDS addr size hotspot u trivial ⟨rfl, h, fun _ _ => rfl⟩
  rw [hM]
  refine ⟨key.2, key.1.2.2, key.1.1, key.1.2.1, ?_, ?_⟩
  · intro r hr hne
    exact loop_returned _ _ _ _ _ r ht hr hne
  · intro hs hm hr
    exact add_mappings_rejected ms u addr size hotspot rights frame max_items ht hs hm hr

theorem C2_items_clear_of_untyped_witness :
    (∀ it ∈ (add_mappings Cpu.minshift Utcb.zero 0x1000 0x3000 0 DESC_MEM_ALL false 2).items,
      Utcb.zero.head.untyped ≤ it.slot ∧ it.slot + 1 < MAX_DATA_WORDS) ∧
    rejects (add_mappings Cpu.minshift Utcb.zero 0x1000 0x3000 0 DESC_MEM_ALL false 2).utcb.reserve
      false 2 = true :=
  ⟨(C2_items_clear_of_untyped Cpu.minshift Utcb.zero 0x1000 0x3000 0 DESC_MEM_ALL false 2
      (by decide)).1,
   (C2_items_clear_of_untyped Cpu.minshift Utcb.zero 0x1000 0x3000 0 DESC_MEM_ALL false 2
      (by decide)).2.2.2.2.1 0x1000 (by decide) (by decide)⟩

/-- C9 (as stated, refuted): with `head.typed = 16 = max_items` on entry and
`size = 0x800 > 0`, `add_mappings(0x1000, 0x800, 0, DESC_MEM_ALL)` does not
return `size`: the shift of the half page is 11, the assertion
`minshift >= Utcb::MINSHIFT` fails and the call ends in `do_exit`.  And with
`head.typed = 65535 >= max_items = 16` on entry, `head.typed++` wraps to 0,
the test `head.typed > max_items` passes, an item is written at
`msg + MAX_DATA_WORDS` and 0 is returned. -/
theorem C9_counterexample :
    (sixteen.head.typed ≥ 16 ∧
      (add_mappings Cpu.minshift sixteen 0x1000 0x800 0 DESC_MEM_ALL false 16).status
        = .asserted) ∧
    (full_counter.head.typed ≥ 16 ∧
      (add_mappings Cpu.minshift full_counter 0x1000 0x1000 0 DESC_MEM_ALL false 16).status
        = .returned 0 ∧
      (add_mappings Cpu.minshift full_counter 0x1000 0x1000 0 DESC_MEM_ALL false 16).items
        = [⟨MAX_DATA_WORDS, 0x1000, 0x1000, 0, 12⟩]) := by
  decide

/-- C9 (amended): `max_items` bounds the number of typed items, whatever
`Cpu::minshift` returns: for every call with `head.typed <= max_items` on
entry, `head.typed <= max_items` when the call ends; and if
`max_items <= head.typed < 65535` on entry, `size > 0` and the assertion on the
shift holds, no item is written, the UTCB is unchanged and `size` is returned
unchanged. -/
theorem C9_max_items (ms : Nat → Nat → Nat) (u : Utcb)
    (addr size hotspot rights : Nat) (frame : Bool) (max_items : Nat)
    (ht : u.head.typed < HALF) :
    (u.head.typed ≤ max_items →
      (add_mappings ms u addr size hotspot rights frame max_items).utcb.head.typed
        ≤ max_items) ∧
    (max_items ≤ u.head.typed → u.head.typed < 65535 → size > 0 →
      MINSHIFT ≤ ms (addr ||| hotspot &&& 0xfffff000) size →
      (add_mappings ms u addr size hotspot rights frame max_items).status = .returned size ∧
      (add_mappings ms u addr size hotspot rights frame max_items).items = [] ∧
      (add_mappings ms u addr size hotspot rights frame max_items).utcb = u) := by
  constructor
  · intro hle
    have key := loop_induct ms rights frame max_items (fun _ _ _ => True)
      (fun v => v.head.typed ≤ max_items ∧ v.head.typed < HALF) (fun _ => True)
      (fun _ _ _ _ _ => trivial)
      (by
        intro v hv _
        rw [release_reserve v hv.2]
        exact hv)
      (by
        intro v a s h _ _ _ _ hr
        have h1 := (rejects_eq_false_iff _ _ _).1 hr
        refine ⟨trivial, by simpa using h1.2.1, ?_⟩
        simp only [put_head, reserve_typed, HALF]
        omega)
      MAX_DATA_WORDS addr size hotspot u trivial ⟨hle, ht⟩
    exact key.1.1
  · intro hge hlt hs hm
    refine add_mappings_rejected ms u addr size hotspot rights frame max_items ht (by omega) hm ?_
    cases hr : rejects u.reserve frame max_items
    · have h1 := (rejects_eq_false_iff _ _ _).1 hr
      simp only [reserve_typed, HALF] at h1
      omega
    · rfl

theorem C9_max_items_witness :
    (add_mappings Cpu.minshift Utcb.zero 0x1000 0x3000 0 DESC_MEM_ALL false 2).utcb.head.typed ≤ 2 ∧
    (add_mappings Cpu.minshift sixteen 0x1000 0x3000 0 DESC_MEM_ALL false 16).status
      = .returned 0x3000 :=
  ⟨(C9_max_items Cpu.minshift Utcb.zero 0x1000 0x3000 0 DESC_MEM_ALL false 2 (by decide)).1
      (by decide),
   ((C9_max_items Cpu.minshift sixteen 0x1000 0x3000 0 DESC_MEM_ALL false 16 (by decide)).2
      (by decide) (by decide) (by decide) (by decide)).1⟩

/-! ## The items and the message words -/

theorem put_msg_other (u : Utcb) (it : Item) (r j : Nat) (h0 : j ≠ it.slot)
    (h1 : j ≠ it.slot + 1) : (u.put it r).msg j = u.msg j := by
  rw [put_msg, if_neg h0, if_neg h1]

theorem two_pow_dvd_iff_testBit (x s : Nat) :
    2 ^ s ∣ x ↔ ∀ i, i < s → x.testBit i = false := by
  rw [Nat.dvd_iff_mod_eq_zero]
  constructor
  · intro h i hi
    have e := Nat.testBit_mod_two_pow x s i
    rw [h] at e
    simpa [hi] using e.symm
  · intro h
    apply Nat.eq_of_testBit_eq
    intro i
    rw [Nat.testBit_mod_two_pow]
    by_cases hi : i < s
    · simp [hi, h i hi]
    · simp [hi]

theorem two_pow_dvd_or (a b s : Nat) : 2 ^ s ∣ (a ||| b) ↔ 2 ^ s ∣ a ∧ 2 ^ s ∣ b := by
  simp only [two_pow_dvd_iff_testBit, Nat.testBit_or, Bool.or_eq_false_iff]
  constructor
  · intro h
    exact ⟨fun i hi => (h i hi).1, fun i hi => (h i hi).2⟩
  · intro h i hi
    exact ⟨h.1 i hi, h.2 i hi⟩

theorem page_dvd_and_mask (h : Nat) : 2 ^ 12 ∣ (h &&& 0xfffff000) := by
  rw [two_pow_dvd_iff_testBit]
  intro i hi
  have e1 : (0xfffff000 : Nat) = (2 ^ 20 - 1) <<< 12 := by decide
  rw [e1, Nat.testBit_and, Nat.testBit_shiftLeft]
  have : ¬ (i ≥ 12) := by omega
  simp [this]

namespace Cpu

theorem minshift_le (start size : Nat) : minshift start size ≤ 31 :=
  Nat.findGreatest_le 31

theorem minshift_spec (start size : Nat) (hs : size ≠ 0) :
    2 ^ minshift start size ∣ start ∧ 2 ^ minshift start size ≤ size := by
  have h := Nat.findGreatest_spec (P := fun s => 2 ^ s ∣ start ∧ 2 ^ s ≤ size)
    (Nat.zero_le 31) ⟨by simp, by simp; omega⟩
  exact h

theorem le_minshift (start size s : Nat) (hw : size < WORD) (h1 : 2 ^ s ∣ start)
    (h2 : 2 ^ s ≤ size) : s ≤ minshift start size := by
  have hs : s ≤ 31 := by
    by_contra hc
    have : 2 ^ 32 ≤ 2 ^ s := Nat.pow_le_pow_right (by decide) (by omega)
    simp only [WORD] at hw
    omega
  exact Nat.le_findGreatest hs ⟨h1, h2⟩

theorem page_le_minshift (start size : Nat) (hs : size ≠ 0) (h1 : start % 4096 = 0)
    (h2 : size % 4096 = 0) : 12 ≤ minshift start size := by
  refine Nat.le_findGreatest (by decide) ⟨?_, ?_⟩
  · exact Nat.dvd_of_mod_eq_zero h1
  · have : (2:Nat) ^ 12 = 4096 := by decide
    omega

end Cpu

theorem Crd.new_lt (offset order attr : Nat) (ho : offset < 2 ^ 20) (hr : order < 32)
    (ha : attr < 128) : (Crd.new offset order attr).value < WORD := by
  rw [Crd.new_value offset order attr ho hr ha]
  simp only [WORD]
  omega

theorem Crd.new_order (offset order attr : Nat) (ho : offset < 2 ^ 20) (hr : order < 32)
    (ha : attr < 128) : (Crd.new offset order attr).order = order := by
  rw [Crd.order, and_mask5, Nat.shiftRight_eq_div_pow, Crd.new_value offset order attr ho hr ha]
  omega

theorem Crd.new_base (offset order attr : Nat) (ho : offset < 2 ^ 20) (hr : order < 32)
    (ha : attr < 128) : (Crd.new offset order attr).base = offset * 4096 := by
  rw [Crd.base, and_page_mask _ (Crd.new_lt offset order attr ho hr ha),
    Crd.new_value offset order attr ho hr ha]
  omega

theorem Crd.new_cap (offset order attr : Nat) (ho : offset < 2 ^ 20) (hr : order < 32)
    (ha : attr < 128) : (Crd.new offset order attr).cap = offset := by
  rw [Crd.cap, Nat.shiftRight_eq_div_pow, Crd.new_value offset order attr ho hr ha]
  omega

theorem Crd.new_attr (offset order attr : Nat) (ho : offset < 2 ^ 20) (hr : order < 32)
    (ha : attr < 128) : (Crd.new offset order attr).attr = attr % 32 := by
  rw [Crd.attr, and_mask5, Crd.new_value offset order attr ho hr ha]
  omega

/-- The word stored to `item[0]` for a page-aligned address is the descriptor
`Crd(addr >> 12, minshift - 12, rights)`. -/
theorem Utcb.Item.word0_crd (it : Utcb.Item) (rights : Nat) (ha : it.addr % 4096 = 0)
    (hw : it.addr < WORD) (h1 : 12 ≤ it.minshift) (h2 : it.minshift ≤ 31) (hr : rights < 128) :
    Crd.ofValue (it.word0 rights) = Crd.new (it.addr / 4096) (it.minshift - 12) rights := by
  have hlt := Crd.new_lt (it.addr / 4096) (it.minshift - 12) rights
    (by simp only [WORD] at hw; omega) (by omega) hr
  have e1 : ((it.addr / 4096) % WORD) <<< 12 % WORD = it.addr := by
    rw [Nat.shiftLeft_eq]
    simp only [WORD] at *
    omega
  have e2 : (it.minshift - 12) % WORD = it.minshift - 12 := by
    simp only [WORD]; omega
  have e3 : rights % WORD = rights := by
    simp only [WORD]; omega
  have hv : (Crd.new (it.addr / 4096) (it.minshift - 12) rights).value
      = it.addr ||| (((it.minshift - 12) <<< 7) % WORD) ||| rights := by
    simp only [Crd.new, e1, e2, e3]
  have hw0 : it.word0 rights % WORD
      = (Crd.new (it.addr / 4096) (it.minshift - 12) rights).value := by
    rw [hv] at hlt ⊢
    simp only [Utcb.Item.word0, Utcb.MINSHIFT, Nat.mod_mod]
    exact Nat.mod_eq_of_lt hlt
  show (⟨⟨it.word0 rights % WORD⟩⟩ : Crd) = _
  rw [hw0]

open Utcb

/-- With the modelled `Cpu::minshift`, the shift of every item is the largest
one that divides the address and the hotspot page and fits the size left. -/
theorem items_greedy (u : Utcb) (addr size hotspot rights : Nat) (frame : Bool)
    (max_items : Nat) (hs : size < WORD) (hh : hotspot < WORD) :
    ∀ it ∈ (add_mappings Cpu.minshift u addr size hotspot rights frame max_items).items,
      (2 ^ it.minshift ∣ it.addr ∧ 2 ^ it.minshift ∣ it.hotspot / 4096 * 4096 ∧
        2 ^ it.minshift ≤ it.size) ∧
      ∀ s, 2 ^ s ∣ it.addr → 2 ^ s ∣ it.hotspot / 4096 * 4096 → 2 ^ s ≤ it.size →
        s ≤ it.minshift := by
  have key := loop_induct Cpu.minshift rights frame max_items
    (fun _ s h => s < WORD ∧ h < WORD) (fun _ => True)
    (fun it => (2 ^ it.minshift ∣ it.addr ∧ 2 ^ it.minshift ∣ it.hotspot / 4096 * 4096 ∧
        2 ^ it.minshift ≤ it.size) ∧
      ∀ s, 2 ^ s ∣ it.addr → 2 ^ s ∣ it.hotspot / 4096 * 4096 → 2 ^ s ≤ it.size →
        s ≤ it.minshift)
    (by
      intro a s h _ _
      exact ⟨Nat.mod_lt _ (by decide), Nat.mod_lt _ (by decide)⟩)
    (fun _ _ _ => trivial)
    (by
      intro v a s h hv hs0 _ _ _
      refine ⟨?_, trivial⟩
      have hsp := Cpu.minshift_spec (a ||| h &&& 0xfffff000) s hs0
      have hle := fun s' => Cpu.le_minshift (a ||| h &&& 0xfffff000) s s' hv.1
      simp only []
      generalize Cpu.minshift (a ||| h &&& 0xfffff000) s = m at hsp hle ⊢
      rw [two_pow_dvd_or, and_page_mask h hv.2] at hsp
      refine ⟨⟨hsp.1.1, hsp.1.2, hsp.2⟩, ?_⟩
      intro s' h1 h2 h3
      refine hle s' ?_ h3
      rw [two_pow_dvd_or, and_page_mask h hv.2]
      exact ⟨h1, h2⟩)
    MAX_DATA_WORDS addr size hotspot u ⟨hs, hh⟩ trivial
  exact key.2

set_option maxRecDepth 100000 in
/-- Scenario 1, evaluated: three items of shift 12, and nothing left. -/
theorem scenario1_run (u : Utcb) (rights : Nat) :
    (add_mappings Cpu.minshift u.reset 0x1000 0x3000 0 rights false 16).status = .returned 0 ∧
    (add_mappings Cpu.minshift u.reset 0x1000 0x3000 0 rights false 16).items =
      [⟨1018, 0x1000, 0x3000, 0, 12⟩, ⟨1016, 0x2000, 0x2000, 0x1000, 12⟩,
       ⟨1014, 0x3000, 0x1000, 0x2000, 12⟩] ∧
    (add_mappings Cpu.minshift u.reset 0x1000 0x3000 0 rights false 16).utcb.head.typed = 3 :=
  ⟨rfl, rfl, rfl⟩

/-- C4: with `Cpu::minshift` as the spec describes it, the shift of every item
that `add_mappings` writes is the largest `s` such that `2^s` divides the
current address, `2^s` divides the current hotspot with its low 12 bits
cleared, and `2^s` does not exceed the size left; and
`add_mappings(addr=0x1000, size=0x3000, hotspot=0, rights)` on an empty UTCB
with `max_items = 16` returns 0 and writes exactly 3 items, each of shift 12,
that is of order 0 and 4 KiB. -/
theorem C4_greedy_shift :
    (∀ (u : Utcb) (addr size hotspot rights : Nat) (frame : Bool) (max_items : Nat),
      size < WORD → hotspot < WORD →
      ∀ it ∈ (add_mappings Cpu.minshift u addr size hotspot rights frame max_items).items,
        (2 ^ it.minshift ∣ it.addr ∧ 2 ^ it.minshift ∣ it.hotspot / 4096 * 4096 ∧
          2 ^ it.minshift ≤ it.size) ∧
        ∀ s, 2 ^ s ∣ it.addr → 2 ^ s ∣ it.hotspot / 4096 * 4096 → 2 ^ s ≤ it.size →
          s ≤ it.minshift) ∧
    (∀ (u : Utcb) (rights : Nat),
      (add_mappings Cpu.minshift u.reset 0x1000 0x3000 0 rights false 16).status = .returned 0 ∧
      (add_mappings Cpu.minshift u.reset 0x1000 0x3000 0 rights false 16).items.length = 3 ∧
      (add_mappings Cpu.minshift u.reset 0x1000 0x3000 0 rights false 16).utcb.head.typed = 3 ∧
      ∀ it ∈ (add_mappings Cpu.minshift u.reset 0x1000 0x3000 0 rights false 16).items,
        it.minshift - MINSHIFT = 0 ∧ it.mapsize = 4096 ∧
        (rights < 128 → (Crd.ofValue (it.word0 rights)).order = 0)) := by
  refine ⟨items_greedy, ?_⟩
  intro u rights
  obtain ⟨h1, h2, h3⟩ := scenario1_run u rights
  refine ⟨h1, by rw [h2]; rfl, h3, ?_⟩
  rw [h2]
  intro it hit
  have hm : it.minshift = 12 ∧ it.addr % 4096 = 0 ∧ it.addr < WORD := by
    simp only [List.mem_cons, List.mem_singleton, List.not_mem_nil, or_false] at hit
    rcases hit with rfl | rfl | rfl <;> decide
  refine ⟨by rw [hm.1]; rfl, by rw [Item.mapsize, hm.1]; rfl, ?_⟩
  intro hr
  rw [Item.word0_crd it rights hm.2.1 hm.2.2 (by omega) (by omega) hr,
    Crd.new_order _ _ _ (by have := hm.2.2; simp only [WORD] at this; omega) (by omega) hr]
  omega

theorem C4_greedy_shift_witness :
    (∀ it ∈ (add_mappings Cpu.minshift Utcb.zero 0x4000 0x5000 1 DESC_MEM_ALL false 16).items,
      ∀ s, 2 ^ s ∣ it.addr → 2 ^ s ∣ it.hotspot / 4096 * 4096 → 2 ^ s ≤ it.size →
        s ≤ it.minshift) ∧
    (∀ it ∈ (add_mappings Cpu.minshift Utcb.zero.reset 0x1000 0x3000 0 DESC_MEM_ALL false 16).items,
      (Crd.ofValue (it.word0 DESC_MEM_ALL)).order = 0) :=
  ⟨fun it hit => (C4_greedy_shift.1 Utcb.zero 0x4000 0x5000 1 DESC_MEM_ALL false 16 (by decide)
      (by decide) it hit).2,
   fun it hit => (C4_greedy_shift.2 Utcb.zero DESC_MEM_ALL).2.2.2 it hit |>.2.2 (by decide)⟩

/-! ## Runs of `add_mappings` on page-aligned regions -/

theorem loop_typed (ms : Nat → Nat → Nat) (rights : Nat) (frame : Bool) (max_items : Nat) :
    ∀ fuel addr size hotspot u,
      (u.head.typed < HALF →
        (add_mappings_loop ms rights frame max_items fuel addr size hotspot u).utcb.head.typed
          = (u.head.typed +
              (add_mappings_loop ms rights frame max_items fuel addr size hotspot u).items.length)
            % HALF) ∧
      (u.head.typed < 65535 →
        (add_mappings_loop ms rights frame max_items fuel addr size hotspot u).utcb.head.typed
          = u.head.typed +
              (add_mappings_loop ms rights frame max_items fuel addr size hotspot u).items.length)
      := by
  intro fuel
  induction fuel with
  | zero =>
    intro addr size hotspot u
    refine ⟨fun h => ?_, fun h => ?_⟩ <;>
      (simp only [add_mappings_loop, List.length_nil, HALF] at *; omega)
  | succ n ih =>
    intro addr size hotspot u
    simp only [add_mappings_loop]
    split_ifs with h0 h1 h2 h3
    · refine ⟨fun h => ?_, fun h => ?_⟩ <;> (simp only [List.length_nil, HALF] at *; omega)
    · refine ⟨fun h => ?_, fun h => ?_⟩ <;> (simp only [List.length_nil, HALF] at *; omega)
    · refine ⟨fun h => ?_, fun h => ?_⟩
      · rw [release_reserve u h]
        simp only [List.length_nil, HALF] at *
        omega
      · rw [release_reserve u (by simp only [HALF]; omega)]
        simp only [List.length_nil]
        omega
    · have hr := (rejects_eq_false_iff _ _ _).1 (by simpa using h2)
      simp only [reserve_untyped, reserve_typed, HALF] at hr
      refine ⟨fun _ => ?_, fun h => ?_⟩
      · simp only [put_head, reserve_typed, List.length_singleton]
      · simp only [put_head, reserve_typed, List.length_singleton, HALF]
        omega
    · have hr := (rejects_eq_false_iff _ _ _).1 (by simpa using h2)
      simp only [reserve_untyped, reserve_typed, HALF] at hr
      have hi := ih ((addr + 2 ^ ms (addr ||| hotspot &&& 0xfffff000) size) % WORD)
        ((size + (WORD - 2 ^ ms (addr ||| hotspot &&& 0xfffff000) size)) % WORD)
        ((hotspot + 2 ^ ms (addr ||| hotspot &&& 0xfffff000) size) % WORD)
        (u.reserve.put ⟨u.reserve.item_start.toNat, addr, size, hotspot,
          ms (addr ||| hotspot &&& 0xfffff000) size⟩ rights)
      simp only [put_head, reserve_typed, HALF] at hi
      refine ⟨fun h => ?_, fun h => ?_⟩
      · simp only [List.length_cons, HALF] at *
        rw [hi.1 (by omega)]
        omega
      · simp only [List.length_cons]
        rw [hi.2 (by omega)]
        omega

theorem loop_run (rights : Nat) (frame : Bool) (max_items : Nat) :
    ∀ fuel addr size hotspot u, addr % 4096 = 0 → size % 4096 = 0 → size < WORD →
      ((add_mappings_loop Cpu.minshift rights frame max_items fuel addr size hotspot u).status
          = .unfinished ∨
        ∃ r, (add_mappings_loop Cpu.minshift rights frame max_items fuel addr size hotspot u).status
            = .returned r ∧ r % 4096 = 0 ∧
          ((add_mappings_loop Cpu.minshift rights frame max_items fuel addr size hotspot u).items.map
            Item.mapsize).sum + r = size) ∧
      Chained addr
        (add_mappings_loop Cpu.minshift rights frame max_items fuel addr size hotspot u).items ∧
      ∀ it ∈ (add_mappings_loop Cpu.minshift rights frame max_items fuel addr size hotspot u).items,
        12 ≤ it.minshift ∧ it.minshift ≤ 31 := by
  intro fuel
  induction fuel with
  | zero =>
    intro addr size hotspot u _ _ _
    simp [add_mappings_loop, Chained]
  | succ n ih =>
    intro addr size hotspot u ha hs hw
    have hstart : (addr ||| hotspot &&& 0xfffff000) % 4096 = 0 := by
      apply Nat.mod_eq_zero_of_dvd
      have : (4096 : Nat) = 2 ^ 12 := by decide
      rw [this, two_pow_dvd_or]
      exact ⟨Nat.dvd_of_mod_eq_zero ha, page_dvd_and_mask hotspot⟩
    simp only [add_mappings_loop]
    split_ifs with h0 h1 h2 h3
    · simp [Chained, h0]
    · have := Cpu.page_le_minshift _ _ h0 hstart hs
      simp only [MINSHIFT] at h1
      omega
    · simp [Chained, hs]
    · have := Cpu.minshift_le (addr ||| hotspot &&& 0xfffff000) size
      omega
    · have h12 := Cpu.page_le_minshift _ _ h0 hstart hs
      have h31 := Cpu.minshift_le (addr ||| hotspot &&& 0xfffff000) size
      have hsp := (Cpu.minshift_spec (addr ||| hotspot &&& 0xfffff000) size h0).2
      have hdv : 2 ^ 12 ∣ 2 ^ Cpu.minshift (addr ||| hotspot &&& 0xfffff000) size :=
        Nat.pow_dvd_pow 2 h12
      have hmod := Nat.mod_eq_zero_of_dvd hdv
      have hi := ih ((addr + 2 ^ Cpu.minshift (addr ||| hotspot &&& 0xfffff000) size) % WORD)
        ((size + (WORD - 2 ^ Cpu.minshift (addr ||| hotspot &&& 0xfffff000) size)) % WORD)
        ((hotspot + 2 ^ Cpu.minshift (addr ||| hotspot &&& 0xfffff000) size) % WORD)
        (u.reserve.put ⟨u.reserve.item_start.toNat, addr, size, hotspot,
          Cpu.minshift (addr ||| hotspot &&& 0xfffff000) size⟩ rights)
      simp only [List.map_cons, List.sum_cons, Chained, Item.mapsize, List.mem_cons,
        forall_eq_or_imp, true_and]
      generalize 2 ^ Cpu.minshift (addr ||| hotspot &&& 0xfffff000) size = M at hi hsp hmod ⊢
      have e2 : (size + (WORD - M)) % WORD = size - M := by
        simp only [WORD] at *
        omega
      rw [e2] at hi ⊢
      have hi' := hi (by simp only [WORD] at *; omega) (by simp only [WORD] at *; omega)
        (by omega)
      refine ⟨?_, hi'.2.1, ⟨h12, h31⟩, hi'.2.2⟩
      rcases hi'.1 with hu | ⟨r, hr1, hr2, hr3⟩
      · exact Or.inl hu
      · refine Or.inr ⟨r, hr1, hr2, ?_⟩
        omega

/-- C3: for page-aligned `addr` and `size` a multiple of 4096 (a 32-bit size,
a 16-bit counter), `add_mappings` returns some `r <= size`; the items it wrote
lie back to back from `addr` on and their chunk sizes sum to exactly
`size - r`; `head.typed` has grown by the number of items written, in 16-bit
arithmetic, and exactly so unless the counter was 65535 on entry; and `r = 0`
if and only if the chunk sizes sum to `size`. -/
theorem C3_returns_remainder (u : Utcb) (addr size hotspot rights : Nat) (frame : Bool)
    (max_items : Nat) (ha : addr % 4096 = 0) (hs : size % 4096 = 0) (hw : size < WORD)
    (ht : u.head.typed < HALF) :
    ∃ r, (add_mappings Cpu.minshift u addr size hotspot rights frame max_items).status
        = .returned r ∧ r ≤ size ∧
      ((add_mappings Cpu.minshift u addr size hotspot rights frame max_items).items.map
        Item.mapsize).sum = size - r ∧
      Chained addr (add_mappings Cpu.minshift u addr size hotspot rights frame max_items).items ∧
      (add_mappings Cpu.minshift u addr size hotspot rights frame max_items).utcb.head.typed
        = (u.head.typed +
            (add_mappings Cpu.minshift u addr size hotspot rights frame max_items).items.length)
          % HALF ∧
      (u.head.typed < 65535 →
        (add_mappings Cpu.minshift u addr size hotspot rights frame max_items).utcb.head.typed
          = u.head.typed +
            (add_mappings Cpu.minshift u addr size hotspot rights frame max_items).items.length) ∧
      (r = 0 ↔
        ((add_mappings Cpu.minshift u addr size hotspot rights frame max_items).items.map
          Item.mapsize).sum = size) := by
  have hrun := loop_run rights frame max_items MAX_DATA_WORDS addr size hotspot u ha hs hw
  have hty := loop_typed Cpu.minshift rights frame max_items MAX_DATA_WORDS addr size hotspot u
  have hfin := add_mappings_finishes Cpu.minshift u addr size hotspot rights frame max_items
  rcases hrun.1 with hu | ⟨r, hr1, _, hr3⟩
  · exact absurd hu hfin
  · refine ⟨r, hr1, by omega, ?_, hrun.2.1, hty.1 ht, hty.2, ?_⟩
    · simp only [add_mappings]; omega
    · simp only [add_mappings]; omega

theorem C3_returns_remainder_witness :
    ∃ r, (add_mappings Cpu.minshift Utcb.zero 0x1000 0x3000 0 DESC_MEM_ALL false 2).status
        = .returned r ∧ r ≤ 0x3000 ∧
      ((add_mappings Cpu.minshift Utcb.zero 0x1000 0x3000 0 DESC_MEM_ALL false 2).items.map
        Item.mapsize).sum = 0x3000 - r ∧
      Chained 0x1000 (add_mappings Cpu.minshift Utcb.zero 0x1000 0x3000 0 DESC_MEM_ALL false 2).items ∧
      (add_mappings Cpu.minshift Utcb.zero 0x1000 0x3000 0 DESC_MEM_ALL false 2).utcb.head.typed
        = (Utcb.zero.head.typed +
            (add_mappings Cpu.minshift Utcb.zero 0x1000 0x3000 0 DESC_MEM_ALL false 2).items.length)
          % HALF ∧
      (Utcb.zero.head.typed < 65535 →
        (add_mappings Cpu.minshift Utcb.zero 0x1000 0x3000 0 DESC_MEM_ALL false 2).utcb.head.typed
          = Utcb.zero.head.typed +
            (add_mappings Cpu.minshift Utcb.zero 0x1000 0x3000 0 DESC_MEM_ALL false 2).items.length) ∧
      (r = 0 ↔
        ((add_mappings Cpu.minshift Utcb.zero 0x1000 0x3000 0 DESC_MEM_ALL false 2).items.map
          Item.mapsize).sum = 0x3000) :=
  C3_returns_remainder Utcb.zero 0x1000 0x3000 0 DESC_MEM_ALL false 2 (by decide) (by decide)
    (by decide) (by decide)

/-! ## The repeated application -/

theorem chained_append (xs ys : List Item) :
    ∀ a, a < WORD → Chained a xs → Chained ((a + (xs.map Item.mapsize).sum) % WORD) ys →
      Chained a (xs ++ ys) := by
  induction xs with
  | nil =>
    intro a ha _ h
    simp only [List.map_nil, List.sum_nil, Nat.add_zero, Nat.mod_eq_of_lt ha] at h
    simpa using h
  | cons x xs ih =>
    intro a ha hx hy
    simp only [Chained, List.cons_append] at hx ⊢
    refine ⟨hx.1, ih _ (Nat.mod_lt _ (by decide)) hx.2 ?_⟩
    have e : ((a + x.mapsize) % WORD + (xs.map Item.mapsize).sum) % WORD
        = (a + ((x :: xs).map Item.mapsize).sum) % WORD := by
      simp only [List.map_cons, List.sum_cons, WORD]
      omega
    rw [e]
    exact hy

theorem chained_mem (xs : List Item) :
    ∀ a, a < WORD → Chained a xs → ∀ y ∈ xs,
      ∃ d, y.addr = (a + d) % WORD ∧ d + y.mapsize ≤ (xs.map Item.mapsize).sum := by
  induction xs with
  | nil => intro a _ _ y hy; cases hy
  | cons x xs ih =>
    intro a ha hx y hy
    simp only [Chained] at hx
    simp only [List.mem_cons] at hy
    simp only [List.map_cons, List.sum_cons]
    rcases hy with rfl | hy
    · exact ⟨0, by rw [hx.1, Nat.add_zero, Nat.mod_eq_of_lt ha], by omega⟩
    · obtain ⟨d, hd1, hd2⟩ := ih _ (Nat.mod_lt _ (by decide)) hx.2 y hy
      refine ⟨x.mapsize + d, ?_, by omega⟩
      rw [hd1]
      simp only [WORD]
      omega

/-- Items that lie back to back and add up to less than the address space do
not overlap. -/
theorem chained_pairwise (xs : List Item) :
    ∀ a, a < WORD → Chained a xs → (xs.map Item.mapsize).sum < WORD →
      xs.Pairwise (fun x y => x.addr + x.mapsize ≤ y.addr ∨ y.addr + y.mapsize ≤ x.addr) := by
  induction xs with
  | nil => intro a _ _ _; exact List.Pairwise.nil
  | cons x xs ih =>
    intro a ha hx hsum
    simp only [Chained] at hx
    simp only [List.map_cons, List.sum_cons] at hsum
    rw [List.pairwise_cons]
    refine ⟨?_, ih _ (Nat.mod_lt _ (by decide)) hx.2 (by omega)⟩
    intro y hy
    obtain ⟨d, hd1, hd2⟩ := chained_mem xs _ (Nat.mod_lt _ (by decide)) hx.2 y hy
    rw [hd1, hx.1]
    simp only [WORD] at *
    omega

theorem chained_aligned (xs : List Item) :
    ∀ a, a % 4096 = 0 → a < WORD → (∀ y ∈ xs, 12 ≤ y.minshift) → Chained a xs →
      ∀ y ∈ xs, y.addr % 4096 = 0 ∧ y.addr < WORD := by
  induction xs with
  | nil => intro a _ _ _ _ y hy; cases hy
  | cons x xs ih =>
    intro a ha haw hms hx y hy
    simp only [Chained] at hx
    simp only [List.mem_cons] at hy
    rcases hy with rfl | hy
    · rw [hx.1]; exact ⟨ha, haw⟩
    · have h12 := hms x (List.mem_cons_self _ _)
      have hmod := Nat.mod_eq_zero_of_dvd (Nat.pow_dvd_pow 2 h12)
      refine ih _ ?_ (Nat.mod_lt _ (by decide)) (fun z hz => hms z (List.mem_cons_of_mem _ hz))
        hx.2 y hy
      simp only [Item.mapsize, WORD]
      omega

/-- On an emptied UTCB and with room for one item, a call on a non-empty
page-aligned region writes an item. -/
theorem first_item_written (u : Utcb) (addr size hotspot rights : Nat) (frame : Bool)
    (max_items : Nat) (ha : addr % 4096 = 0) (hs : size % 4096 = 0) (h0 : size ≠ 0)
    (hm : 1 ≤ max_items) :
    4096 ≤ ((add_mappings Cpu.minshift u.reset addr size hotspot rights frame max_items).items.map
      Item.mapsize).sum := by
  have hstart : (addr ||| hotspot &&& 0xfffff000) % 4096 = 0 := by
    apply Nat.mod_eq_zero_of_dvd
    have : (4096 : Nat) = 2 ^ 12 := by decide
    rw [this, two_pow_dvd_or]
    exact ⟨Nat.dvd_of_mod_eq_zero ha, page_dvd_and_mask hotspot⟩
  have h12 := Cpu.page_le_minshift _ _ h0 hstart hs
  have h31 := Cpu.minshift_le (addr ||| hotspot &&& 0xfffff000) size
  have hrej : rejects u.reset.reserve frame max_items = false := by
    rw [rejects_eq_false_iff]
    refine ⟨?_, ?_, ?_⟩
    · simp [reset, store, HALF]
    · simp only [reserve_typed, reset, store, HALF]; omega
    · intro _
      rw [validate_send_bounds_iff]
      simp [reset, store, HALF]
  have e : add_mappings Cpu.minshift u.reset addr size hotspot rights frame max_items
      = add_mappings_loop Cpu.minshift rights frame max_items (1019 + 1) addr size hotspot
          u.reset := rfl
  have h32 : ¬ 32 ≤ Cpu.minshift (addr ||| hotspot &&& 0xfffff000) size := by omega
  rw [e, add_mappings_loop, if_neg h0, if_neg (by simp only [MINSHIFT]; omega), hrej,
    if_neg (by simp), if_neg h32]
  simp only [List.map_cons, List.sum_cons, Item.mapsize]
  have : 2 ^ 12 ≤ 2 ^ Cpu.minshift (addr ||| hotspot &&& 0xfffff000) size :=
    Nat.pow_le_pow_right (by decide) h12
  omega

theorem map_region_covers (rights : Nat) (frame : Bool) (max_items : Nat) (hm : 1 ≤ max_items) :
    ∀ rounds u addr size hotspot, addr % 4096 = 0 → addr < WORD → size % 4096 = 0 →
      size < WORD → size / 4096 < rounds →
      ∃ items, map_region Cpu.minshift rights frame max_items rounds u addr size hotspot
          = some items ∧
        Chained addr items ∧ (items.map Item.mapsize).sum = size ∧
        ∀ it ∈ items, 12 ≤ it.minshift ∧ it.minshift ≤ 31 := by
  intro rounds
  induction rounds with
  | zero => intro u addr size hotspot _ _ _ _ h; omega
  | succ n ih =>
    intro u addr size hotspot ha haw hs hw hn
    have hrun := loop_run rights frame max_items MAX_DATA_WORDS addr size hotspot u.reset ha hs hw
    have hfin := add_mappings_finishes Cpu.minshift u.reset addr size hotspot rights frame
      max_items
    have hprog := first_item_written u addr size hotspot rights frame max_items ha hs
    rcases hrun.1 with hu | ⟨r, hr1, hr2, hr3⟩
    · exact absurd hu hfin
    · have hch := hrun.2.1
      have hit := hrun.2.2
      simp only [map_region]
      change (add_mappings Cpu.minshift u.reset addr size hotspot rights frame max_items).status
        = .returned r at hr1
      change ((add_mappings Cpu.minshift u.reset addr size hotspot rights frame
        max_items).items.map Item.mapsize).sum + r = size at hr3
      change Chained addr (add_mappings Cpu.minshift u.reset addr size hotspot rights frame
        max_items).items at hch
      change ∀ it ∈ (add_mappings Cpu.minshift u.reset addr size hotspot rights frame
        max_items).items, _ at hit
      generalize add_mappings Cpu.minshift u.reset addr size hotspot rights frame max_items
        = o at hr1 hr3 hch hit hprog ⊢
      obtain ⟨st, u1, items⟩ := o
      simp only [] at hr1 hr3 hch hit hprog
      subst hr1
      simp only []
      by_cases hr0 : r = 0
      · rw [if_pos hr0]
        exact ⟨items, rfl, hch, by omega, hit⟩
      · rw [if_neg hr0]
        have hp := hprog (by omega) hm
        obtain ⟨more, hm1, hm2, hm3, hm4⟩ := ih u1 ((addr + (size - r)) % WORD) r
          ((hotspot + (size - r)) % WORD) (by simp only [WORD]; omega)
          (Nat.mod_lt _ (by decide)) hr2 (by omega) (by omega)
        refine ⟨items ++ more, by rw [hm1]; rfl, ?_, ?_, ?_⟩
        · refine chained_append items more addr haw hch ?_
          have e : (items.map Item.mapsize).sum = size - r := by omega
          rw [e]
          exact hm2
        · rw [List.map_append, List.sum_append, hm3]
          omega
        · intro it hit'
          rcases List.mem_append.1 hit' with h | h
          · exact hit it h
          · exact hm4 it h

/-- C1 (as stated, refuted): for the non-zero address `0x1001`, size `0x1000`
and hotspot `0x1000` the first call of `add_mappings` computes the shift 0,
fails the assertion `minshift >= Utcb::MINSHIFT` and writes no item, so the
repeated application consumes nothing. -/
theorem C1_counterexample :
    (0x1001 ≠ 0 ∧ 0x1000 ≠ 0 ∧ 0x1000 % 4096 = 0) ∧
    Cpu.minshift (0x1001 ||| 0x1000 &&& 0xfffff000) 0x1000 = 0 ∧
    (add_mappings Cpu.minshift Utcb.zero.reset 0x1001 0x1000 0x1000 DESC_MEM_ALL false
      default_max_items).status = .asserted ∧
    (add_mappings Cpu.minshift Utcb.zero.reset 0x1001 0x1000 0x1000 DESC_MEM_ALL false
      default_max_items).items = [] ∧
    map_all Cpu.minshift Utcb.zero 0x1001 0x1000 0x1000 DESC_MEM_ALL false default_max_items
      = none := by
  decide

/-- C1 (amended): for every page-aligned 32-bit address, every 32-bit size that
is a multiple of 4096 and every hotspot, with any `frame` flag and any
`max_items >= 1`, applying `add_mappings` repeatedly (re-issuing it on the
emptied UTCB with address and hotspot advanced by the amount consumed while it
returns a non-zero remainder) ends and consumes exactly `size` bytes: every
item written has a size of `2^s` bytes with `s >= 12`, the item sizes sum to
`size`, and no two items cover overlapping address ranges.  For `rights`
below 128 the word stored to `item[0]` decodes, as a `Crd`, to the address of
the item and the order `s - 12`. -/
theorem C1_repeated_add_mappings (u : Utcb) (addr size hotspot rights : Nat) (frame : Bool)
    (max_items : Nat) (ha : addr % 4096 = 0) (haw : addr < WORD) (hs : size % 4096 = 0)
    (hw : size < WORD) (hm : 1 ≤ max_items) :
    ∃ items, map_all Cpu.minshift u addr size hotspot rights frame max_items = some items ∧
      (∀ it ∈ items, MINSHIFT ≤ it.minshift ∧ it.mapsize = 2 ^ it.minshift) ∧
      (items.map Item.mapsize).sum = size ∧
      items.Pairwise
        (fun x y => x.addr + x.mapsize ≤ y.addr ∨ y.addr + y.mapsize ≤ x.addr) ∧
      (rights < 128 → ∀ it ∈ items,
        (Crd.ofValue (it.word0 rights)).base = it.addr ∧
        (Crd.ofValue (it.word0 rights)).order + MINSHIFT = it.minshift) := by
  obtain ⟨items, h1, h2, h3, h4⟩ := map_region_covers rights frame max_items hm
    (size / 4096 + 1) u addr size hotspot ha haw hs hw (by omega)
  refine ⟨items, h1, ?_, h3, chained_pairwise items addr haw h2 (by omega), ?_⟩
  · intro it hit
    exact ⟨(h4 it hit).1, rfl⟩
  · intro hr it hit
    have hal := chained_aligned items addr ha haw (fun y hy => (h4 y hy).1) h2 it hit
    have hlt : it.addr / 4096 < 2 ^ 20 := by
      have := hal.2
      simp only [WORD] at this
      omega
    rw [Item.word0_crd it rights hal.1 hal.2 (h4 it hit).1 (h4 it hit).2 hr,
      Crd.new_base _ _ _ hlt (by have := (h4 it hit).2; omega) hr,
      Crd.new_order _ _ _ hlt (by have := (h4 it hit).2; omega) hr]
    have := (h4 it hit).1
    simp only [MINSHIFT]
    omega

theorem C1_repeated_add_mappings_witness :
    ∃ items, map_all Cpu.minshift Utcb.zero 0x7000 0x9000 0x3000 DESC_MEM_ALL false 2
        = some items ∧
      (∀ it ∈ items, MINSHIFT ≤ it.minshift ∧ it.mapsize = 2 ^ it.minshift) ∧
      (items.map Item.mapsize).sum = 0x9000 ∧
      items.Pairwise
        (fun x y => x.addr + x.mapsize ≤ y.addr ∨ y.addr + y.mapsize ≤ x.addr) ∧
      (DESC_MEM_ALL < 128 → ∀ it ∈ items,
        (Crd.ofValue (it.word0 DESC_MEM_ALL)).base = it.addr ∧
        (Crd.ofValue (it.word0 DESC_MEM_ALL)).order + MINSHIFT = it.minshift) :=
  C1_repeated_add_mappings Utcb.zero 0x7000 0x9000 0x3000 DESC_MEM_ALL false 2 (by decide)
    (by decide) (by decide) (by decide) (by decide)


/-! ## Claims on the bus -/

namespace DBus

/-- A `send` either finds no claimer and has invoked every callback, in
registration order, or the callbacks split into those invoked without a claim,
the first claimer, and the rest, which is not invoked. -/
theorem send_split {M σ : Type} (bus : List (Entry M σ)) :
    ∀ (msg : M) (flag : Bool) (s : σ),
      ((send bus msg flag s).claimed = false ∧
        (send bus msg flag s).invoked = bus.map (fun e => (e.dev, false))) ∨
      ∃ pre e post, bus = pre ++ e :: post ∧ (send bus msg flag s).claimed = true ∧
        (send bus msg flag s).invoked = pre.map (fun e => (e.dev, false)) ++ [(e.dev, true)] := by
  induction bus with
  | nil => intro msg flag s; exact Or.inl ⟨rfl, rfl⟩
  | cons e rest ih =>
    intro msg flag s
    simp only [send]
    by_cases h : (e.func msg s).1 = true
    · right
      exact ⟨[], e, rest, rfl, by simp [h], by simp [h]⟩
    · simp only [h, if_false, Bool.false_eq_true]
      rcases ih (e.func msg s).2.1 flag (e.func msg s).2.2 with ⟨h1, h2⟩ | ⟨pre, e', post, h1, h2, h3⟩
      · left
        exact ⟨h1, by simp [h2]⟩
      · right
        exact ⟨e :: pre, e', post, by simp [h1], h2, by simp [h3]⟩

end DBus

/-- C11: on the bus as the spec describes it, `send` invokes the callbacks in
registration order and stops at the first one that claims the message: either
nobody claims and all were invoked, or the invoked ones are the callbacks
registered before the first claimer, then the claimer, and the call returns
claimed.  With A, B, C registered in this order, A not claiming and B
claiming, `send` invokes A, then B, never C, and returns claimed. -/
theorem C11_dispatch_order {M σ : Type} :
    (∀ (bus : List (DBus.Entry M σ)) (msg : M) (flag : Bool) (s : σ),
      ((DBus.send bus msg flag s).claimed = false ∧
        (DBus.send bus msg flag s).invoked = bus.map (fun e => (e.dev, false))) ∨
      ∃ pre e post, bus = pre ++ e :: post ∧ (DBus.send bus msg flag s).claimed = true ∧
        (DBus.send bus msg flag s).invoked
          = pre.map (fun e => (e.dev, false)) ++ [(e.dev, true)]) ∧
    (∀ (a b c : Nat) (fa fb fc : M → σ → Bool × M × σ) (msg : M) (flag : Bool) (s : σ),
      (fa msg s).1 = false → (fb (fa msg s).2.1 (fa msg s).2.2).1 = true →
      (DBus.send (DBus.add (DBus.add (DBus.add [] a fa) b fb) c fc) msg flag s).invoked
        = [(a, false), (b, true)] ∧
      (DBus.send (DBus.add (DBus.add (DBus.add [] a fa) b fb) c fc) msg flag s).claimed
        = true) := by
  refine ⟨fun bus msg flag s => DBus.send_split bus msg flag s, ?_⟩
  intro a b c fa fb fc msg flag s ha hb
  simp [DBus.add, DBus.send, ha, hb]

theorem C11_dispatch_order_witness :
    (DBus.send (DBus.add (DBus.add (DBus.add [] 10 (mark 1 false)) 20 (mark 2 true)) 30
      (mark 4 true)) 7 false 0).invoked = [(10, false), (20, true)] ∧
    (DBus.send (DBus.add (DBus.add (DBus.add [] 10 (mark 1 false)) 20 (mark 2 true)) 30
      (mark 4 true)) 7 false 0).claimed = true :=
  (@C11_dispatch_order Nat Nat).2 10 20 30 (mark 1 false) (mark 2 true) (mark 4 true)
    7 false 0 rfl rfl

/-- C12: on the bus as the spec describes it, a `send` on a bus without
subscribers, in either mode, invokes no callback and returns unclaimed, the
message and the state being as before; `send` has no other way to end. -/
theorem C12_empty_bus {M σ : Type} (msg : M) (flag : Bool) (s : σ) :
    (DBus.send ([] : List (DBus.Entry M σ)) msg flag s).claimed = false ∧
    (DBus.send ([] : List (DBus.Entry M σ)) msg flag s).invoked = [] ∧
    (DBus.send ([] : List (DBus.Entry M σ)) msg flag s).msg = msg ∧
    (DBus.send ([] : List (DBus.Entry M σ)) msg flag s).state = s :=
  ⟨rfl, rfl, rfl, rfl⟩

/-! ## Claims on the parameters of `VCpu` -/

namespace VCpu

theorem GuestPtr.of_linear (a : Nat) (h : a < 2 ^ 20) : (GuestPtr.of a).linear = a := by
  simp only [GuestPtr.of, GuestPtr.linear, Nat.shiftLeft_eq, Nat.shiftRight_eq_div_pow, HALF, WORD]
  omega

theorem foldl_count_congr (f g : Nat → Nat) (n : Nat) (h : ∀ i, i < n → f i = g i) :
    ∀ base, (List.range n).foldl (fun res i => (res + f i) % WORD) base
      = (List.range n).foldl (fun res i => (res + g i) % WORD) base := by
  induction n with
  | zero => intro base; rfl
  | succ k ih =>
    intro base
    rw [List.range_succ, List.foldl_append, List.foldl_append,
      ih (fun i hi => h i (by omega)) base]
    simp only [List.foldl_cons, List.foldl_nil]
    rw [h k (by omega)]

/-- The scratch pointer depends on the destination of slot 0 and on the counts
of the slots in use only. -/
theorem get_shmem_ptr_congr (v w : VCpu) (hu : v.params_used = w.params_used)
    (h0 : (v.params 0).dst = (w.params 0).dst)
    (hc : ∀ i, i < v.params_used → (v.params i).count = (w.params i).count) :
    v.get_shmem_ptr = w.get_shmem_ptr := by
  simp only [get_shmem_ptr, ← hu, h0]
  exact foldl_count_congr _ _ _ hc _

/-- With a slot in use, `add_param` takes the next slot and leaves the others:
the new slot holds the count and, for a read, the address as source and the
scratch pointer as destination; for a write the two are swapped. -/
theorem add_param_eq (v : VCpu) (address count : Nat) (read : Bool)
    (h1 : 1 ≤ v.params_used) (h5 : v.params_used < 5) :
    ∃ w, v.add_param address count read = some w ∧
      w.params_used = v.params_used + 1 ∧
      w.params v.params_used =
        (if read then ⟨count % HALF, GuestPtr.of address, GuestPtr.of v.get_shmem_ptr⟩
         else ⟨count % HALF, GuestPtr.of v.get_shmem_ptr, GuestPtr.of address⟩) ∧
      ∀ i, i ≠ v.params_used → w.params i = v.params i := by
  have hp : ∀ p : Parameter, (v.set_param v.params_used p).get_shmem_ptr = v.get_shmem_ptr := by
    intro p
    apply get_shmem_ptr_congr
    · rfl
    · simp only [set_param]
      rw [if_neg (by omega)]
    · intro i hi
      simp only [set_param] at hi ⊢
      rw [if_neg (by omega)]
  have e : v.add_param address count read = some
      { (v.set_param v.params_used
          (if read then { count := count % HALF, src := GuestPtr.of address,
                          dst := (v.params v.params_used).dst }
           else { count := count % HALF, src := (v.params v.params_used).src,
                  dst := GuestPtr.of address })).set_param v.params_used
          (if read then ⟨count % HALF, GuestPtr.of address, GuestPtr.of v.get_shmem_ptr⟩
           else ⟨count % HALF, GuestPtr.of v.get_shmem_ptr, GuestPtr.of address⟩) with
        params_used := (v.params_used + 1) % WORD } := by
    simp only [add_param, NUM_VCPU_PARAMETER, h5, if_true]
    cases read <;> simp only [hp, if_true, if_false, Bool.false_eq_true]
  refine ⟨_, e, ?_, ?_, ?_⟩
  · simp only [set_param, WORD]
    omega
  · simp [set_param]
  · intro i hi
    simp [set_param, hi]

end VCpu

namespace VCpu

theorem find_range_first (p : Nat → Bool) (n i : Nat) (hi : i < n) (hp : p i = true)
    (hfirst : ∀ j, j < i → p j = false) : (List.range n).find? p = some i := by
  induction n with
  | zero => omega
  | succ k ih =>
    rw [List.range_succ, List.find?_append]
    by_cases hk : i < k
    · rw [ih hk]; rfl
    · have e : i = k := by omega
      subst e
      have hn : (List.range i).find? p = none := by
        rw [List.find?_eq_none]
        intro x hx
        rw [hfirst x (List.mem_range.1 hx)]
        simp
      rw [hn]
      simp [hp]

theorem find_range_none (p : Nat → Bool) (n : Nat) (h : ∀ i, i < n → p i = false) :
    (List.range n).find? p = none := by
  rw [List.find?_eq_none]
  intro x hx
  rw [h x (List.mem_range.1 hx)]
  simp

theorem check_params_idle (v : VCpu) (address count : Nat) (read : Bool)
    (h : v.params_used = 0) : v.check_params address count read = some (true, address, v) := by
  simp [check_params, h]

theorem check_params_match (v : VCpu) (address count i : Nat) (hi : i < v.params_used)
    (hm : v.matches_slot address count i = true)
    (hfirst : ∀ j, j < i → v.matches_slot address count j = false) :
    v.check_params address count true = some (true, (v.params i).dst.linear, v) := by
  have h0 : v.params_used ≠ 0 := by omega
  simp only [check_params, h0, if_false, if_true,
    find_range_first (fun i => v.matches_slot address count i) _ i hi hm hfirst]

theorem check_params_miss (v : VCpu) (address count : Nat) (h0 : v.params_used ≠ 0)
    (hm : ∀ i, i < v.params_used → v.matches_slot address count i = false) :
    v.check_params address count true
      = (v.add_param address count true).map (fun v1 => (false, address, v1)) := by
  simp only [check_params, h0, if_false, if_true,
    find_range_none (fun i => v.matches_slot address count i) _ hm]

theorem check_params_write (v : VCpu) (address count : Nat) (h0 : v.params_used ≠ 0) :
    v.check_params address count false
      = (v.add_param address count false).map (fun v1 => (true, v.get_shmem_ptr, v1)) := by
  simp only [check_params, h0, if_false, Bool.false_eq_true]

/-- In a state with slots in use, some slot matches a read or none does; the
first match is the least index that matches. -/
theorem first_match (p : Nat → Bool) (n : Nat) :
    (∀ i, i < n → p i = false) ∨
    ∃ i, i < n ∧ p i = true ∧ ∀ j, j < i → p j = false := by
  induction n with
  | zero => left; intro i hi; omega
  | succ k ih =>
    rcases ih with h | ⟨i, hi, hp, hf⟩
    · by_cases hk : p k = true
      · right; exact ⟨k, by omega, hk, h⟩
      · left
        intro i hi
        by_cases e : i = k
        · subst e; simpa using hk
        · exact h i (by omega)
    · right; exact ⟨i, by omega, hp, hf⟩

end VCpu

/-- C18 (as stated, refuted): after a read of `0x20` bytes at `0x500` and a
write of 4 bytes at `0x2000` were recorded, in slots 0 and 1, a read of 4
bytes at `0xf1020` is redirected to `0x2000`, although `(0xf1020, 4)` is the
source and count of no slot recorded for a read: it is the scratch source of
the slot recorded for the write. -/
theorem C18_counterexample :
    VCpu.one_read.map (fun v => (v.params_used, v.params 0))
      = some (1, ⟨0x20, VCpu.GuestPtr.of 0x500, VCpu.GuestPtr.of 0xf1000⟩) ∧
    VCpu.read_then_write.map (fun v => (v.params_used, v.params 0, v.params 1))
      = some (2, ⟨0x20, VCpu.GuestPtr.of 0x500, VCpu.GuestPtr.of 0xf1000⟩,
          ⟨4, VCpu.GuestPtr.of 0xf1020, VCpu.GuestPtr.of 0x2000⟩) ∧
    (0xf1020, 4) ≠ ((VCpu.GuestPtr.of 0x500).linear, 0x20) ∧
    VCpu.read_then_write.bind (fun v =>
        (v.check_params 0xf1020 4 true).map (fun r => (r.1, r.2.1, r.2.2.params_used)))
      = some (true, 0x2000, 2) := by
  decide

/-- C18 (amended): when `params_used = 0`, `check_params` returns true and
changes neither the address nor any slot.  When `params_used > 0` and the
access is a read, the call returns true, with the `VCpu` as it was, if and
only if `(address, count)` equals the source pointer `(src.seg << 4) + src.ofs`
and the count of a slot in use, whether that slot was recorded for a read or
for a write; the address then becomes the destination pointer of the first
(lowest-index) such slot. -/
theorem C18_check_params (v : VCpu) (address count : Nat) :
    (∀ read, v.params_used = 0 → v.check_params address count read = some (true, address, v)) ∧
    (0 < v.params_used →
      ((∃ i, i < v.params_used ∧ v.matches_slot address count i = true) ↔
        ∃ a, v.check_params address count true = some (true, a, v)) ∧
      (∀ i, i < v.params_used → v.matches_slot address count i = true →
        (∀ j, j < i → v.matches_slot address count j = false) →
        v.check_params address count true = some (true, (v.params i).dst.linear, v))) := by
  refine ⟨fun read h => VCpu.check_params_idle v address count read h, ?_⟩
  intro hpos
  refine ⟨⟨?_, ?_⟩, fun i hi hm hf => VCpu.check_params_match v address count i hi hm hf⟩
  · rintro ⟨i, hi, hm⟩
    rcases VCpu.first_match (fun i => v.matches_slot address count i) v.params_used with
      h | ⟨k, hk, hp, hf⟩
    · rw [h i hi] at hm; cases hm
    · exact ⟨_, VCpu.check_params_match v address count k hk hp hf⟩
  · rintro ⟨a, ha⟩
    rcases VCpu.first_match (fun i => v.matches_slot address count i) v.params_used with
      h | ⟨k, hk, hp, _⟩
    · rw [VCpu.check_params_miss v address count (by omega) h] at ha
      cases hadd : v.add_param address count true with
      | none => rw [hadd] at ha; cases ha
      | some w => rw [hadd] at ha; simp at ha
    · exact ⟨k, hk, hp⟩

theorem C18_check_params_witness :
    VCpu.idle.check_params 0x500 4 true = some (true, 0x500, VCpu.idle) ∧
    0 < VCpu.mixed.params_used ∧
    VCpu.mixed.check_params 0x500 0x20 true = some (true, 0xf1000, VCpu.mixed) ∧
    VCpu.mixed.check_params 0xf1020 4 true = some (true, 0x2000, VCpu.mixed) ∧
    (∃ a, VCpu.mixed.check_params 0xf1020 4 true = some (true, a, VCpu.mixed)) ∧
    ¬ ∃ a, VCpu.mixed.check_params 0x600 4 true = some (true, a, VCpu.mixed) :=
  ⟨(C18_check_params VCpu.idle 0x500 4).1 true rfl,
    by decide,
    ((C18_check_params VCpu.mixed 0x500 0x20).2 (by decide)).2 0 (by decide) (by decide)
      (by decide),
    ((C18_check_params VCpu.mixed 0xf1020 4).2 (by decide)).2 1 (by decide) (by decide)
      (by decide),
    ((C18_check_params VCpu.mixed 0xf1020 4).2 (by decide)).1.1 ⟨1, by decide, by decide⟩,
    fun h => absurd (((C18_check_params VCpu.mixed 0x600 4).2 (by decide)).1.2 h) (by decide)⟩

/-- C19 (amended): with `1 <= params_used < 5`, a read whose `(address, count)` matches
no slot in use makes `copy_inout` return false without any send on the region
bus or the memory bus and without a change to the buffer, the host memory or
the state behind the buses.  It registers exactly one slot: `params_used`
grows by 1, the other slots are unchanged, and the new slot holds `count` (as
`unsigned short`), the address as segment and offset, and as destination the
segment and offset of the scratch pointer that `get_shmem_ptr()` returned
before the call; for a count below `2^16` and addresses below `2^20` these are
the count and the two addresses themselves. -/
theorem C19_two_phase_read {σ : Type} (b : VCpu.Buses σ) (junk0 junk : Nat) (v : VCpu) (dev : σ)
    (host : Nat → Nat) (address : Nat) (buf : Nat → Nat) (count : Nat)
    (h1 : 1 ≤ v.params_used) (h5 : v.params_used < 5)
    (hm : ∀ i, i < v.params_used → v.matches_slot address count i = false) :
    ∃ r, VCpu.copy_inout b junk0 junk v dev host address buf count true = some r ∧
      r.ret = false ∧ r.trace = [] ∧ r.buf = buf ∧ r.host = host ∧ r.dev = dev ∧
      r.vcpu.params_used = v.params_used + 1 ∧
      (∀ i, i ≠ v.params_used → r.vcpu.params i = v.params i) ∧
      r.vcpu.params v.params_used
        = ⟨count % HALF, VCpu.GuestPtr.of address, VCpu.GuestPtr.of v.get_shmem_ptr⟩ ∧
      (count < HALF → address < 2 ^ 20 → v.get_shmem_ptr < 2 ^ 20 →
        (r.vcpu.params v.params_used).count = count ∧
        (r.vcpu.params v.params_used).src.linear = address ∧
        (r.vcpu.params v.params_used).dst.linear = v.get_shmem_ptr) := by
  obtain ⟨w, hw, hu, hs, ho⟩ := VCpu.add_param_eq v address count true h1 h5
  have hc := VCpu.check_params_miss v address count (by omega) hm
  rw [hw] at hc
  refine ⟨⟨false, w, dev, host, buf, []⟩, ?_, rfl, rfl, rfl, rfl, rfl, hu, ho, by simpa using hs,
    ?_⟩
  · simp only [VCpu.copy_inout, hc, Option.map_some']
  · intro hcnt ha hp
    simp only [] at hs ⊢
    rw [hs]
    simp only [if_true]
    exact ⟨Nat.mod_eq_of_lt hcnt, VCpu.GuestPtr.of_linear _ ha, VCpu.GuestPtr.of_linear _ hp⟩

theorem booted_misses (address count : Nat) (h : address ≠ 0x500) :
    ∀ i, i < VCpu.booted.params_used → VCpu.booted.matches_slot address count i = false := by
  intro i hi
  have e : i = 0 := by simp only [VCpu.booted] at hi; omega
  subst e
  have hl : (VCpu.booted.params 0).src.linear = 0x500 := by decide
  simp only [VCpu.matches_slot, hl, Bool.and_eq_false_iff, decide_eq_false_iff_not]
  exact Or.inl h

theorem C19_two_phase_read_witness :
    ∃ r, VCpu.copy_inout VCpu.guest_buses 0 0 VCpu.booted (fun _ => 0) (fun _ => 0) 0x600
        (fun _ => 0) 4 true = some r ∧
      r.ret = false ∧ r.trace = [] ∧ r.vcpu.params_used = 2 ∧
      r.vcpu.params 1 = ⟨4, VCpu.GuestPtr.of 0x600, VCpu.GuestPtr.of 0xf1020⟩ :=
  let ⟨r, h, h1, h2, _, _, _, h3, _, h4, _⟩ :=
    C19_two_phase_read VCpu.guest_buses 0 0 VCpu.booted (fun _ => 0) (fun _ => 0) 0x600
      (fun _ => 0) 4 (by decide) (by decide) (booted_misses 0x600 4 (by decide))
  ⟨r, h, h1, h2, h3, h4⟩

/-- C20 (amended): with `1 <= params_used < 5`, `check_params` for a write returns true
whatever the slots hold: the address becomes the value that `get_shmem_ptr()`
had before the call, `params_used` grows by 1, the other slots are unchanged,
and the new slot holds `count` (as `unsigned short`), the original address as
`dst` and the scratch address as `src`, as segment and offset; for a count
below `2^16` and addresses below `2^20` these are the count and the two
addresses themselves. -/
theorem C20_write_registers (v : VCpu) (address count : Nat)
    (h1 : 1 ≤ v.params_used) (h5 : v.params_used < 5) :
    ∃ w, v.check_params address count false = some (true, v.get_shmem_ptr, w) ∧
      w.params_used = v.params_used + 1 ∧
      (∀ i, i ≠ v.params_used → w.params i = v.params i) ∧
      w.params v.params_used
        = ⟨count % HALF, VCpu.GuestPtr.of v.get_shmem_ptr, VCpu.GuestPtr.of address⟩ ∧
      (count < HALF → address < 2 ^ 20 → v.get_shmem_ptr < 2 ^ 20 →
        (w.params v.params_used).count = count ∧
        (w.params v.params_used).dst.linear = address ∧
        (w.params v.params_used).src.linear = v.get_shmem_ptr) := by
  obtain ⟨w, hw, hu, hs, ho⟩ := VCpu.add_param_eq v address count false h1 h5
  have hc := VCpu.check_params_write v address count (by omega)
  rw [hw] at hc
  refine ⟨w, by simpa using hc, hu, ho, by simpa using hs, ?_⟩
  intro hcnt ha hp
  rw [hs]
  simp only [if_false, Bool.false_eq_true]
  exact ⟨Nat.mod_eq_of_lt hcnt, VCpu.GuestPtr.of_linear _ ha, VCpu.GuestPtr.of_linear _ hp⟩

theorem C20_write_registers_witness :
    ∃ w, VCpu.booted.check_params 0x2000 4 false = some (true, 0xf1020, w) ∧
      w.params_used = 2 ∧
      w.params 1 = ⟨4, VCpu.GuestPtr.of 0xf1020, VCpu.GuestPtr.of 0x2000⟩ :=
  let ⟨w, h, h1, _, h2, _⟩ := C20_write_registers VCpu.booted 0x2000 4 (by decide) (by decide)
  ⟨w, h, h1, h2⟩

/-- C19 (as stated, refuted): with one slot in use, an unmatched read of
`0x10004` bytes at `0x600` registers a slot whose count is 4, and an
unmatched read of 4 bytes at `0x100600` registers a slot whose source is
`0x0060:0x0000`, the address `0x600`: count, segment and offset are 16-bit
fields. -/
theorem C19_counterexample :
    (VCpu.copy_inout VCpu.guest_buses 0 0 VCpu.booted (fun _ => 0) (fun _ => 0) 0x600
        (fun _ => 0) 0x10004 true).map
      (fun r => (r.ret, r.vcpu.params_used, (r.vcpu.params 1).count)) = some (false, 2, 4) ∧
    (VCpu.copy_inout VCpu.guest_buses 0 0 VCpu.booted (fun _ => 0) (fun _ => 0) 0x100600
        (fun _ => 0) 4 true).map
      (fun r => (r.ret, r.vcpu.params_used, (r.vcpu.params 1).src,
        (r.vcpu.params 1).src.linear)) = some (false, 2, ⟨0x60, 0⟩, 0x600) := by
  decide

/-- C20 (as stated, refuted): with one slot in use, `check_params` for a write
of `0x10004` bytes at `0x2000` registers a slot whose count is 4, and for a
write of 4 bytes at `0x102000` a slot whose guest-side pointer is
`0x0200:0x0000`, the address `0x2000`: count, segment and offset are 16-bit
fields. -/
theorem C20_counterexample :
    (VCpu.booted.check_params 0x2000 0x10004 false).map
      (fun r => (r.1, r.2.1, r.2.2.params_used, (r.2.2.params 1).count))
      = some (true, 0xf1020, 2, 4) ∧
    (VCpu.booted.check_params 0x102000 4 false).map
      (fun r => (r.1, r.2.1, r.2.2.params_used, (r.2.2.params 1).dst,
        (r.2.2.params 1).dst.linear))
      = some (true, 0xf1020, 2, ⟨0x200, 0⟩, 0x2000) := by
  decide

/-! ## Claims on `copy_inout` -/

/-- The fast path, with the range check as the code evaluates it, in
`unsigned long`: `copy_inout` sends nothing on the memory bus, returns true,
and copies `count` bytes between the buffer and the host memory at
`ptr + (a1 - (start_page << 12))`. -/
theorem VCpu.copy_inout_fast {σ : Type} (b : VCpu.Buses σ) (junk0 junk : Nat) (v v1 : VCpu)
    (dev dev1 : σ) (host : Nat → Nat) (address a1 : Nat) (buf : Nat → Nat) (count : Nat)
    (read : Bool) (msg : MessageMemRegion)
    (hc : v.check_params address count read = some (true, a1, v1))
    (hr : b.memregion (a1 >>> 12) dev = (true, msg, dev1))
    (hp : msg.ptr ≠ 0)
    (hb : (a1 + count) % WORD ≤ ((msg.start_page + msg.count) <<< 12) % WORD) :
    ∃ r, VCpu.copy_inout b junk0 junk v dev host address buf count read = some r ∧
      r.ret = true ∧ r.trace = [.region (a1 >>> 12) true] ∧ r.vcpu = v1 ∧ r.dev = dev1 ∧
      (read = true → r.host = host ∧
        (∀ i, i < count →
          r.buf i = host (msg.ptr + (a1 + WORD - (msg.start_page <<< 12) % WORD) % WORD + i)) ∧
        ∀ i, count ≤ i → r.buf i = buf i) ∧
      (read = false → r.buf = buf ∧
        (∀ i, i < count →
          r.host (msg.ptr + (a1 + WORD - (msg.start_page <<< 12) % WORD) % WORD + i) = buf i) ∧
        ∀ x, (x < msg.ptr + (a1 + WORD - (msg.start_page <<< 12) % WORD) % WORD ∨
            msg.ptr + (a1 + WORD - (msg.start_page <<< 12) % WORD) % WORD + count ≤ x) →
          r.host x = host x) ∧
      (msg.start_page * 4096 ≤ a1 → a1 < WORD →
        (a1 + WORD - (msg.start_page <<< 12) % WORD) % WORD = a1 - msg.start_page * 4096) := by
  have hcond : ¬ ((b.memregion (a1 >>> 12) dev).1 = false ∨
      (b.memregion (a1 >>> 12) dev).2.1.ptr = 0 ∨
      (a1 + count) % WORD > (((b.memregion (a1 >>> 12) dev).2.1.start_page +
        (b.memregion (a1 >>> 12) dev).2.1.count) <<< 12) % WORD) := by
    rw [hr]
    simp only [Bool.true_eq_false, false_or, not_or, not_lt]
    exact ⟨hp, hb⟩
  cases read
  · refine ⟨_, by simp only [VCpu.copy_inout, hc, hcond, if_false, Bool.false_eq_true]; rfl,
      rfl, by rw [hr], rfl, by rw [hr], ?_, ?_, ?_⟩
    · intro h; cases h
    · intro _
      rw [hr]
      refine ⟨rfl, ?_, ?_⟩
      · intro i hi
        simp only []
        rw [if_pos ⟨by omega, by omega⟩]
        congr 1
        omega
      · intro x hx
        simp only []
        rw [if_neg (by omega)]
    · intro h1 h2
      rw [Nat.shiftLeft_eq]
      simp only [WORD] at *
      omega
  · refine ⟨_, by simp only [VCpu.copy_inout, hc, hcond, if_false, if_true]; rfl,
      rfl, by rw [hr], rfl, by rw [hr], ?_, ?_, ?_⟩
    · intro _
      rw [hr]
      refine ⟨rfl, ?_, ?_⟩
      · intro i hi
        simp only []
        rw [if_pos hi]
      · intro i hi
        simp only []
        rw [if_neg (by omega)]
    · intro h; cases h
    · intro h1 h2
      rw [Nat.shiftLeft_eq]
      simp only [WORD] at *
      omega

/-- C17 (as stated, refuted): on the 32-bit target a region that ends at 4 GiB
(`start_page = 0xfffe0`, 32 pages, claimed, host pointer `0x7000`) contains
`0xfffe0000 .. 0xfffe0003`, yet `copy_inout` takes the slow path and sends on
the memory bus: `(start_page + count) << 12` wraps to 0 in `unsigned long`. -/
theorem C17_counterexample :
    0xfffe0000 + 4 ≤ (0xfffe0 + 0x20) * 4096 ∧
    (VCpu.top_buses.memregion (0xfffe0000 >>> 12) (fun _ => 0)).1 = true ∧
    (VCpu.top_buses.memregion (0xfffe0000 >>> 12) (fun _ => 0)).2.1 =
      ⟨0xfffe0, 0xfffe0, 0x20, 0x7000⟩ ∧
    (VCpu.copy_inout VCpu.top_buses 0 0 VCpu.idle (fun _ => 0) (fun _ => 0) 0xfffe0000
        (fun i => 0xa0 + i) 4 false).map (fun r => (r.ret, r.trace)) =
      some (true, [.region 0xfffe0 true, .mem ⟨false, 0xfffe0000, 0xa3a2a1a0⟩ false true]) := by
  decide

/-- C17 (amended): when `check_params` lets the access through with the address
`a1` (the address itself when `params_used = 0`), the region bus claims the
query for the page `a1 >> 12` and returns a non-null host pointer, and
`a1 + count <= (start_page + count_pages) * 4096 < 2^32`, then `copy_inout`
sends nothing on the memory bus, returns true, and copies exactly `count`
bytes between the buffer and the host memory at
`ptr + (a1 - (start_page << 12))`: into the buffer for a read, out of the
buffer for a write, all other bytes of the host memory being unchanged. -/
theorem C17_fast_path {σ : Type} (b : VCpu.Buses σ) (junk0 junk : Nat) (v v1 : VCpu)
    (dev dev1 : σ) (host : Nat → Nat) (address a1 : Nat) (buf : Nat → Nat) (count : Nat)
    (read : Bool) (msg : MessageMemRegion)
    (hc : v.check_params address count read = some (true, a1, v1))
    (hr : b.memregion (a1 >>> 12) dev = (true, msg, dev1))
    (hp : msg.ptr ≠ 0)
    (hb : a1 + count ≤ (msg.start_page + msg.count) * 4096)
    (hw : (msg.start_page + msg.count) * 4096 < WORD) :
    ∃ r, VCpu.copy_inout b junk0 junk v dev host address buf count read = some r ∧
      r.ret = true ∧ r.trace = [.region (a1 >>> 12) true] ∧ r.vcpu = v1 ∧ r.dev = dev1 ∧
      (read = true → r.host = host ∧
        (∀ i, i < count →
          r.buf i = host (msg.ptr + (a1 + WORD - (msg.start_page <<< 12) % WORD) % WORD + i)) ∧
        ∀ i, count ≤ i → r.buf i = buf i) ∧
      (read = false → r.buf = buf ∧
        (∀ i, i < count →
          r.host (msg.ptr + (a1 + WORD - (msg.start_page <<< 12) % WORD) % WORD + i) = buf i) ∧
        ∀ x, (x < msg.ptr + (a1 + WORD - (msg.start_page <<< 12) % WORD) % WORD ∨
            msg.ptr + (a1 + WORD - (msg.start_page <<< 12) % WORD) % WORD + count ≤ x) →
          r.host x = host x) ∧
      (msg.start_page * 4096 ≤ a1 →
        (a1 + WORD - (msg.start_page <<< 12) % WORD) % WORD = a1 - msg.start_page * 4096) := by
  have hm : (a1 + count) % WORD ≤ ((msg.start_page + msg.count) <<< 12) % WORD := by
    rw [Nat.shiftLeft_eq]
    simp only [WORD] at *
    omega
  obtain ⟨r, h, h1, h2, h3, h4, h5, h6, h7⟩ :=
    VCpu.copy_inout_fast b junk0 junk v v1 dev dev1 host address a1 buf count read msg
      hc hr hp hm
  refine ⟨r, h, h1, h2, h3, h4, h5, h6, fun h8 => h7 h8 ?_⟩
  simp only [WORD] at *
  omega

theorem C17_fast_path_witness :
    ∃ r, VCpu.copy_inout VCpu.mapped_buses 0 0 VCpu.idle (fun _ => 0) (fun x => x % 251)
        0x10ffc (fun _ => 0) 4 true = some r ∧
      r.ret = true ∧ r.trace = [.region 0x10 true] ∧
      (∀ i, i < 4 → r.buf i = (0x7000 + 0xffc + i) % 251) :=
  let ⟨r, h, h1, h2, _, _, h3, _, _⟩ :=
    C17_fast_path VCpu.mapped_buses 0 0 VCpu.idle VCpu.idle (fun _ => 0) (fun _ => 0)
      (fun x => x % 251) 0x10ffc 0x10ffc (fun _ => 0) 4 true ⟨0x10, 0x10, 1, 0x7000⟩
      rfl rfl (by decide) (by decide) (by decide)
  ⟨r, h, h1, h2, fun i hi => (h3 rfl).2.1 i hi⟩

namespace VCpu

theorem slow_words_ge {σ : Type} (b : Buses σ) (read : Bool) (junk count address off : Nat)
    (dev : σ) (buf : Nat → Nat) (h : 4 ≤ count) :
    slow_words b read junk count address off dev buf =
      if (b.mem ⟨false, address, word_of (fun j => buf (off + j))⟩ read dev).1 = false then
        ⟨false, (b.mem ⟨false, address, word_of (fun j => buf (off + j))⟩ read dev).2.2,
          poke buf off (b.mem ⟨false, address, word_of (fun j => buf (off + j))⟩ read dev).2.1,
          [.mem ⟨false, address, word_of (fun j => buf (off + j))⟩ read false]⟩
      else
        { slow_words b read junk (count - 4) ((address + 4) % WORD) (off + 4)
            (b.mem ⟨false, address, word_of (fun j => buf (off + j))⟩ read dev).2.2
            (poke buf off (b.mem ⟨false, address, word_of (fun j => buf (off + j))⟩ read dev).2.1)
          with trace := .mem ⟨false, address, word_of (fun j => buf (off + j))⟩ read true ::
            (slow_words b read junk (count - 4) ((address + 4) % WORD) (off + 4)
              (b.mem ⟨false, address, word_of (fun j => buf (off + j))⟩ read dev).2.2
              (poke buf off
                (b.mem ⟨false, address, word_of (fun j => buf (off + j))⟩ read dev).2.1)).trace }
      := by
  obtain ⟨n, rfl⟩ : ∃ n, count = n + 4 := ⟨count - 4, by omega⟩
  simp only [slow_words, Nat.add_sub_cancel]

theorem slow_words_lt {σ : Type} (b : Buses σ) (read : Bool) (junk count address off : Nat)
    (dev : σ) (buf : Nat → Nat) (h : count < 4) :
    slow_words b read junk count address off dev buf
      = slow_tail b read junk count address off dev buf := by
  match count, h with
  | 0, _ => rfl
  | 1, _ => rfl
  | 2, _ => rfl
  | 3, _ => rfl

end VCpu

namespace VCpu

/-- Induction over the loop of the slow path: a property of the closing
block, of a failed send, and kept by a claimed send holds of the loop. -/
theorem slow_words_induct {σ : Type} (b : Buses σ) (read : Bool) (junk : Nat)
    (P : Nat → Nat → Nat → σ → (Nat → Nat) → Slow σ → Prop)
    (htail : ∀ count address off dev buf, count < 4 →
      P count address off dev buf (slow_tail b read junk count address off dev buf))
    (hfail : ∀ count address off dev buf, 4 ≤ count →
      (b.mem ⟨false, address, word_of (fun j => buf (off + j))⟩ read dev).1 = false →
      P count address off dev buf
        ⟨false, (b.mem ⟨false, address, word_of (fun j => buf (off + j))⟩ read dev).2.2,
          poke buf off (b.mem ⟨false, address, word_of (fun j => buf (off + j))⟩ read dev).2.1,
          [.mem ⟨false, address, word_of (fun j => buf (off + j))⟩ read false]⟩)
    (hstep : ∀ count address off dev buf, 4 ≤ count →
      (b.mem ⟨false, address, word_of (fun j => buf (off + j))⟩ read dev).1 = true →
      ∀ t, P (count - 4) ((address + 4) % WORD) (off + 4)
          (b.mem ⟨false, address, word_of (fun j => buf (off + j))⟩ read dev).2.2
          (poke buf off (b.mem ⟨false, address, word_of (fun j => buf (off + j))⟩ read dev).2.1)
          t →
        P count address off dev buf
          { t with trace := .mem ⟨false, address, word_of (fun j => buf (off + j))⟩ read true ::
              t.trace }) :
    ∀ count address off dev buf,
      P count address off dev buf (slow_words b read junk count address off dev buf) := by
  intro count
  induction count using Nat.strong_induction_on with
  | _ count ih =>
    intro address off dev buf
    by_cases h : 4 ≤ count
    · rw [slow_words_ge b read junk count address off dev buf h]
      by_cases hc : (b.mem ⟨false, address, word_of (fun j => buf (off + j))⟩ read dev).1 = false
      · rw [if_pos hc]
        exact hfail count address off dev buf h hc
      · rw [if_neg hc]
        exact hstep count address off dev buf h (by simpa using hc) _
          (ih (count - 4) (by omega) _ _ _ _)
    · rw [slow_words_lt b read junk count address off dev buf (by omega)]
      exact htail count address off dev buf (by omega)

theorem replay_mem {σ : Type} (b : Buses σ) (s : σ) (msg : MessageMem) (flag c : Bool)
    (rest : List Event) (h : (b.mem msg flag s).1 = c) :
    replay b s (.mem msg flag c :: rest) = replay b (b.mem msg flag s).2.2 rest := by
  simp only [replay, h, if_true]

theorem replay_region {σ : Type} (b : Buses σ) (s : σ) (page : Nat) (c : Bool)
    (rest : List Event) (h : (b.memregion page s).1 = c) :
    replay b s (.region page c :: rest) = replay b (b.memregion page s).2.2 rest := by
  simp only [replay, h, if_true]

theorem halts_mem_true (msg : MessageMem) (flag : Bool) (rest : List Event) :
    Halts (.mem msg flag true :: rest) = Halts rest := rfl

theorem halts_region (page : Nat) (c : Bool) (rest : List Event) :
    Halts (.region page c :: rest) = Halts rest := rfl

theorem unclaimed_mem_true (msg : MessageMem) (flag : Bool) (rest : List Event) :
    unclaimed (.mem msg flag true :: rest) = unclaimed rest := rfl

theorem unclaimed_region (page : Nat) (c : Bool) (rest : List Event) :
    unclaimed (.region page c :: rest) = unclaimed rest := rfl

theorem sound_cons {σ : Type} (b : Buses σ) (dev : σ) (msg : MessageMem) (flag : Bool)
    (t : Slow σ) (h : (b.mem msg flag dev).1 = true) (ht : Sound b (b.mem msg flag dev).2.2 t) :
    Sound b dev { t with trace := .mem msg flag true :: t.trace } := by
  refine ⟨?_, ?_, ?_⟩
  · simp only []
    rw [replay_mem b dev msg flag true _ h]
    exact ht.1
  · exact ht.2.1
  · exact ht.2.2

theorem slow_tail_sound {σ : Type} (b : Buses σ) (read : Bool) (junk count address off : Nat)
    (dev : σ) (buf : Nat → Nat) :
    Sound b dev (slow_tail b read junk count address off dev buf) := by
  simp only [slow_tail]
  split_ifs with h0 h1 h2
  · exact ⟨rfl, trivial, rfl⟩
  · exact ⟨by simp only [replay, h1, if_true], rfl, rfl⟩
  · have h1' : (b.mem ⟨true, address, junk⟩ true dev).1 = true := by simpa using h1
    exact ⟨by simp only [replay, h1', if_true], trivial, rfl⟩
  · have h1' : (b.mem ⟨true, address, junk⟩ true dev).1 = true := by simpa using h1
    refine ⟨by simp only [replay, h1', if_true], ?_, ?_⟩
    · rw [halts_mem_true]
      cases (b.mem _ true (b.mem ⟨true, address, junk⟩ true dev).2.2).1
      · rfl
      · trivial
    · rw [unclaimed_mem_true]
      cases (b.mem _ true (b.mem ⟨true, address, junk⟩ true dev).2.2).1 <;> rfl

theorem slow_words_sound {σ : Type} (b : Buses σ) (read : Bool) (junk : Nat) :
    ∀ count address off dev buf,
      Sound b dev (slow_words b read junk count address off dev buf) := by
  apply slow_words_induct b read junk (fun _ _ _ dev _ t => Sound b dev t)
  · intro count address off dev buf _
    exact slow_tail_sound b read junk count address off dev buf
  · intro count address off dev buf _ hc
    exact ⟨by simp only [replay, hc, if_true], rfl, rfl⟩
  · intro count address off dev buf _ hc t ht
    exact sound_cons b dev _ read t hc ht

theorem slow_path_sound {σ : Type} (b : Buses σ) (read : Bool) (junk0 junk address count : Nat)
    (dev : σ) (buf : Nat → Nat) :
    Sound b dev (slow_path b read junk0 junk address count dev buf) := by
  unfold slow_path
  by_cases h0 : address &&& 3 ≠ 0
  · rw [if_pos h0]
    by_cases h1 : (b.mem ⟨true, address &&& 0xfffffffc, junk0⟩ true dev).1 = false
    · simp only [h1, if_true]
      exact ⟨by simp only [replay, h1, if_true], rfl, rfl⟩
    · have h1' : (b.mem ⟨true, address &&& 0xfffffffc, junk0⟩ true dev).1 = true := by
        simpa using h1
      simp only [h1', Bool.true_eq_false, if_false]
      generalize (if 4 - (address &&& 3) > count then count else 4 - (address &&& 3)) = l
      cases read
      · simp only [Bool.false_eq_true, if_false]
        by_cases h3 : (b.mem ⟨false, address &&& 0xfffffffc,
            patch (b.mem ⟨true, address &&& 0xfffffffc, junk0⟩ true dev).2.1 (address &&& 3) l
              buf⟩ true (b.mem ⟨true, address &&& 0xfffffffc, junk0⟩ true dev).2.2).1 = false
        · simp only [h3, if_true]
          exact ⟨by simp only [replay, h1', h3, if_true], rfl, rfl⟩
        · have h3' := h3
          simp only [Bool.not_eq_false] at h3'
          simp only [h3', Bool.true_eq_false, if_false]
          exact sound_cons b dev _ true _ h1'
            (sound_cons b _ _ true _ h3' (slow_words_sound b false junk _ _ _ _ _))
      · simp only [if_true]
        exact sound_cons b dev _ true _ h1' (slow_words_sound b true junk _ _ _ _ _)
  · rw [if_neg h0]
    exact slow_words_sound b read junk _ _ _ _ _

end VCpu

namespace VCpu

theorem halts_last (tr : List Event) :
    ∀ pre msg flag post, Halts tr → tr = pre ++ .mem msg flag false :: post → post = [] := by
  induction tr with
  | nil => intro pre msg flag post _ h; simp at h
  | cons e rest ih =>
    intro pre msg flag post hh h
    cases pre with
    | nil =>
      simp only [List.nil_append, List.cons.injEq] at h
      rw [h.1] at hh
      rw [← h.2]
      exact hh
    | cons p pre' =>
      simp only [List.cons_append, List.cons.injEq] at h
      have hr : rest ≠ [] := by rw [h.2]; simp
      cases e with
      | region page c => exact ih pre' msg flag post hh h.2
      | mem m f c =>
        cases c
        · exact absurd hh hr
        · exact ih pre' msg flag post hh h.2

theorem unclaimed_of_mem (tr : List Event) :
    ∀ pre msg flag post, tr = pre ++ .mem msg flag false :: post → unclaimed tr = true := by
  induction tr with
  | nil => intro pre msg flag post h; simp at h
  | cons e rest ih =>
    intro pre msg flag post h
    cases pre with
    | nil =>
      simp only [List.nil_append, List.cons.injEq] at h
      rw [h.1]
      rfl
    | cons p pre' =>
      simp only [List.cons_append, List.cons.injEq] at h
      cases e with
      | region page c => exact ih pre' msg flag post h.2
      | mem m f c =>
        cases c
        · rfl
        · exact ih pre' msg flag post h.2

end VCpu

/-- C16: whatever the buses answer, an unclaimed send on the memory bus is the
last send of `copy_inout`, which then returns false; and the state behind the
buses at the end is the state that the sends made, replayed in order, reach:
the effect of no completed send is undone. -/
theorem C16_unclaimed_aborts {σ : Type} (b : VCpu.Buses σ) (junk0 junk : Nat) (v : VCpu)
    (dev : σ) (host : Nat → Nat) (address : Nat) (buf : Nat → Nat) (count : Nat) (read : Bool)
    (r : VCpu.Copied σ)
    (h : VCpu.copy_inout b junk0 junk v dev host address buf count read = some r) :
    (∀ pre msg flag post, r.trace = pre ++ .mem msg flag false :: post →
      post = [] ∧ r.ret = false) ∧
    VCpu.replay b dev r.trace = some r.dev := by
  simp only [VCpu.copy_inout] at h
  split at h
  · cases h
  · simp only [Option.some.injEq] at h
    subst h
    exact ⟨fun pre msg flag post hp => by simp at hp, rfl⟩
  · rename_i a1 v1 _
    split_ifs at h with hs
    · simp only [Option.some.injEq] at h
      subst h
      have hs := VCpu.slow_path_sound b read junk0 junk a1 count (b.memregion (a1 >>> 12) dev).2.2
        buf
      refine ⟨?_, ?_⟩
      · intro pre msg flag post hp
        have hH : VCpu.Halts (VCpu.Event.region (a1 >>> 12) (b.memregion (a1 >>> 12) dev).1 ::
            (VCpu.slow_path b read junk0 junk a1 count (b.memregion (a1 >>> 12) dev).2.2
              buf).trace) := by
          rw [VCpu.halts_region]; exact hs.2.1
        refine ⟨VCpu.halts_last _ pre msg flag post hH hp, ?_⟩
        have hu := VCpu.unclaimed_of_mem _ pre msg flag post hp
        rw [VCpu.unclaimed_region] at hu
        simp only []
        rw [hs.2.2, hu]
        rfl
      · simp only []
        rw [VCpu.replay_region b dev _ _ _ rfl]
        exact hs.1
    · simp only [Option.some.injEq] at h
      subst h
      have hc : (b.memregion (a1 >>> 12) dev).1 = true := by
        by_contra hn
        exact hs (Or.inl (by simpa using hn))
      refine ⟨?_, ?_⟩
      · intro pre msg flag post hp
        cases pre with
        | nil => simp at hp
        | cons p pre' => simp at hp
      · simp only [VCpu.replay, hc, if_true]
    · simp only [Option.some.injEq] at h
      subst h
      have hc : (b.memregion (a1 >>> 12) dev).1 = true := by
        by_contra hn
        exact hs (Or.inl (by simpa using hn))
      refine ⟨?_, ?_⟩
      · intro pre msg flag post hp
        cases pre with
        | nil => simp at hp
        | cons p pre' => simp at hp
      · simp only [VCpu.replay, hc, if_true]

theorem C16_unclaimed_aborts_witness :
    ∃ r, VCpu.copy_inout VCpu.low_buses 0 0 VCpu.idle VCpu.sample_mem (fun _ => 0) 0x1000
        (fun i => 0xa0 + i) 8 false = some r ∧
      r.trace = [.region 1 false, .mem ⟨false, 0x1000, 0xa3a2a1a0⟩ false true,
        .mem ⟨false, 0x1004, 0xa7a6a5a4⟩ false false] ∧
      r.ret = false ∧
      VCpu.replay VCpu.low_buses VCpu.sample_mem r.trace = some r.dev ∧
      [r.dev 0x1000, r.dev 0x1003, r.dev 0x1004] = [0xa0, 0xa3, 0x55] := by
  obtain ⟨r, h⟩ := Option.isSome_iff_exists.1 (by decide :
    (VCpu.copy_inout VCpu.low_buses 0 0 VCpu.idle VCpu.sample_mem (fun _ => 0) 0x1000
      (fun i => 0xa0 + i) 8 false).isSome = true)
  have e : (VCpu.copy_inout VCpu.low_buses 0 0 VCpu.idle VCpu.sample_mem (fun _ => 0) 0x1000
      (fun i => 0xa0 + i) 8 false).map
        (fun r => (r.trace, [r.dev 0x1000, r.dev 0x1003, r.dev 0x1004])) =
      some ([.region 1 false, .mem ⟨false, 0x1000, 0xa3a2a1a0⟩ false true,
        .mem ⟨false, 0x1004, 0xa7a6a5a4⟩ false false], [0xa0, 0xa3, 0x55]) := by decide
  rw [h] at e
  simp only [Option.map_some', Option.some.injEq, Prod.mk.injEq] at e
  have t := C16_unclaimed_aborts VCpu.low_buses 0 0 VCpu.idle VCpu.sample_mem (fun _ => 0)
    0x1000 (fun i => 0xa0 + i) 8 false r h
  exact ⟨r, h, e.1, (t.1 [.region 1 false, .mem ⟨false, 0x1000, 0xa3a2a1a0⟩ false true]
    ⟨false, 0x1004, 0xa7a6a5a4⟩ false [] e.1).2, t.2, e.2⟩

/-- C13: on guest memory that claims every transaction, with no parameter in
use and no mapping, `copy_in` of the four bytes at `0x1000`, and of the two
bytes at `0x1001`, returns true and leaves the buffer as it was: the four
bytes are sent as a write of the buffer, which replaces the guest bytes, and
the two bytes are read into a local word that is never copied to the
buffer. -/
theorem C13_copy_in_keeps_buffer :
    (VCpu.copy_in VCpu.guest_buses 0 0 VCpu.idle VCpu.sample_mem (fun _ => 0) 0x1000
        (fun i => 0xa0 + i) 4).map
      (fun r => (r.ret, (List.range 4).map r.buf,
        (List.range 4).map (fun i => VCpu.sample_mem (0x1000 + i)),
        (List.range 4).map (fun i => r.dev (0x1000 + i)), r.trace)) =
      some (true, [0xa0, 0xa1, 0xa2, 0xa3], [0x11, 0x22, 0x33, 0x44],
        [0xa0, 0xa1, 0xa2, 0xa3],
        [.region 1 false, .mem ⟨false, 0x1000, 0xa3a2a1a0⟩ true true]) ∧
    (VCpu.copy_in VCpu.guest_buses 0 0 VCpu.idle VCpu.sample_mem (fun _ => 0) 0x1001
        (fun i => 0xa0 + i) 2).map
      (fun r => (r.ret, (List.range 2).map r.buf,
        (List.range 2).map (fun i => VCpu.sample_mem (0x1001 + i)),
        (List.range 4).map (fun i => r.dev (0x1000 + i)), r.trace)) =
      some (true, [0xa0, 0xa1], [0x22, 0x33], [0x11, 0x22, 0x33, 0x44],
        [.region 1 false, .mem ⟨true, 0x1000, 0⟩ true true]) := by
  constructor <;> decide

/-- C15: the 6-byte read at `0x1002` on the slow path sends a read of the word
at `0x1000` and then, for the word at `0x1004`, a message built as a write
(`read = false`) that carries the four bytes of the buffer; the guest bytes
at `0x1004 .. 0x1007` are replaced by them. -/
theorem C15_read_issues_write :
    (VCpu.copy_inout VCpu.guest_buses 0 0 VCpu.idle VCpu.sample_mem (fun _ => 0) 0x1002
        (fun i => 0xa0 + i) 6 true).map
      (fun r => (r.ret, r.trace, (List.range 8).map (fun i => r.dev (0x1000 + i)),
        (List.range 6).map r.buf)) =
      some (true,
        [.region 1 false, .mem ⟨true, 0x1000, 0⟩ true true,
          .mem ⟨false, 0x1004, 0xa5a4a3a2⟩ true true],
        [0x11, 0x22, 0x33, 0x44, 0xa2, 0xa3, 0xa4, 0xa5],
        [0xa0, 0xa1, 0xa2, 0xa3, 0xa4, 0xa5]) := by
  decide

/-! ## Bytes and words -/

theorem byte_lt (w i : Nat) : byte w i < 256 := Nat.mod_lt _ (by decide)

theorem byte_word_of (f : Nat → Nat) (j : Nat) (hj : j < 4) : byte (word_of f) j = f j % 256 := by
  have h0 := Nat.mod_lt (f 0) (show 0 < 256 by decide)
  have h1 := Nat.mod_lt (f 1) (show 0 < 256 by decide)
  have h2 := Nat.mod_lt (f 2) (show 0 < 256 by decide)
  have h3 := Nat.mod_lt (f 3) (show 0 < 256 by decide)
  simp only [byte, word_of]
  match j, hj with
  | 0, _ => norm_num; omega
  | 1, _ => norm_num; omega
  | 2, _ => norm_num; omega
  | 3, _ => norm_num; omega

theorem and_three (a : Nat) : a &&& 3 = a % 4 := by
  have h := Nat.and_pow_two_sub_one_eq_mod a 2
  simpa using h

theorem and_word_mask (a : Nat) (h : a < WORD) : a &&& 0xfffffffc = a - a % 4 := by
  apply Nat.eq_of_testBit_eq
  intro i
  have e1 : (0xfffffffc : Nat) = (2 ^ 30 - 1) <<< 2 := by decide
  have e2 : a - a % 4 = (a >>> 2) <<< 2 := by
    rw [Nat.shiftLeft_eq, Nat.shiftRight_eq_div_pow]
    omega
  rw [e1, e2]
  simp only [Nat.testBit_and, Nat.testBit_shiftLeft, Nat.testBit_shiftRight,
    Nat.testBit_two_pow_sub_one]
  by_cases hi : 2 ≤ i
  · have e3 : 2 + (i - 2) = i := by omega
    simp only [hi, decide_True, Bool.true_and, e3, ge_iff_le]
    by_cases h2 : i - 2 < 30
    · simp [h2]
    · simp only [h2, decide_False, Bool.and_false]
      have hv : a < 2 ^ i := by
        calc a < 2 ^ 32 := by simpa [WORD] using h
          _ ≤ 2 ^ i := Nat.pow_le_pow_right (by decide) (by omega)
      simp [Nat.testBit_lt_two_pow hv]
  · simp [hi]

namespace VCpu

theorem guest_write_at (a w : Nat) (flag : Bool) (m : Nat → Nat) (j : Nat) (hj : j < 4) :
    (guest_mem ⟨false, a, w⟩ flag m).2.2 ((a + j) % WORD) = byte w j := by
  simp only [guest_mem, Bool.false_eq_true, if_false, WORD]
  match j, hj with
  | 0, _ => simp
  | 1, _ =>
    rw [if_neg (by omega), if_pos rfl]
  | 2, _ =>
    rw [if_neg (by omega), if_neg (by omega), if_pos rfl]
  | 3, _ =>
    rw [if_neg (by omega), if_neg (by omega), if_neg (by omega), if_pos rfl]

theorem guest_write_off (a w : Nat) (flag : Bool) (m : Nat → Nat) (x : Nat)
    (hx : ∀ j, j < 4 → x ≠ (a + j) % WORD) :
    (guest_mem ⟨false, a, w⟩ flag m).2.2 x = m x := by
  simp only [guest_mem, Bool.false_eq_true, if_false]
  have h0 : x ≠ a % WORD := hx 0 (by decide)
  have h1 := hx 1 (by decide)
  have h2 := hx 2 (by decide)
  have h3 := hx 3 (by decide)
  rw [if_neg h0, if_neg h1, if_neg h2, if_neg h3]

theorem guest_write_lt (a w : Nat) (flag : Bool) (m : Nat → Nat) (hm : ∀ x, m x < 256) (x : Nat) :
    (guest_mem ⟨false, a, w⟩ flag m).2.2 x < 256 := by
  simp only [guest_mem, Bool.false_eq_true, if_false]
  split_ifs
  · exact byte_lt _ _
  · exact byte_lt _ _
  · exact byte_lt _ _
  · exact byte_lt _ _
  · exact hm x

theorem guest_read (a v : Nat) (flag : Bool) (m : Nat → Nat) :
    guest_mem ⟨true, a, v⟩ flag m = (true, word_of (fun j => m ((a + j) % WORD)), m) := rfl

theorem guest_write_fst (a w : Nat) (flag : Bool) (m : Nat → Nat) :
    (guest_mem ⟨false, a, w⟩ flag m).1 = true := rfl

theorem guest_write_snd (a w : Nat) (flag : Bool) (m : Nat → Nat) :
    (guest_mem ⟨false, a, w⟩ flag m).2.1 = w := rfl

/-- The store of the word `patch v k l p` at `a` puts the bytes `p 0 .. p (l-1)`
at `a + k ..` and keeps the rest of guest memory, when `v` holds the guest
bytes of the word outside the patched ones. -/
theorem store_patch (m : Nat → Nat) (hm : ∀ x, m x < 256) (a k l v : Nat) (flag : Bool)
    (p : Nat → Nat) (hkl : k + l ≤ 4)
    (hv : ∀ j, j < 4 → ¬(k ≤ j ∧ j < k + l) → byte v j = m ((a + j) % WORD)) :
    (∀ x, (guest_mem ⟨false, a, patch v k l p⟩ flag m).2.2 x < 256) ∧
    (∀ i, i < l →
      (guest_mem ⟨false, a, patch v k l p⟩ flag m).2.2 ((a + k + i) % WORD) = p i % 256) ∧
    (∀ x, (∀ i, i < l → x ≠ (a + k + i) % WORD) →
      (guest_mem ⟨false, a, patch v k l p⟩ flag m).2.2 x = m x) := by
  refine ⟨guest_write_lt a _ flag m hm, ?_, ?_⟩
  · intro i hi
    have e : a + k + i = a + (k + i) := by omega
    rw [e, guest_write_at a _ flag m (k + i) (by omega)]
    simp only [patch]
    rw [byte_word_of _ _ (by omega), if_pos ⟨by omega, by omega⟩]
    congr 2
    omega
  · intro x hx
    by_cases h : ∃ j, j < 4 ∧ x = (a + j) % WORD
    · obtain ⟨j, hj, rfl⟩ := h
      rw [guest_write_at a _ flag m j hj]
      simp only [patch]
      rw [byte_word_of _ _ hj]
      have hn : ¬(k ≤ j ∧ j < k + l) := by
        intro hc
        apply hx (j - k) (by omega)
        congr 1
        omega
      rw [if_neg hn, hv j hj hn]
      exact Nat.mod_eq_of_lt (hm _)
    · apply guest_write_off
      intro j hj hc
      exact h ⟨j, hj, hc⟩

theorem patch_full (v : Nat) (p : Nat → Nat) : patch v 0 4 p = word_of p := by
  simp [patch, word_of]

end VCpu

namespace VCpu

theorem stored_zero (m : Nat → Nat) (hm : ∀ x, m x < 256) (address : Nat) (p : Nat → Nat) :
    Stored m m address p 0 :=
  ⟨hm, fun i hi => absurd hi (Nat.not_lt_zero i), fun _ _ => rfl⟩

theorem stored_append (m m1 m2 : Nat → Nat) (address : Nat) (p : Nat → Nat) (n1 n2 : Nat)
    (hn : n1 + n2 ≤ WORD) (h1 : Stored m m1 address p n1)
    (h2 : Stored m1 m2 ((address + n1) % WORD) (fun i => p (n1 + i)) n2) :
    Stored m m2 address p (n1 + n2) := by
  simp only [WORD] at hn
  refine ⟨h2.1, ?_, ?_⟩
  · intro i hi
    by_cases h : i < n1
    · rw [h2.2.2 _ (by
        intro j hj
        simp only [WORD]
        omega)]
      exact h1.2.1 i h
    · have e : (address + i) % WORD = ((address + n1) % WORD + (i - n1)) % WORD := by
        simp only [WORD]
        omega
      rw [e, h2.2.1 (i - n1) (by omega)]
      simp only []
      congr 2
      omega
  · intro x hx
    rw [h2.2.2 x (by
      intro j hj
      have := hx (n1 + j) (by omega)
      simp only [WORD] at this ⊢
      omega)]
    exact h1.2.2 x (fun i hi => hx i (by omega))

theorem slow_tail_stored (b : Buses (Nat → Nat)) (hb : b.mem = guest_mem) (junk count address off : Nat)
    (dev : Nat → Nat) (buf buf0 : Nat → Nat) (hc : count < 4)
    (hbuf : ∀ i, buf i % 256 = buf0 i % 256) (hm : ∀ x, dev x < 256) :
    (slow_tail b false junk count address off dev buf).ok = true ∧
    Stored dev (slow_tail b false junk count address off dev buf).dev address
      (fun i => buf0 (off + i)) count := by
  simp only [slow_tail, hb, guest_read, Bool.true_eq_false, if_false, Bool.false_eq_true]
  by_cases h0 : count = 0
  · subst h0
    exact ⟨rfl, stored_zero dev hm address _⟩
  · rw [if_neg h0]
    refine ⟨rfl, ?_⟩
    have h := store_patch dev hm address 0 count
      (word_of (fun j => dev ((address + j) % WORD))) true (fun j => buf (off + j)) (by omega)
      (by
        intro j hj _
        rw [byte_word_of _ _ hj]
        exact Nat.mod_eq_of_lt (hm _))
    refine ⟨h.1, ?_, ?_⟩
    · intro i hi
      have := h.2.1 i hi
      rw [Nat.add_zero] at this
      exact this.trans (hbuf _)
    · intro x hx
      exact h.2.2 x (by simpa using hx)

theorem slow_words_stored (b : Buses (Nat → Nat)) (hb : b.mem = guest_mem) (junk : Nat) :
    ∀ count address off dev buf, ∀ buf0 : Nat → Nat,
      (∀ i, buf i % 256 = buf0 i % 256) → (∀ x, dev x < 256) → count ≤ WORD →
      (slow_words b false junk count address off dev buf).ok = true ∧
      Stored dev (slow_words b false junk count address off dev buf).dev address
        (fun i => buf0 (off + i)) count := by
  apply slow_words_induct b false junk (fun count address off dev buf t =>
    ∀ buf0 : Nat → Nat, (∀ i, buf i % 256 = buf0 i % 256) → (∀ x, dev x < 256) →
      count ≤ WORD → t.ok = true ∧ Stored dev t.dev address (fun i => buf0 (off + i)) count)
  · intro count address off dev buf hc buf0 hbuf hm _
    exact slow_tail_stored b hb junk count address off dev buf buf0 hc hbuf hm
  · intro count address off dev buf _ hf
    rw [hb, guest_write_fst] at hf
    cases hf
  · intro count address off dev buf h4 _ t ih buf0 hbuf hm hc
    rw [hb] at ih
    have hs := store_patch dev hm address 0 4 0 false (fun j => buf (off + j)) (by omega)
      (by
        intro j hj hn
        exact absurd ⟨Nat.zero_le j, by omega⟩ hn)
    rw [patch_full] at hs
    have ih1 := ih buf0 (by
      intro i
      rw [guest_write_snd]
      simp only [poke]
      split_ifs with hi
      · rw [byte_word_of _ _ (by omega), Nat.mod_mod]
        have e : off + (i - off) = i := by omega
        rw [e]
        exact hbuf i
      · exact hbuf i) hs.1 (by omega)
    refine ⟨ih1.1, ?_⟩
    have e : count = 4 + (count - 4) := by omega
    rw [e]
    apply stored_append dev _ _ address _ 4 (count - 4) (by omega)
    · refine ⟨hs.1, ?_, ?_⟩
      · intro i hi
        have := hs.2.1 i hi
        rw [Nat.add_zero] at this
        exact this.trans (hbuf _)
      · intro x hx
        exact hs.2.2 x (by simpa using hx)
    · have e2 : ∀ i, off + 4 + i = off + (4 + i) := fun i => by omega
      simp only [e2] at ih1
      exact ih1.2

end VCpu

namespace VCpu

theorem slow_path_stored (b : Buses (Nat → Nat)) (hb : b.mem = guest_mem)
    (junk0 junk address count : Nat) (dev buf : Nat → Nat) (ha : address < WORD)
    (hc : count ≤ WORD) (hm : ∀ x, dev x < 256) :
    (slow_path b false junk0 junk address count dev buf).ok = true ∧
    Stored dev (slow_path b false junk0 junk address count dev buf).dev address buf count := by
  unfold slow_path
  rw [and_three, and_word_mask address ha]
  by_cases h0 : address % 4 ≠ 0
  · rw [if_pos h0]
    simp only [hb, guest_read, guest_write_fst, Bool.true_eq_false, if_false,
      Bool.false_eq_true]
    obtain ⟨l, hl⟩ : ∃ l, l = if 4 - address % 4 > count then count else 4 - address % 4 :=
      ⟨_, rfl⟩
    rw [← hl]
    have hl1 : l ≤ count := by rw [hl]; split_ifs <;> omega
    have hl2 : address % 4 + l ≤ 4 := by rw [hl]; split_ifs <;> omega
    have hs := store_patch dev hm (address - address % 4) (address % 4) l
      (word_of (fun j => dev ((address - address % 4 + j) % WORD))) true buf hl2
      (by
        intro j hj _
        rw [byte_word_of _ _ hj]
        exact Nat.mod_eq_of_lt (hm _))
    have e : address - address % 4 + address % 4 = address := by omega
    rw [e] at hs
    have hw := slow_words_stored b hb junk (count - l) ((address + l) % WORD) l _ buf buf
      (fun _ => rfl) hs.1 (by omega)
    refine ⟨hw.1, ?_⟩
    have e2 : count = l + (count - l) := by omega
    rw [e2]
    have e3 : l + (count - l) - l = count - l := by omega
    simp only [e3]
    exact stored_append dev _ _ address buf l (count - l) (by omega) hs hw.2
  · rw [if_neg h0]
    have hw := slow_words_stored b hb junk count address 0 dev buf buf (fun _ => rfl) hm hc
    simp only [Nat.zero_add] at hw
    exact hw

end VCpu

/-- C14: with no parameter in use, no mapping claimed for the page, and
byte-addressable guest memory that claims every transaction on the memory
bus, `copy_out(address, buf, count)` returns true; afterwards the guest bytes
at `address .. address + count - 1` (addresses taken modulo the word size) are
the bytes of `buf`, and every other guest byte is as before. -/
theorem C14_copy_out_stores (b : VCpu.Buses (Nat → Nat)) (junk0 junk : Nat) (v : VCpu)
    (m host buf : Nat → Nat) (address count : Nat)
    (hmem : b.mem = VCpu.guest_mem)
    (hreg : (b.memregion (address >>> 12) m).1 = false ∧ (b.memregion (address >>> 12) m).2.2 = m)
    (hv : v.params_used = 0) (hm : ∀ x, m x < 256) (ha : address < WORD) (hc : count < WORD) :
    ∃ r, VCpu.copy_out b junk0 junk v m host address buf count = some r ∧
      r.ret = true ∧
      (∀ i, i < count → r.dev ((address + i) % WORD) = buf i % 256) ∧
      (∀ x, (∀ i, i < count → x ≠ (address + i) % WORD) → r.dev x = m x) := by
  have hs := VCpu.slow_path_stored b hmem junk0 junk address count m buf ha (Nat.le_of_lt hc) hm
  refine ⟨_, by
    simp only [VCpu.copy_out, VCpu.copy_inout, VCpu.check_params, hv, if_true, hreg.1,
      true_or]
    rfl, ?_, ?_, ?_⟩
  · simp only [hreg.2]
    exact hs.1
  · simp only [hreg.2]
    exact hs.2.2.1
  · simp only [hreg.2]
    exact hs.2.2.2

theorem C14_copy_out_stores_witness :
    ∃ r, VCpu.copy_out VCpu.guest_buses 0 0 VCpu.idle VCpu.sample_mem (fun _ => 0) 0x1001
        (fun i => 0xa0 + i) 6 = some r ∧
      r.ret = true ∧
      (∀ i, i < 6 → r.dev ((0x1001 + i) % WORD) = (0xa0 + i) % 256) ∧
      (∀ x, (∀ i, i < 6 → x ≠ (0x1001 + i) % WORD) → r.dev x = VCpu.sample_mem x) :=
  C14_copy_out_stores VCpu.guest_buses 0 0 VCpu.idle VCpu.sample_mem (fun _ => 0)
    (fun i => 0xa0 + i) 0x1001 6 rfl ⟨rfl, rfl⟩ rfl
    (by
      intro x
      simp only [VCpu.sample_mem]
      split_ifs <;> omega)
    (by decide) (by decide)

/-! ## Further claims on the bound checks and on runs of `add_mappings` -/

/-- C30: `validate_send_bounds()` is true if and only if `frame_words()`, which
is `HEADER_SIZE/4 + untyped + 2*typed + 1`, is at most
`MAX_DATA_WORDS - STACK_START - 1`, that is if and only if
`untyped + 2*typed <= 502`; the two other conjuncts of the check follow from
that one. -/
theorem C30_send_bounds_by_frame_words (u : Utcb) :
    u.frame_words = HEADER_SIZE / 4 + u.head.untyped + 2 * u.head.typed + 1 ∧
    (u.validate_send_bounds = true ↔ u.frame_words ≤ MAX_DATA_WORDS - STACK_START - 1) ∧
    (u.frame_words ≤ MAX_DATA_WORDS - STACK_START - 1 ↔
      u.head.untyped + 2 * u.head.typed ≤ 502) ∧
    (u.frame_words ≤ MAX_DATA_WORDS - STACK_START - 1 →
      u.head.untyped ≤ STACK_START ∧ u.head.typed * 2 ≤ MAX_DATA_WORDS - STACK_START - 1) := by
  have h := validate_send_bounds_iff u
  simp only [frame_words, MAX_DATA_WORDS, STACK_START, HEADER_SIZE] at *
  refine ⟨trivial, ?_, ?_, ?_⟩
  · rw [h]
    omega
  · omega
  · omega

theorem loop_shift (ms : Nat → Nat → Nat) (rights : Nat) (frame : Bool) (max_items : Nat) :
    ∀ fuel addr size hotspot u,
      ∀ it ∈ (add_mappings_loop ms rights frame max_items fuel addr size hotspot u).items,
        it.minshift = ms (it.addr ||| it.hotspot &&& 0xfffff000) it.size ∧ it.size ≠ 0 := by
  intro fuel
  induction fuel with
  | zero => intro addr size hotspot u; simp [add_mappings_loop]
  | succ n ih =>
    intro addr size hotspot u
    simp only [add_mappings_loop]
    split_ifs with h0 h1 h2 h3
    · simp
    · simp
    · simp
    · simp [h0]
    · simp only [List.mem_cons, forall_eq_or_imp]
      exact ⟨⟨trivial, h0⟩, ih _ _ _ _⟩

/-- C27: with `Cpu::minshift` as the spec describes it, for `addr` and `size`
multiples of 4096 and any hotspot, the assertion `minshift >= Utcb::MINSHIFT`
holds in every iteration of `add_mappings`: the call ends in `return`, never
in the failed assertion, and the shift computed for every item, from the
address, the hotspot without its low 12 bits and the size left, is 12 or
more. -/
theorem C27_assertion_holds (u : Utcb) (addr size hotspot rights : Nat) (frame : Bool)
    (max_items : Nat) (ha : addr % 4096 = 0) (hs : size % 4096 = 0) (hw : size < WORD) :
    (add_mappings Cpu.minshift u addr size hotspot rights frame max_items).status ≠ .asserted ∧
    (∃ r, (add_mappings Cpu.minshift u addr size hotspot rights frame max_items).status
      = .returned r) ∧
    (∀ it ∈ (add_mappings Cpu.minshift u addr size hotspot rights frame max_items).items,
      it.minshift = Cpu.minshift (it.addr ||| it.hotspot &&& 0xfffff000) it.size ∧
      MINSHIFT ≤ Cpu.minshift (it.addr ||| it.hotspot &&& 0xfffff000) it.size) := by
  have hr := loop_run rights frame max_items MAX_DATA_WORDS addr size hotspot u ha hs hw
  have hf := add_mappings_finishes Cpu.minshift u addr size hotspot rights frame max_items
  have hret : ∃ r, (add_mappings Cpu.minshift u addr size hotspot rights frame max_items).status
      = .returned r := by
    rcases hr.1 with h | ⟨r, h, _⟩
    · exact absurd h hf
    · exact ⟨r, h⟩
  refine ⟨?_, hret, ?_⟩
  · obtain ⟨r, h⟩ := hret
    rw [h]
    simp
  · intro it hit
    have h1 := (loop_shift Cpu.minshift rights frame max_items MAX_DATA_WORDS addr size hotspot u
      it hit).1
    have h2 := (hr.2.2 it hit).1
    refine ⟨h1, ?_⟩
    rw [← h1]
    simpa [MINSHIFT] using h2

theorem C27_assertion_holds_witness :
    (add_mappings Cpu.minshift Utcb.zero 0x7000 0x9000 0x3001 DESC_MEM_ALL false 16).status
      ≠ .asserted :=
  (C27_assertion_holds Utcb.zero 0x7000 0x9000 0x3001 DESC_MEM_ALL false 16 (by decide)
    (by decide) (by decide)).1

theorem loop_draining (rights : Nat) (frame : Bool) (max_items : Nat) :
    ∀ fuel addr size hotspot u, addr % 4096 = 0 → size % 4096 = 0 → size < WORD →
      Draining size
        (add_mappings_loop Cpu.minshift rights frame max_items fuel addr size hotspot u).items := by
  intro fuel
  induction fuel with
  | zero =>
    intro addr size hotspot u _ _ _
    simp [add_mappings_loop, Draining]
  | succ n ih =>
    intro addr size hotspot u ha hs hw
    have hstart : (addr ||| hotspot &&& 0xfffff000) % 4096 = 0 := by
      apply Nat.mod_eq_zero_of_dvd
      have : (4096 : Nat) = 2 ^ 12 := by decide
      rw [this, two_pow_dvd_or]
      exact ⟨Nat.dvd_of_mod_eq_zero ha, page_dvd_and_mask hotspot⟩
    simp only [add_mappings_loop]
    split_ifs with h0 h1 h2 h3
    · simp [Draining]
    · simp [Draining]
    · simp [Draining]
    · have hsp := (Cpu.minshift_spec (addr ||| hotspot &&& 0xfffff000) size h0).2
      simp [Draining, Item.mapsize, hsp]
    · have h12 := Cpu.page_le_minshift _ _ h0 hstart hs
      have hsp := (Cpu.minshift_spec (addr ||| hotspot &&& 0xfffff000) size h0).2
      have hdv : 2 ^ 12 ∣ 2 ^ Cpu.minshift (addr ||| hotspot &&& 0xfffff000) size :=
        Nat.pow_dvd_pow 2 h12
      have hmod := Nat.mod_eq_zero_of_dvd hdv
      have hi := ih ((addr + 2 ^ Cpu.minshift (addr ||| hotspot &&& 0xfffff000) size) % WORD)
        ((size + (WORD - 2 ^ Cpu.minshift (addr ||| hotspot &&& 0xfffff000) size)) % WORD)
        ((hotspot + 2 ^ Cpu.minshift (addr ||| hotspot &&& 0xfffff000) size) % WORD)
        (u.reserve.put ⟨u.reserve.item_start.toNat, addr, size, hotspot,
          Cpu.minshift (addr ||| hotspot &&& 0xfffff000) size⟩ rights)
      simp only [Draining, Item.mapsize, true_and]
      generalize 2 ^ Cpu.minshift (addr ||| hotspot &&& 0xfffff000) size = M at hi hsp hmod ⊢
      have e2 : (size + (WORD - M)) % WORD = size - M := by
        simp only [WORD] at *
        omega
      rw [e2] at hi ⊢
      exact ⟨hsp, hi (by simp only [WORD] at *; omega) (by simp only [WORD] at *; omega)
        (by omega)⟩

theorem draining_chunk (xs : List Item) :
    ∀ s, Draining s xs → ∀ it ∈ xs, it.mapsize ≤ it.size ∧ it.size ≤ s := by
  induction xs with
  | nil => intro s _ it hit; simp at hit
  | cons x rest ih =>
    intro s h it hit
    simp only [Draining] at h
    rcases List.mem_cons.1 hit with e | hr
    · subst e
      exact ⟨by omega, by omega⟩
    · have := ih _ h.2.2 it hr
      exact ⟨this.1, by omega⟩

theorem pages_le_sum (xs : List Item) (h : ∀ it ∈ xs, 12 ≤ it.minshift) :
    4096 * xs.length ≤ (xs.map Item.mapsize).sum := by
  induction xs with
  | nil => simp
  | cons x rest ih =>
    have h1 : 2 ^ 12 ≤ 2 ^ x.minshift :=
      Nat.pow_le_pow_right (by decide) (h x (List.mem_cons_self _ _))
    have h2 := ih (fun it hit => h it (List.mem_cons_of_mem _ hit))
    simp only [List.length_cons, List.map_cons, List.sum_cons, Item.mapsize]
    norm_num at h1
    omega

/-- C28: with `Cpu::minshift` as the spec describes it, for page-aligned `addr`
and `size` a multiple of 4096, every chunk `2^s` that `add_mappings` chooses is
at most the size left in that iteration; the size left goes down by the chunk
of each item, without underflow; and the loop ends in `return` after writing
at most `size / 4096` items. -/
theorem C28_chunks_fit (u : Utcb) (addr size hotspot rights : Nat) (frame : Bool)
    (max_items : Nat) (ha : addr % 4096 = 0) (hs : size % 4096 = 0) (hw : size < WORD) :
    (∃ r, (add_mappings Cpu.minshift u addr size hotspot rights frame max_items).status
      = .returned r ∧ r ≤ size) ∧
    (∀ it ∈ (add_mappings Cpu.minshift u addr size hotspot rights frame max_items).items,
      2 ^ it.minshift ≤ it.size ∧ it.size ≤ size) ∧
    Draining size (add_mappings Cpu.minshift u addr size hotspot rights frame max_items).items ∧
    (add_mappings Cpu.minshift u addr size hotspot rights frame max_items).items.length
      ≤ size / 4096 := by
  have hr := loop_run rights frame max_items MAX_DATA_WORDS addr size hotspot u ha hs hw
  have hf := add_mappings_finishes Cpu.minshift u addr size hotspot rights frame max_items
  have hd := loop_draining rights frame max_items MAX_DATA_WORDS addr size hotspot u ha hs hw
  have hp := pages_le_sum
    (add_mappings Cpu.minshift u addr size hotspot rights frame max_items).items
    (fun it hit => (hr.2.2 it hit).1)
  rcases hr.1 with h | ⟨r, h, _, hsum⟩
  · exact absurd h hf
  · refine ⟨⟨r, h, ?_⟩, fun it hit => draining_chunk _ _ hd it hit, hd, ?_⟩
    · change _ + r = size at hsum
      omega
    · change _ + r = size at hsum
      rw [Nat.le_div_iff_mul_le (by decide)]
      change 4096 * _ ≤ _ at hp
      have : (add_mappings Cpu.minshift u addr size hotspot rights frame max_items).items
          = (add_mappings_loop Cpu.minshift rights frame max_items MAX_DATA_WORDS addr size
              hotspot u).items := rfl
      rw [this] at hp ⊢
      omega

theorem C28_chunks_fit_witness :
    (add_mappings Cpu.minshift Utcb.zero 0x7000 0x9000 0x3001 DESC_MEM_ALL false 16).items.length
      ≤ 0x9000 / 4096 :=
  (C28_chunks_fit Utcb.zero 0x7000 0x9000 0x3001 DESC_MEM_ALL false 16 (by decide)
    (by decide) (by decide)).2.2.2

/-- The frame of the loop on a UTCB whose counter of typed items is below its
maximum: the header apart from `typed` is kept, every item lies between the
untyped words and the items present before, and a word outside the items
written is kept. -/
theorem loop_frame (ms : Nat → Nat → Nat) (rights : Nat) (frame : Bool) (max_items : Nat) :
    ∀ fuel addr size hotspot u, u.head.typed < 65535 →
      ((add_mappings_loop ms rights frame max_items fuel addr size hotspot u).utcb.head.untyped
          = u.head.untyped ∧
        (add_mappings_loop ms rights frame max_items fuel addr size hotspot u).utcb.head.crd_translate
          = u.head.crd_translate ∧
        (add_mappings_loop ms rights frame max_items fuel addr size hotspot u).utcb.head.crd
          = u.head.crd ∧
        (add_mappings_loop ms rights frame max_items fuel addr size hotspot u).utcb.head.nul_cpunr
          = u.head.nul_cpunr) ∧
      (∀ it ∈ (add_mappings_loop ms rights frame max_items fuel addr size hotspot u).items,
        u.head.untyped ≤ it.slot ∧ it.slot + 2 ≤ 1020 - 2 * u.head.typed) ∧
      ∀ i, (∀ it ∈ (add_mappings_loop ms rights frame max_items fuel addr size hotspot u).items,
          i ≠ it.slot ∧ i ≠ it.slot + 1) →
        (add_mappings_loop ms rights frame max_items fuel addr size hotspot u).utcb.msg i
          = u.msg i := by
  intro fuel
  induction fuel with
  | zero => intro addr size hotspot u _; simp [add_mappings_loop]
  | succ n ih =>
    intro addr size hotspot u hu
    simp only [add_mappings_loop]
    have hslot : rejects u.reserve frame max_items = false →
        ∀ a s h m, (⟨u.reserve.item_start.toNat, a, s, h, m⟩ : Item).slot
          = 1020 - 2 * (u.head.typed + 1) ∧ u.head.untyped + 2 * (u.head.typed + 1) ≤ 1020 := by
      intro h2 a s h m
      have hr := (rejects_eq_false_iff _ _ _).1 h2
      simp only [reserve_untyped, reserve_typed, HALF] at hr
      simp only [item_start, MAX_DATA_WORDS, HEADER_SIZE, reserve_typed, HALF]
      omega
    split_ifs with h0 h1 h2 h3
    · simp
    · simp
    · rw [release_reserve u (by simp only [HALF]; omega)]
      simp
    · have hs := hslot (by simpa using h2) addr size hotspot
        (ms (addr ||| hotspot &&& 0xfffff000) size)
      generalize (⟨u.reserve.item_start.toNat, addr, size, hotspot,
        ms (addr ||| hotspot &&& 0xfffff000) size⟩ : Item) = it at hs ⊢
      simp only [List.mem_singleton, forall_eq, put_head, reserve]
      refine ⟨⟨trivial, trivial, trivial, trivial⟩, ⟨by omega, by omega⟩, ?_⟩
      intro i hi
      rw [put_msg_other _ _ _ _ hi.1 hi.2]
    · have hs := hslot (by simpa using h2) addr size hotspot
        (ms (addr ||| hotspot &&& 0xfffff000) size)
      have ht2 : (u.reserve.put ⟨u.reserve.item_start.toNat, addr, size, hotspot,
          ms (addr ||| hotspot &&& 0xfffff000) size⟩ rights).head.typed
            = u.head.typed + 1 := by
        simp only [put_head, reserve_typed, HALF]; omega
      have hi := ih ((addr + 2 ^ ms (addr ||| hotspot &&& 0xfffff000) size) % WORD)
        ((size + (WORD - 2 ^ ms (addr ||| hotspot &&& 0xfffff000) size)) % WORD)
        ((hotspot + 2 ^ ms (addr ||| hotspot &&& 0xfffff000) size) % WORD)
        (u.reserve.put ⟨u.reserve.item_start.toNat, addr, size, hotspot,
          ms (addr ||| hotspot &&& 0xfffff000) size⟩ rights)
        (by rw [ht2]; omega)
      rw [ht2] at hi
      simp only [put_head] at hi
      have hu1 : u.reserve.head.untyped = u.head.untyped := reserve_untyped u
      have hu2 : u.reserve.head.crd_translate = u.head.crd_translate := by simp [reserve]
      have hu3 : u.reserve.head.crd = u.head.crd := by simp [reserve]
      have hu4 : u.reserve.head.nul_cpunr = u.head.nul_cpunr := by simp [reserve]
      rw [hu1, hu2, hu3, hu4] at hi
      generalize (⟨u.reserve.item_start.toNat, addr, size, hotspot,
        ms (addr ||| hotspot &&& 0xfffff000) size⟩ : Item) = it at hs hi ⊢
      generalize add_mappings_loop ms rights frame max_items n
        ((addr + 2 ^ ms (addr ||| hotspot &&& 0xfffff000) size) % WORD)
        ((size + (WORD - 2 ^ ms (addr ||| hotspot &&& 0xfffff000) size)) % WORD)
        ((hotspot + 2 ^ ms (addr ||| hotspot &&& 0xfffff000) size) % WORD)
        (u.reserve.put it rights) = o at hi ⊢
      simp only [List.mem_cons, forall_eq_or_imp]
      refine ⟨hi.1, ⟨⟨by omega, by omega⟩, ?_⟩, ?_⟩
      · intro it' hit
        have := hi.2.1 it' hit
        exact ⟨this.1, by omega⟩
      · intro i hix
        rw [hi.2.2 i hix.2, put_msg_other _ _ _ _ hix.1.1 hix.1.2, reserve_msg]

/-- The counter value 65535, which no UTCB of 1020 words holds, is where the
frame ends: `add_mappings(0x1000, 0x2000, 0, DESC_MEM_ALL)` wraps the counter
to 0, writes its first item behind `msg`, at word 1020, and its second item at
words 1018 and 1019. -/
theorem typed_wrap_overwrites :
    1020 - 2 * full_counter.head.typed ≤ (1018 : Int) ∧
    (add_mappings Cpu.minshift full_counter 0x1000 0x2000 0 DESC_MEM_ALL false
      default_max_items).status = .returned 0 ∧
    (add_mappings Cpu.minshift full_counter 0x1000 0x2000 0 DESC_MEM_ALL false
      default_max_items).items.map Item.slot = [1020, 1018] ∧
    full_counter.msg 1018 = 0 ∧
    (add_mappings Cpu.minshift full_counter 0x1000 0x2000 0 DESC_MEM_ALL false
      default_max_items).utcb.msg 1018 = 0x2000 ||| DESC_MEM_ALL := by
  decide

/-- C29: on a UTCB with `head.typed < 65535` (a UTCB of 1020 words holds 510
typed items at most), whatever
`Cpu::minshift` returns and however the call ends, `add_mappings` modifies
only `head.typed` and the two words of each item it appends: `head.untyped`
and the other header words are unchanged, every item lies at or above
`msg[untyped]` and below the typed items present before the call, and every
word of `msg` that is not one of the two words of an appended item is
unchanged, in particular the untyped words and the typed items present
before. -/
theorem C29_frame (ms : Nat → Nat → Nat) (u : Utcb) (addr size hotspot rights : Nat)
    (frame : Bool) (max_items : Nat) (ht : u.head.typed < 65535) :
    ((add_mappings ms u addr size hotspot rights frame max_items).utcb.head.untyped
        = u.head.untyped ∧
      (add_mappings ms u addr size hotspot rights frame max_items).utcb.head.crd_translate
        = u.head.crd_translate ∧
      (add_mappings ms u addr size hotspot rights frame max_items).utcb.head.crd = u.head.crd ∧
      (add_mappings ms u addr size hotspot rights frame max_items).utcb.head.nul_cpunr
        = u.head.nul_cpunr) ∧
    (∀ it ∈ (add_mappings ms u addr size hotspot rights frame max_items).items,
      u.head.untyped ≤ it.slot ∧ it.slot + 2 ≤ MAX_DATA_WORDS - 2 * u.head.typed) ∧
    (∀ i, (∀ it ∈ (add_mappings ms u addr size hotspot rights frame max_items).items,
        i ≠ it.slot ∧ i ≠ it.slot + 1) →
      (add_mappings ms u addr size hotspot rights frame max_items).utcb.msg i = u.msg i) ∧
    (∀ i, i < u.head.untyped ∨ MAX_DATA_WORDS - 2 * u.head.typed ≤ i →
      (add_mappings ms u addr size hotspot rights frame max_items).utcb.msg i = u.msg i) := by
  have h := loop_frame ms rights frame max_items MAX_DATA_WORDS addr size hotspot u ht
  have hM : MAX_DATA_WORDS = 1020 := by decide
  rw [hM]
  refine ⟨h.1, h.2.1, h.2.2, ?_⟩
  intro i hi
  apply h.2.2
  intro it hit
  have := h.2.1 it hit
  omega

theorem C29_frame_witness :
    Utcb.sixteen.head.typed < 65535 ∧
    (add_mappings Cpu.minshift Utcb.sixteen 0x1000 0x3000 0 DESC_MEM_ALL false 32).items.map
        Item.slot = [986, 984, 982] ∧
    (add_mappings Cpu.minshift Utcb.sixteen 0x1000 0x3000 0 DESC_MEM_ALL false 32).utcb.head.untyped
      = Utcb.sixteen.head.untyped ∧
    (add_mappings Cpu.minshift Utcb.sixteen 0x1000 0x3000 0 DESC_MEM_ALL false 32).utcb.msg 1000
      = Utcb.sixteen.msg 1000 :=
  ⟨by decide, by decide,
    (C29_frame Cpu.minshift Utcb.sixteen 0x1000 0x3000 0 DESC_MEM_ALL false 32
      (by decide)).1.1,
    (C29_frame Cpu.minshift Utcb.sixteen 0x1000 0x3000 0 DESC_MEM_ALL false 32
      (by decide)).2.2.2 1000 (Or.inr (by decide))⟩

/-! ## The words of the items -/

/-- In a tiling that starts inside an aligned block of size `2^g`, `r` bytes
before its end, some blocks at the front end exactly where that block ends:
no block of the tiling crosses the end, unless it starts with the block and is
larger, which `hmax` excludes. -/
theorem tiles_prefix (g : Nat) :
    ∀ (ss : List Nat) (a h n r : Nat), 0 < r → r ≤ 2 ^ g → 2 ^ g ∣ a + r → r ≤ n →
      (r = 2 ^ g → ∀ s, 2 ^ s ∣ a → 2 ^ s ∣ h → 2 ^ s ≤ n → s ≤ g) →
      Tiles a h ss n →
      ∃ pre post, ss = pre ++ post ∧ pre ≠ [] ∧ Tiles (a + r) (h + r) post (n - r) := by
  intro ss
  induction ss with
  | nil =>
    intro a h n r hr _ _ hn _ ht
    simp only [Tiles] at ht
    omega
  | cons s rest ih =>
    intro a h n r hr hrg hd hn hmax ht
    simp only [Tiles] at ht
    obtain ⟨h12, hsa, hsh, hsn, hrest⟩ := ht
    have hle : 2 ^ s ≤ r := by
      by_contra hc
      by_cases hsg : s ≤ g
      · have h1 : 2 ^ s ∣ a + r := Dvd.dvd.trans (Nat.pow_dvd_pow 2 hsg) hd
        have h2 : 2 ^ s ∣ r := (Nat.dvd_add_right hsa).1 h1
        exact hc (Nat.le_of_dvd hr h2)
      · have h1 : 2 ^ g ∣ a := Dvd.dvd.trans (Nat.pow_dvd_pow 2 (by omega)) hsa
        have h2 : 2 ^ g ∣ r := (Nat.dvd_add_right h1).1 hd
        have h3 := Nat.le_of_dvd hr h2
        exact hsg (hmax (by omega) s hsa hsh hsn)
    by_cases he : 2 ^ s = r
    · refine ⟨[s], rest, rfl, by simp, ?_⟩
      rw [← he]
      exact hrest
    · obtain ⟨pre, post, e, _, hp⟩ := ih (a + 2 ^ s) (h + 2 ^ s) (n - 2 ^ s) (r - 2 ^ s)
        (by omega) (by omega)
        (by
          have e1 : a + 2 ^ s + (r - 2 ^ s) = a + r := by omega
          rw [e1]
          exact hd)
        (by omega) (by intro hh; omega) hrest
      refine ⟨s :: pre, post, by rw [e]; rfl, by simp, ?_⟩
      have e1 : a + 2 ^ s + (r - 2 ^ s) = a + r := by omega
      have e2 : h + 2 ^ s + (r - 2 ^ s) = h + r := by omega
      have e3 : n - 2 ^ s - (r - 2 ^ s) = n - r := by omega
      rw [e1, e2, e3] at hp
      exact hp

theorem two_pow_dvd_word (s : Nat) (h : s ≤ 32) : 2 ^ s ∣ WORD := by
  have : WORD = 2 ^ 32 := by decide
  rw [this]
  exact Nat.pow_dvd_pow 2 h

theorem dvd_of_mod_word (s a b : Nat) (hs : s ≤ 32) (h : a % WORD = b) : 2 ^ s ∣ a ↔ 2 ^ s ∣ b := by
  rw [← h]
  exact ((Nat.dvd_mod_iff (two_pow_dvd_word s hs)).symm)

theorem shift_lt_of_le_size (s size : Nat) (h : 2 ^ s ≤ size) (hw : size < WORD) : s ≤ 31 := by
  by_contra hc
  have h1 : 2 ^ 32 ≤ 2 ^ s := Nat.pow_le_pow_right (by decide) (by omega)
  simp only [WORD] at hw
  omega

/-- A run that consumes the whole region writes no more items than any tiling
of the region has blocks; `A` and `H` are the address and the hotspot page of
the tiling, which the 32-bit `addr` and `hotspot` of the run represent. -/
theorem loop_minimal (rights : Nat) (frame : Bool) (max_items : Nat) :
    ∀ fuel addr size hotspot u, addr % 4096 = 0 → size % 4096 = 0 → size < WORD →
      addr < WORD → hotspot < WORD →
      (add_mappings_loop Cpu.minshift rights frame max_items fuel addr size hotspot u).status
        = .returned 0 →
      ∀ ss A H, A % WORD = addr → H % WORD = hotspot / 4096 * 4096 → Tiles A H ss size →
        (add_mappings_loop Cpu.minshift rights frame max_items fuel addr size hotspot u).items.length
          ≤ ss.length := by
  intro fuel
  induction fuel with
  | zero =>
    intro addr size hotspot u _ _ _ _ _ hst
    simp [add_mappings_loop] at hst
  | succ n ih =>
    intro addr size hotspot u ha hs hw haw hhw hst ss A H hA hH ht
    have hstart : (addr ||| hotspot &&& 0xfffff000) % 4096 = 0 := by
      apply Nat.mod_eq_zero_of_dvd
      have : (4096 : Nat) = 2 ^ 12 := by decide
      rw [this, two_pow_dvd_or]
      exact ⟨Nat.dvd_of_mod_eq_zero ha, page_dvd_and_mask hotspot⟩
    simp only [add_mappings_loop] at hst ⊢
    split_ifs at hst ⊢ with h0 h1 h2 h3
    · simp
    · simp at hst
      exact absurd hst h0
    · have h12 := Cpu.page_le_minshift _ _ h0 hstart hs
      have h31 := Cpu.minshift_le (addr ||| hotspot &&& 0xfffff000) size
      have hsp := Cpu.minshift_spec (addr ||| hotspot &&& 0xfffff000) size h0
      have hdv := (two_pow_dvd_or addr (hotspot &&& 0xfffff000) _).1 hsp.1
      have hdv2 : 2 ^ Cpu.minshift (addr ||| hotspot &&& 0xfffff000) size ∣ hotspot / 4096 * 4096 := by
        rw [← and_page_mask hotspot hhw]
        exact hdv.2
      have hmax : ∀ s, 2 ^ s ∣ A → 2 ^ s ∣ H → 2 ^ s ≤ size →
          s ≤ Cpu.minshift (addr ||| hotspot &&& 0xfffff000) size := by
        intro s h1 h2 h3
        have hs31 := shift_lt_of_le_size s size h3 hw
        apply Cpu.le_minshift _ _ _ hw _ h3
        rw [two_pow_dvd_or, and_page_mask hotspot hhw]
        exact ⟨(dvd_of_mod_word s A addr (by omega) hA).1 h1,
          (dvd_of_mod_word s H _ (by omega) hH).1 h2⟩
      have hdA : 2 ^ Cpu.minshift (addr ||| hotspot &&& 0xfffff000) size ∣ A :=
        (dvd_of_mod_word _ A addr (by omega) hA).2 hdv.1
      obtain ⟨pre, post, e, hne, hp⟩ := tiles_prefix
        (Cpu.minshift (addr ||| hotspot &&& 0xfffff000) size) ss A H size
        (2 ^ Cpu.minshift (addr ||| hotspot &&& 0xfffff000) size)
        (Nat.two_pow_pos _) (Nat.le_refl _)
        ((Nat.dvd_add_right hdA).2 (Nat.dvd_refl _)) hsp.2 (fun _ => hmax) ht
      have hdvp : 2 ^ 12 ∣ 2 ^ Cpu.minshift (addr ||| hotspot &&& 0xfffff000) size :=
        Nat.pow_dvd_pow 2 h12
      have hmod := Nat.mod_eq_zero_of_dvd hdvp
      have hi := ih ((addr + 2 ^ Cpu.minshift (addr ||| hotspot &&& 0xfffff000) size) % WORD)
        ((size + (WORD - 2 ^ Cpu.minshift (addr ||| hotspot &&& 0xfffff000) size)) % WORD)
        ((hotspot + 2 ^ Cpu.minshift (addr ||| hotspot &&& 0xfffff000) size) % WORD)
        (u.reserve.put ⟨u.reserve.item_start.toNat, addr, size, hotspot,
          Cpu.minshift (addr ||| hotspot &&& 0xfffff000) size⟩ rights)
      have hsp2 := hsp.2
      generalize 2 ^ Cpu.minshift (addr ||| hotspot &&& 0xfffff000) size = M
        at hi hsp2 hmod hp hst ⊢
      have e2 : (size + (WORD - M)) % WORD = size - M := by
        simp only [WORD] at *
        omega
      rw [e2] at hi hst ⊢
      have hl := hi (by simp only [WORD] at *; omega) (by simp only [WORD] at *; omega)
        (by omega) (Nat.mod_lt _ (by decide)) (Nat.mod_lt _ (by decide)) hst post (A + M) (H + M)
        (by simp only [WORD] at *; omega) (by simp only [WORD] at *; omega) hp
      have hpl : 1 ≤ pre.length := by
        cases pre with
        | nil => exact absurd rfl hne
        | cons x xs => simp
      rw [e]
      simp only [List.length_cons, List.length_append]
      omega

/-- The shifts of the items of a run that consumes the whole region are a
tiling of the region. -/
theorem loop_tiles (rights : Nat) (frame : Bool) (max_items : Nat) :
    ∀ fuel addr size hotspot u, addr % 4096 = 0 → size % 4096 = 0 → size < WORD →
      addr < WORD → hotspot < WORD →
      (add_mappings_loop Cpu.minshift rights frame max_items fuel addr size hotspot u).status
        = .returned 0 →
      ∀ A H, A % WORD = addr → H % WORD = hotspot / 4096 * 4096 →
        Tiles A H
          ((add_mappings_loop Cpu.minshift rights frame max_items fuel addr size hotspot
            u).items.map Item.minshift) size := by
  intro fuel
  induction fuel with
  | zero =>
    intro addr size hotspot u _ _ _ _ _ hst
    simp [add_mappings_loop] at hst
  | succ n ih =>
    intro addr size hotspot u ha hs hw haw hhw hst A H hA hH
    have hstart : (addr ||| hotspot &&& 0xfffff000) % 4096 = 0 := by
      apply Nat.mod_eq_zero_of_dvd
      have : (4096 : Nat) = 2 ^ 12 := by decide
      rw [this, two_pow_dvd_or]
      exact ⟨Nat.dvd_of_mod_eq_zero ha, page_dvd_and_mask hotspot⟩
    simp only [add_mappings_loop] at hst ⊢
    split_ifs at hst ⊢ with h0 h1 h2 h3
    · simp [Tiles, h0]
    · simp at hst
      exact absurd hst h0
    · have h12 := Cpu.page_le_minshift _ _ h0 hstart hs
      have h31 := Cpu.minshift_le (addr ||| hotspot &&& 0xfffff000) size
      have hsp := Cpu.minshift_spec (addr ||| hotspot &&& 0xfffff000) size h0
      have hdv := (two_pow_dvd_or addr (hotspot &&& 0xfffff000) _).1 hsp.1
      have hdv2 : 2 ^ Cpu.minshift (addr ||| hotspot &&& 0xfffff000) size ∣ hotspot / 4096 * 4096 := by
        rw [← and_page_mask hotspot hhw]
        exact hdv.2
      have hdA : 2 ^ Cpu.minshift (addr ||| hotspot &&& 0xfffff000) size ∣ A :=
        (dvd_of_mod_word _ A addr (by omega) hA).2 hdv.1
      have hdH : 2 ^ Cpu.minshift (addr ||| hotspot &&& 0xfffff000) size ∣ H :=
        (dvd_of_mod_word _ H _ (by omega) hH).2 hdv2
      have hdvp : 2 ^ 12 ∣ 2 ^ Cpu.minshift (addr ||| hotspot &&& 0xfffff000) size :=
        Nat.pow_dvd_pow 2 h12
      have hmod := Nat.mod_eq_zero_of_dvd hdvp
      have hi := ih ((addr + 2 ^ Cpu.minshift (addr ||| hotspot &&& 0xfffff000) size) % WORD)
        ((size + (WORD - 2 ^ Cpu.minshift (addr ||| hotspot &&& 0xfffff000) size)) % WORD)
        ((hotspot + 2 ^ Cpu.minshift (addr ||| hotspot &&& 0xfffff000) size) % WORD)
        (u.reserve.put ⟨u.reserve.item_start.toNat, addr, size, hotspot,
          Cpu.minshift (addr ||| hotspot &&& 0xfffff000) size⟩ rights)
      have hsp2 := hsp.2
      simp only [List.map_cons, Tiles]
      refine ⟨h12, hdA, hdH, hsp2, ?_⟩
      generalize 2 ^ Cpu.minshift (addr ||| hotspot &&& 0xfffff000) size = M
        at hi hsp2 hmod hst ⊢
      have e2 : (size + (WORD - M)) % WORD = size - M := by
        simp only [WORD] at *
        omega
      rw [e2] at hi hst ⊢
      exact hi (by simp only [WORD] at *; omega) (by simp only [WORD] at *; omega)
        (by omega) (Nat.mod_lt _ (by decide)) (Nat.mod_lt _ (by decide)) hst (A + M) (H + M)
        (by simp only [WORD] at *; omega) (by simp only [WORD] at *; omega)

/-- C25: with `Cpu::minshift` as the spec describes it, for page-aligned `addr`
and `size` a multiple of 4096, when `add_mappings` returns 0 the items written
are a tiling of `[addr, addr + size)` by blocks of size `2^s`, `s >= 12`, each
aligned to its own size in the address and in the hotspot without its low 12
bits, both advanced in lockstep, and no such tiling has fewer blocks. -/
theorem C25_items_minimal (u : Utcb) (addr size hotspot rights : Nat) (frame : Bool)
    (max_items : Nat) (ha : addr % 4096 = 0) (haw : addr < WORD) (hs : size % 4096 = 0)
    (hw : size < WORD) (hh : hotspot < WORD)
    (h0 : (add_mappings Cpu.minshift u addr size hotspot rights frame max_items).status
      = .returned 0) :
    Tiles addr (hotspot / 4096 * 4096)
      ((add_mappings Cpu.minshift u addr size hotspot rights frame max_items).items.map
        Item.minshift) size ∧
    ∀ ss, Tiles addr (hotspot / 4096 * 4096) ss size →
      (add_mappings Cpu.minshift u addr size hotspot rights frame max_items).items.length
        ≤ ss.length := by
  have e1 : (hotspot / 4096 * 4096) % WORD = hotspot / 4096 * 4096 := by
    simp only [WORD] at *
    omega
  exact ⟨loop_tiles rights frame max_items MAX_DATA_WORDS addr size hotspot u ha hs hw haw hh h0
      addr _ (Nat.mod_eq_of_lt haw) e1,
    fun ss ht => loop_minimal rights frame max_items MAX_DATA_WORDS addr size hotspot u ha hs hw
      haw hh h0 ss addr _ (Nat.mod_eq_of_lt haw) e1 ht⟩

theorem C25_items_minimal_witness :
    Tiles 0x7000 (0x3001 / 4096 * 4096) [12, 12, 12, 12, 12, 13, 12, 12] 0x9000 ∧
    (add_mappings Cpu.minshift Utcb.zero 0x7000 0x9000 0x3001 DESC_MEM_ALL false 16).items.map
      Item.minshift = [12, 14, 14] ∧
    (add_mappings Cpu.minshift Utcb.zero 0x7000 0x9000 0x3001 DESC_MEM_ALL false 16).items.length
      ≤ [12, 12, 12, 12, 12, 13, 12, 12].length :=
  have ht : Tiles 0x7000 (0x3001 / 4096 * 4096) [12, 12, 12, 12, 12, 13, 12, 12] 0x9000 := by
    simp only [Tiles]
    decide
  ⟨ht, by decide,
    (C25_items_minimal Utcb.zero 0x7000 0x9000 0x3001 DESC_MEM_ALL false 16 (by decide)
      (by decide) (by decide) (by decide) (by decide) (by decide)).2 _ ht⟩

/-! ## Further claims on the parameters of `VCpu` -/

/-- C21: with all 5 slots in use, a read that matches no slot reaches
`add_param`, whose assertion `params_used < 5` fails before any store:
`add_param`, `check_params` and `copy_inout` end there, in `do_exit`, and
return no state in which a slot is overwritten or `params_used` is
incremented; and `add_param` returns only from a state with fewer than 5 slots
in use, where it takes the slot `params_used`, not slot 0. -/
theorem C21_table_full (v : VCpu) (address count : Nat) (h5 : v.params_used = 5)
    (hm : ∀ i, i < v.params_used → v.matches_slot address count i = false) :
    v.add_param address count true = none ∧
    v.check_params address count true = none ∧
    (∀ {σ : Type} (b : VCpu.Buses σ) (junk0 junk : Nat) (dev : σ) (host buf : Nat → Nat),
      VCpu.copy_inout b junk0 junk v dev host address buf count true = none) ∧
    (∀ (w x : VCpu) (a c : Nat) (r : Bool), w.add_param a c r = some x →
      w.params_used < 5 ∧ x.params_used = w.params_used + 1 ∧
      ∀ i, i ≠ w.params_used → x.params i = w.params i) := by
  have h1 : v.add_param address count true = none := by
    simp [VCpu.add_param, VCpu.NUM_VCPU_PARAMETER, h5]
  have h2 : v.check_params address count true = none := by
    rw [VCpu.check_params_miss v address count (by omega) hm, h1]
    rfl
  refine ⟨h1, h2, ?_, ?_⟩
  · intro σ b junk0 junk dev host buf
    simp only [VCpu.copy_inout, h2]
  · intro w x a c r hx
    by_cases hlt : w.params_used < 5
    · simp only [VCpu.add_param, VCpu.NUM_VCPU_PARAMETER, hlt, if_true, Option.some.injEq] at hx
      subst hx
      refine ⟨hlt, ?_, ?_⟩
      · simp only [VCpu.set_param, WORD]
        omega
      · intro i hi
        simp [VCpu.set_param, hi]
    · simp [VCpu.add_param, VCpu.NUM_VCPU_PARAMETER, hlt] at hx

theorem C21_table_full_witness :
    VCpu.crowded.check_params 0x700 4 true = none :=
  (C21_table_full VCpu.crowded 0x700 4 rfl (by decide)).2.1

namespace VCpu

theorem GuestPtr.of_ofs (a : Nat) (h : a < WORD) : (GuestPtr.of a).ofs = a % 16 := by
  simp only [GuestPtr.of, Nat.shiftLeft_eq, Nat.shiftRight_eq_div_pow, HALF, WORD] at *
  omega

theorem GuestPtr.of_linear_mod (a : Nat) (h : a < WORD) : (GuestPtr.of a).linear = a % 2 ^ 20 := by
  simp only [GuestPtr.of, GuestPtr.linear, Nat.shiftLeft_eq, Nat.shiftRight_eq_div_pow, HALF,
    WORD] at *
  omega

/-- The pointer of the new slot that holds the address passed to `add_param`:
`src` for a read, `dst` for a write. -/
theorem add_param_address (v : VCpu) (address count : Nat) (read : Bool)
    (h5 : v.params_used < 5) :
    ∃ w, v.add_param address count read = some w ∧
      (if read then (w.params v.params_used).src else (w.params v.params_used).dst)
        = GuestPtr.of address := by
  simp only [add_param, NUM_VCPU_PARAMETER, h5, if_true]
  refine ⟨_, rfl, ?_⟩
  cases read <;> simp [set_param]

end VCpu

/-- C22 (as stated, refuted): `add_param` for a read at the linear address
`0x100600` stores the segment `0x0060`, not `0x100600 >> 4 = 0x10060`, and the
offset 0; `(segment << 4) + offset` is `0x600`, not the address. -/
theorem C22_counterexample :
    (VCpu.booted.add_param 0x100600 4 true).map
      (fun w => ((w.params 1).src, (w.params 1).src.linear)) = some (⟨0x60, 0⟩, 0x600) ∧
    0x100600 >>> 4 = 0x10060 := by
  decide

/-- C22 (amended): for every 32-bit linear address passed to `add_param`, the
segment stored is the low 16 bits of `address >> 4`, the offset stored is
`address - (segment << 4)` in 16 bits, which is `address mod 16` and so below
16, and `(segment << 4) + offset`, as `check_params` and `get_shmem_ptr`
recompute it, is `address mod 2^20`; for an address below `2^20` the segment is
`address >> 4`, the offset is `address - (segment << 4)` and the recomputed
pointer is the address. -/
theorem C22_segment_offset (v : VCpu) (address count : Nat) (read : Bool)
    (h5 : v.params_used < 5) (hw : address < WORD) :
    ∃ w p, v.add_param address count read = some w ∧
      p = (if read then (w.params v.params_used).src else (w.params v.params_used).dst) ∧
      p.seg = (address >>> 4) % HALF ∧
      p.ofs = ((address + WORD - (p.seg <<< 4)) % WORD) % HALF ∧
      p.ofs = address % 16 ∧ p.ofs < 16 ∧
      p.linear = address % 2 ^ 20 ∧
      (address < 2 ^ 20 →
        p.seg = address >>> 4 ∧ p.ofs = address - (p.seg <<< 4) ∧ p.linear = address) := by
  obtain ⟨w, hw1, hw2⟩ := VCpu.add_param_address v address count read h5
  refine ⟨w, _, hw1, rfl, ?_⟩
  rw [hw2]
  have ho := VCpu.GuestPtr.of_ofs address hw
  refine ⟨rfl, rfl, ho, by rw [ho]; omega, VCpu.GuestPtr.of_linear_mod address hw, ?_⟩
  intro h20
  have hl := VCpu.GuestPtr.of_linear address h20
  refine ⟨?_, ?_, hl⟩
  · simp only [VCpu.GuestPtr.of, Nat.shiftRight_eq_div_pow, HALF] at *
    omega
  · simp only [VCpu.GuestPtr.of, VCpu.GuestPtr.linear, Nat.shiftLeft_eq,
      Nat.shiftRight_eq_div_pow, HALF, WORD] at *
    omega

theorem C22_segment_offset_witness :
    ∃ w p, VCpu.booted.add_param 0xf1234 4 true = some w ∧
      p = (w.params 1).src ∧ p.seg = 0xf123 ∧ p.ofs = 4 ∧ p.linear = 0xf1234 :=
  let ⟨w, p, h, hp, h1, _, h2, _, _, h3⟩ :=
    C22_segment_offset VCpu.booted 0xf1234 4 true (by decide) (by decide)
  ⟨w, p, h, hp, h1, h2, (h3 (by decide)).2.2⟩

namespace VCpu

theorem foldl_count_sum (f : Nat → Nat) (n : Nat) :
    ∀ base, base < WORD →
      (List.range n).foldl (fun res i => (res + f i) % WORD) base
        = (base + ((List.range n).map f).sum) % WORD := by
  induction n with
  | zero =>
    intro base hb
    simp [Nat.mod_eq_of_lt hb]
  | succ k ih =>
    intro base hb
    rw [List.range_succ, List.foldl_append, List.map_append, List.sum_append, ih base hb]
    simp only [List.foldl_cons, List.foldl_nil, List.map_cons, List.map_nil, List.sum_cons,
      List.sum_nil, WORD]
    omega

theorem sum_count_le (f : Nat → Nat) (n : Nat) (h : ∀ i, i < n → f i < HALF) :
    ((List.range n).map f).sum ≤ n * 65535 := by
  induction n with
  | zero => simp
  | succ k ih =>
    rw [List.range_succ, List.map_append, List.sum_append]
    have h1 := ih (fun i hi => h i (by omega))
    have h2 := h k (by omega)
    simp only [List.map_cons, List.map_nil, List.sum_cons, List.sum_nil, HALF] at *
    omega

/-- With fields of 16 bits and at most 5 slots in use, the scratch pointer is
the destination of slot 0 plus the counts of the slots in use: nothing
wraps. -/
theorem get_shmem_ptr_sum (v : VCpu) (h5 : v.params_used ≤ 5)
    (hc : ∀ i, i < v.params_used → (v.params i).count < HALF)
    (hs : (v.params 0).dst.seg < HALF) (ho : (v.params 0).dst.ofs < HALF) :
    v.get_shmem_ptr = (v.params 0).dst.linear
      + ((List.range v.params_used).map (fun i => (v.params i).count)).sum ∧
    v.get_shmem_ptr < 2 ^ 21 := by
  have hl : (v.params 0).dst.linear < 2 ^ 20 + 2 ^ 16 := by
    simp only [GuestPtr.linear, Nat.shiftLeft_eq, HALF] at *
    omega
  have hsum := sum_count_le (fun i => (v.params i).count) v.params_used hc
  have e := foldl_count_sum (fun i => (v.params i).count) v.params_used
    ((v.params 0).dst.linear % WORD) (Nat.mod_lt _ (by decide))
  simp only [get_shmem_ptr]
  rw [e]
  simp only [WORD] at *
  omega

end VCpu

/-- C23 (as stated, refuted): with one slot in use that holds the count
`0xf000` and the scratch base `0xf1000`, registering a read of 4 bytes gives
the new slot the scratch pointer `0x0000:0x0000`, the address 0, not
`0xf1000 + 0xf000 = 0x100000`: segment and offset are 16-bit fields. -/
theorem C23_counterexample :
    (1 ≤ VCpu.large.params_used ∧ VCpu.large.params_used < 5 ∧ 4 < 2 ^ 16) ∧
    (VCpu.large.params 0).dst.linear + (VCpu.large.params 0).count = 0x100000 ∧
    VCpu.large.get_shmem_ptr = 0x100000 ∧
    (VCpu.large.check_params 0x600 4 true).map
      (fun r => (r.1, r.2.2.params_used, (r.2.2.params 1).dst, (r.2.2.params 1).dst.linear))
      = some (false, 2, ⟨0, 0⟩, 0) := by
  decide

/-- C23 (amended): for `1 <= params_used < 5` and `count < 2^16`, with 16-bit
fields in the slots, registering a slot with `add_param`, for a read or for a
write, leaves every earlier slot unchanged, slot 0 and the scratch base
included; the scratch pointer before the call is the base plus the counts of
the slots `0 .. params_used-1`, the new slot holds it as segment and offset,
which give that address back when it is below `2^20`, and `get_shmem_ptr()` is
larger by exactly `count` afterwards. -/
theorem C23_contiguous_scratch (v : VCpu) (address count : Nat) (read : Bool)
    (h1 : 1 ≤ v.params_used) (h5 : v.params_used < 5) (hcount : count < 2 ^ 16)
    (hc : ∀ i, i < v.params_used → (v.params i).count < HALF)
    (hs : (v.params 0).dst.seg < HALF) (ho : (v.params 0).dst.ofs < HALF) :
    ∃ w p, v.add_param address count read = some w ∧
      w.params_used = v.params_used + 1 ∧
      (∀ i, i < v.params_used → w.params i = v.params i) ∧
      (w.params 0).dst.linear = (v.params 0).dst.linear ∧
      v.get_shmem_ptr = (v.params 0).dst.linear
        + ((List.range v.params_used).map (fun i => (v.params i).count)).sum ∧
      p = (if read then (w.params v.params_used).dst else (w.params v.params_used).src) ∧
      p = VCpu.GuestPtr.of v.get_shmem_ptr ∧
      (v.get_shmem_ptr < 2 ^ 20 → p.linear = (v.params 0).dst.linear
        + ((List.range v.params_used).map (fun i => (v.params i).count)).sum) ∧
      w.get_shmem_ptr = v.get_shmem_ptr + count := by
  obtain ⟨w, hw, hu, hn, hk⟩ := VCpu.add_param_eq v address count read h1 h5
  have hv := VCpu.get_shmem_ptr_sum v (by omega) hc hs ho
  have hcn : (w.params v.params_used).count = count := by
    rw [hn]
    cases read <;> simp only [if_true, if_false, Bool.false_eq_true, HALF] <;> omega
  have hw0 : w.params 0 = v.params 0 := hk 0 (by omega)
  have hwsum := VCpu.get_shmem_ptr_sum w (by omega)
    (by
      intro i hi
      by_cases e : i = v.params_used
      · rw [e, hcn]
        simpa [HALF] using hcount
      · rw [hk i e]
        exact hc i (by omega))
    (by rw [hw0]; exact hs) (by rw [hw0]; exact ho)
  refine ⟨w, _, hw, hu, fun i hi => hk i (by omega), by rw [hw0], hv.1, rfl, ?_, ?_, ?_⟩
  · rw [hn]
    cases read <;> simp
  · intro h20
    rw [hn]
    have := VCpu.GuestPtr.of_linear v.get_shmem_ptr h20
    cases read
    · simp only [if_false, Bool.false_eq_true]
      rw [this, hv.1]
    · simp only [if_true]
      rw [this, hv.1]
  · rw [hwsum.1, hv.1, hu, List.range_succ, List.map_append, List.sum_append, hw0]
    simp only [List.map_cons, List.map_nil, List.sum_cons, List.sum_nil, hcn]
    have e : (List.range v.params_used).map (fun i => (w.params i).count)
        = (List.range v.params_used).map (fun i => (v.params i).count) := by
      apply List.map_congr_left
      intro i hi
      rw [hk i (by have := List.mem_range.1 hi; omega)]
    rw [e]
    omega

theorem C23_contiguous_scratch_witness :
    ∃ w p, VCpu.booted.add_param 0x600 4 true = some w ∧
      p = (w.params 1).dst ∧ p.linear = 0xf1020 ∧ w.get_shmem_ptr = 0xf1024 :=
  let ⟨w, p, h, _, _, _, _, hp, _, h1, h2⟩ :=
    C23_contiguous_scratch VCpu.booted 0x600 4 true (by decide) (by decide) (by decide)
      (by decide) (by decide) (by decide)
  ⟨w, p, h, hp, h1 (by decide), h2⟩

/-! ## Claims on the BIOS bridge -/

/-- C24 (as stated, refuted): with three slots in use, a read of the count of
slot 1 is claimed and answered from the shared-memory area, and `params_used`
is still 3 afterwards, not zero. -/
theorem C24_counterexample :
    (1 ≤ 1 ∧ 1 ≤ 4 ∧ 1 ≠ VBios.busy.vcpu.params_used) ∧
    (VBios.receive VBios.no_bios VBios.no_mem
        ⟨true, VBios.BIOS_SHMEM_BASE + 1 * VCpu.SIZEOF_VCPU_PARAMETER, 0⟩ VBios.busy).map
      (fun r => (r.1, r.2.1, r.2.2.vcpu.params_used)) = some (true, 0x00510004, 3) := by
  decide

namespace VBios

theorem in_range_iff (address base size : Nat) :
    in_range address base size = true ↔ base ≤ address ∧ address - base < size := by
  simp [in_range]

/-- The first block on a read of the count of slot `n`, `1 <= n <= 4`. -/
theorem trigger_slot (serve : Nat → VBios → Option (Bool × VBios)) (s : VBios) (n v : Nat)
    (h1 : 1 ≤ n) (h4 : n ≤ 4) :
    trigger serve ⟨true, BIOS_SHMEM_BASE + n * VCpu.SIZEOF_VCPU_PARAMETER, v⟩ s =
      if n = s.vcpu.params_used then
        (serve n s).map (fun r =>
          if (if r.1 then r.2.set_used 0 else r.2).vcpu.params_used = n then
            (if r.1 then r.2.set_used 0 else r.2).set_used 0
          else (if r.1 then r.2.set_used 0 else r.2))
      else some s := by
  have hr : in_range (BIOS_SHMEM_BASE + n * VCpu.SIZEOF_VCPU_PARAMETER) BIOS_SHMEM_BASE
      SIZEOF_PARAMS = true := by
    rw [in_range_iff]
    simp only [SIZEOF_PARAMS, VCpu.SIZEOF_VCPU_PARAMETER, VCpu.NUM_VCPU_PARAMETER]
    omega
  have hm : (BIOS_SHMEM_BASE + n * VCpu.SIZEOF_VCPU_PARAMETER - BIOS_SHMEM_BASE)
      % VCpu.SIZEOF_VCPU_PARAMETER = 0 := by
    simp only [VCpu.SIZEOF_VCPU_PARAMETER]
    omega
  have hd : (BIOS_SHMEM_BASE + n * VCpu.SIZEOF_VCPU_PARAMETER - BIOS_SHMEM_BASE)
      / VCpu.SIZEOF_VCPU_PARAMETER = n := by
    simp only [VCpu.SIZEOF_VCPU_PARAMETER]
    omega
  have h0 : n ≠ 0 := by omega
  simp only [trigger, hr, hm, hd, h0, Bool.and_self, decide_True, if_true, if_false]

end VBios

/-- C24 (amended): when the memory routine of the bridge sees a read of the
count of slot `n`, `1 <= n <= 4`, and `n` differs from `params_used`, it sends
no BIOS message and changes nothing, `params_used` included; it claims the
read and answers it with the four bytes of the shared-memory area at the
slot.  When `n` equals `params_used`, the BIOS message is sent, and
`params_used` is zero afterwards if the message was claimed or `params_used`
is still `n`, and is as the subscribers left it otherwise. -/
theorem C24_slot_read (serve : Nat → VBios → Option (Bool × VBios))
    (mem : MessageMem → Bool × Nat) (s : VBios) (n v : Nat) (h1 : 1 ≤ n) (h4 : n ≤ 4) :
    (n ≠ s.vcpu.params_used →
      VBios.receive serve mem
          ⟨true, VBios.BIOS_SHMEM_BASE + n * VCpu.SIZEOF_VCPU_PARAMETER, v⟩ s
        = some (true, word_of (fun j => s.shmem_byte (n * VCpu.SIZEOF_VCPU_PARAMETER + j)), s)) ∧
    (n = s.vcpu.params_used → ∀ c s1, serve n s = some (c, s1) →
      ∃ w s2, VBios.receive serve mem
          ⟨true, VBios.BIOS_SHMEM_BASE + n * VCpu.SIZEOF_VCPU_PARAMETER, v⟩ s
          = some (true, w, s2) ∧
        s2.vcpu.params_used =
          (if c = true ∨ s1.vcpu.params_used = n then 0 else s1.vcpu.params_used)) := by
  have hw : VBios.in_range (VBios.BIOS_SHMEM_BASE + n * VCpu.SIZEOF_VCPU_PARAMETER)
      VBios.BIOS_SHMEM_BASE (VBios.SIZEOF_SHMEM - 3) = true := by
    rw [VBios.in_range_iff]
    simp only [VBios.SIZEOF_SHMEM, VCpu.SIZEOF_VCPU_PARAMETER]
    omega
  have hsub : VBios.BIOS_SHMEM_BASE + n * VCpu.SIZEOF_VCPU_PARAMETER - VBios.BIOS_SHMEM_BASE
      = n * VCpu.SIZEOF_VCPU_PARAMETER := by omega
  have hrec : VBios.receive serve mem
      ⟨true, VBios.BIOS_SHMEM_BASE + n * VCpu.SIZEOF_VCPU_PARAMETER, v⟩ s
      = (VBios.trigger serve
          ⟨true, VBios.BIOS_SHMEM_BASE + n * VCpu.SIZEOF_VCPU_PARAMETER, v⟩ s).map
        (fun s1 => (true,
          word_of (fun j => s1.shmem_byte (n * VCpu.SIZEOF_VCPU_PARAMETER + j)), s1)) := by
    simp only [VBios.receive, hw, if_true, hsub]
  rw [hrec, VBios.trigger_slot serve s n v h1 h4]
  constructor
  · intro hn
    rw [if_neg hn]
    rfl
  · intro hn c s1 hs
    rw [if_pos hn, hs]
    simp only [Option.map_some']
    refine ⟨_, _, rfl, ?_⟩
    cases c
    · by_cases h : s1.vcpu.params_used = n
      · simp [h, VBios.set_used]
      · simp [h]
    · simp [VBios.set_used]

theorem C24_slot_read_witness :
    VBios.receive VBios.no_call VBios.no_mem
        ⟨true, VBios.BIOS_SHMEM_BASE + 1 * VCpu.SIZEOF_VCPU_PARAMETER, 0⟩ VBios.busy
      = some (true,
          word_of (fun j => VBios.busy.shmem_byte (1 * VCpu.SIZEOF_VCPU_PARAMETER + j)),
          VBios.busy) :=
  (C24_slot_read VBios.no_call VBios.no_mem VBios.busy 1 0 (by decide) (by decide)).1
    (by decide)

/-! ## The retry of a read -/

/-- C31: for `1 <= params_used < 5`, `address < 2^20` and `count < 2^16`, if
`check_params(address, count, read = true)` returns false, it has registered
the slot `params_used` with the address as source and the count, and the same
call repeated at once returns true, leaves the `VCpu` as it is, so registers
nothing, and changes the address to the destination pointer of that slot,
which holds the scratch pointer that `get_shmem_ptr()` had given. -/
theorem C31_retry_matches (v w : VCpu) (address count a1 : Nat)
    (h1 : 1 ≤ v.params_used) (h5 : v.params_used < 5) (ha : address < 2 ^ 20)
    (hc : count < 2 ^ 16)
    (hfirst : v.check_params address count true = some (false, a1, w)) :
    a1 = address ∧ w.params_used = v.params_used + 1 ∧
    (w.params v.params_used).src.linear = address ∧
    (w.params v.params_used).count = count ∧
    (w.params v.params_used).dst = VCpu.GuestPtr.of v.get_shmem_ptr ∧
    w.check_params address count true
      = some (true, (w.params v.params_used).dst.linear, w) := by
  have hmiss : ∀ i, i < v.params_used → v.matches_slot address count i = false := by
    rcases VCpu.first_match (fun i => v.matches_slot address count i) v.params_used with
      h | ⟨k, hk, hp, hf⟩
    · exact h
    · rw [VCpu.check_params_match v address count k hk hp hf] at hfirst
      simp at hfirst
  obtain ⟨x, hx, hu, hn, hk⟩ := VCpu.add_param_eq v address count true h1 h5
  rw [VCpu.check_params_miss v address count (by omega) hmiss, hx] at hfirst
  simp only [Option.map_some', Option.some.injEq, Prod.mk.injEq, true_and] at hfirst
  obtain ⟨e1, e2⟩ := hfirst
  subst e2
  simp only [if_true] at hn
  have hsrc : (x.params v.params_used).src.linear = address := by
    rw [hn]
    exact VCpu.GuestPtr.of_linear address ha
  have hcnt : (x.params v.params_used).count = count := by
    rw [hn]
    simp only [HALF]
    omega
  refine ⟨e1.symm, hu, hsrc, hcnt, by rw [hn], ?_⟩
  apply VCpu.check_params_match x address count v.params_used (by omega)
  · simp only [VCpu.matches_slot, hsrc, hcnt, decide_True, Bool.and_self]
  · intro j hj
    have := hmiss j hj
    simp only [VCpu.matches_slot] at this ⊢
    rw [hk j (by omega)]
    exact this

theorem C31_retry_matches_witness :
    ∃ w, VCpu.booted.check_params 0x600 4 true = some (false, 0x600, w) ∧
      w.check_params 0x600 4 true = some (true, 0xf1020, w) := by
  obtain ⟨r, hr⟩ := Option.isSome_iff_exists.1 (by decide :
    (VCpu.booted.check_params 0x600 4 true).isSome = true)
  have e : (VCpu.booted.check_params 0x600 4 true).map (fun r => (r.1, r.2.1))
      = some (false, 0x600) := by decide
  rw [hr] at e
  simp only [Option.map_some', Option.some.injEq, Prod.mk.injEq] at e
  have hr2 : VCpu.booted.check_params 0x600 4 true = some (false, 0x600, r.2.2) := by
    rw [hr, ← e.1, ← e.2]
  have h := C31_retry_matches VCpu.booted r.2.2 0x600 4 0x600 (by decide) (by decide)
    (by decide) (by decide) hr2
  refine ⟨r.2.2, hr2, ?_⟩
  rw [h.2.2.2.2.2, h.2.2.2.2.1]
  rfl

/-! ## The memory routine of the BIOS bridge -/

namespace VBios

theorem byte_zero (i : Nat) : byte 0 i = 0 := by simp [byte]

/-- The first block on a read of the count of slot 0. -/
theorem trigger_first (serve : Nat → VBios → Option (Bool × VBios)) (s : VBios) (v : Nat) :
    trigger serve ⟨true, BIOS_SHMEM_BASE, v⟩ s = some (s.clear_params.set_used 1) := by
  have hr : in_range BIOS_SHMEM_BASE BIOS_SHMEM_BASE SIZEOF_PARAMS = true := by
    rw [in_range_iff]
    simp only [SIZEOF_PARAMS, VCpu.SIZEOF_VCPU_PARAMETER, VCpu.NUM_VCPU_PARAMETER]
    omega
  simp only [trigger, hr, Nat.sub_self, Nat.zero_mod, Nat.zero_div, Bool.and_self, decide_True,
    if_true]

end VBios

/-- C32: when the memory routine of the bridge sees a read of the count of
slot 0, at `BIOS_SHMEM_BASE`, whatever `params_used` and the slots held, it
claims the read and answers it with the first four bytes of slot 0, sets
`params_used` to 1, makes the slots 1 to 4 all-zero (every field and every
byte of theirs, so each has count 0), leaves slot 0 as it was and the bytes of
the area behind the five slots as well, and sends no BIOS message. -/
theorem C32_first_read (serve : Nat → VBios → Option (Bool × VBios))
    (mem : MessageMem → Bool × Nat) (s : VBios) (v : Nat) :
    ∃ s1, VBios.receive serve mem ⟨true, VBios.BIOS_SHMEM_BASE, v⟩ s
        = some (true, word_of (fun j => s.shmem_byte j), s1) ∧
      s1.vcpu.params_used = 1 ∧
      (∀ i, 1 ≤ i → i ≤ 4 →
        s1.vcpu.params i = ⟨0, ⟨0, 0⟩, ⟨0, 0⟩⟩ ∧ s1.dummy i = 0 ∧ (s1.vcpu.params i).count = 0) ∧
      (∀ off, VCpu.SIZEOF_VCPU_PARAMETER ≤ off → off < VBios.SIZEOF_PARAMS →
        s1.shmem_byte off = 0) ∧
      (s1.vcpu.params 0 = s.vcpu.params 0 ∧ s1.dummy 0 = s.dummy 0) ∧
      (∀ off, off < VCpu.SIZEOF_VCPU_PARAMETER ∨ VBios.SIZEOF_PARAMS ≤ off →
        s1.shmem_byte off = s.shmem_byte off) := by
  have hw : VBios.in_range VBios.BIOS_SHMEM_BASE VBios.BIOS_SHMEM_BASE (VBios.SIZEOF_SHMEM - 3)
      = true := by
    rw [VBios.in_range_iff]
    simp only [VBios.SIZEOF_SHMEM]
    omega
  have hkeep : ∀ off, off < VCpu.SIZEOF_VCPU_PARAMETER ∨ VBios.SIZEOF_PARAMS ≤ off →
      (s.clear_params.set_used 1).shmem_byte off = s.shmem_byte off := by
    intro off ho
    simp only [VCpu.SIZEOF_VCPU_PARAMETER, VBios.SIZEOF_PARAMS, VCpu.NUM_VCPU_PARAMETER] at ho
    have hi : ¬(1 ≤ off / 12 ∧ off / 12 < 5) := by omega
    simp only [VBios.shmem_byte, VBios.field, VBios.set_used, VBios.clear_params,
      VCpu.NUM_VCPU_PARAMETER, hi, if_false]
  refine ⟨s.clear_params.set_used 1, ?_, rfl, ?_, ?_, ?_, hkeep⟩
  · simp only [VBios.receive, VBios.trigger_first, Option.map_some', hw, if_true, Nat.sub_self,
      Nat.zero_add]
    have hs : VCpu.SIZEOF_VCPU_PARAMETER = 12 := rfl
    simp only [word_of, hkeep 0 (Or.inl (by rw [hs]; omega)), hkeep 1 (Or.inl (by rw [hs]; omega)),
      hkeep 2 (Or.inl (by rw [hs]; omega)), hkeep 3 (Or.inl (by rw [hs]; omega))]
  · intro i h1 h4
    have hi : 1 ≤ i ∧ i < 5 := by omega
    simp only [VBios.set_used, VBios.clear_params, VCpu.NUM_VCPU_PARAMETER, hi, and_self,
      if_true]
  · intro off h1 h2
    simp only [VCpu.SIZEOF_VCPU_PARAMETER, VBios.SIZEOF_PARAMS, VCpu.NUM_VCPU_PARAMETER] at h1 h2
    have hi : 1 ≤ off / 12 ∧ off / 12 < 5 := by omega
    simp only [VBios.shmem_byte, VBios.field, VBios.set_used, VBios.clear_params,
      VCpu.NUM_VCPU_PARAMETER, hi, and_self, if_true]
    split <;> exact VBios.byte_zero _
  · simp [VBios.set_used, VBios.clear_params, VCpu.NUM_VCPU_PARAMETER]

namespace VBios

theorem field_set_field (s : VBios) (i k v i1 k1 : Nat) (hk : k ≤ 5) (hk1 : k1 ≤ 5) :
    (s.set_field i k v).field i1 k1 = if i1 = i ∧ k1 = k then v else s.field i1 k1 := by
  by_cases hi : i1 = i
  · subst hi
    interval_cases k <;> interval_cases k1 <;> simp [field, set_field, VCpu.set_param]
  · interval_cases k <;> interval_cases k1 <;> simp [field, set_field, VCpu.set_param, hi]

theorem set_field_used (s : VBios) (i k v : Nat) :
    (s.set_field i k v).vcpu.params_used = s.vcpu.params_used := by
  unfold set_field
  split <;> rfl

theorem byte_lo (w : Nat) : byte w 0 = w % 256 := by simp [byte]

theorem byte_hi (w : Nat) : byte w 1 = w / 256 % 256 := by simp [byte]

/-- A store to one byte of the area changes that byte only. -/
theorem shmem_byte_store (s : VBios) (off b off1 : Nat) :
    (s.shmem_store off b).shmem_byte off1 = if off1 = off then b % 256 else s.shmem_byte off1 := by
  have hk : off % 12 / 2 ≤ 5 := by omega
  have hk1 : off1 % 12 / 2 ≤ 5 := by omega
  simp only [shmem_byte, shmem_store]
  rw [field_set_field s _ _ _ _ _ hk hk1]
  by_cases hh : off1 / 12 = off / 12 ∧ off1 % 12 / 2 = off % 12 / 2
  · rw [if_pos hh, hh.1, hh.2]
    generalize s.field (off / 12) (off % 12 / 2) = f
    rcases Nat.mod_two_eq_zero_or_one off with h0 | h0 <;>
      rcases Nat.mod_two_eq_zero_or_one off1 with h1 | h1
    · have e : off1 = off := by omega
      simp only [h0, h1, if_true, e, byte_lo, byte_hi]
      omega
    · have e : off1 ≠ off := by omega
      simp only [h0, h1, if_true, e, if_false, byte_lo, byte_hi]
      omega
    · have e : off1 ≠ off := by omega
      simp only [h0, h1, e, if_false, byte_lo, byte_hi, Nat.one_ne_zero]
      omega
    · have e : off1 = off := by omega
      simp only [h0, h1, e, if_true, if_false, byte_lo, byte_hi, Nat.one_ne_zero]
      omega
  · rw [if_neg hh]
    have e : off1 ≠ off := by
      intro e
      subst e
      exact hh ⟨rfl, rfl⟩
    rw [if_neg e]

theorem shmem_store_used (s : VBios) (off b : Nat) :
    (s.shmem_store off b).vcpu.params_used = s.vcpu.params_used :=
  set_field_used s _ _ _

theorem shmem_byte_lt (s : VBios) (off : Nat) : s.shmem_byte off < 256 := byte_lt _ _

/-- A write does not trigger the first block. -/
theorem trigger_write (serve : Nat → VBios → Option (Bool × VBios)) (s : VBios) (phys v : Nat) :
    trigger serve ⟨false, phys, v⟩ s = some s := by
  simp [trigger]

end VBios

/-- C33: for every physical address that the window check of the memory
routine accepts, `BIOS_SHMEM_BASE <= phys < BIOS_SHMEM_BASE + 4096 - 3`, the
four bytes at the offset `phys - BIOS_SHMEM_BASE` lie inside the 4096 bytes of
the area.  A write is claimed, stores the four bytes of the word there and
changes no other byte of the area, nor `params_used`.  A read is claimed and
returns the four bytes at the offset, as the area is when the first block of
the routine has run; that block changes nothing unless the address is the
count of one of the five slots. -/
theorem C33_window (serve : Nat → VBios → Option (Bool × VBios))
    (mem : MessageMem → Bool × Nat) (s : VBios) (phys v : Nat)
    (h1 : VBios.BIOS_SHMEM_BASE ≤ phys)
    (h2 : phys < VBios.BIOS_SHMEM_BASE + VBios.SIZEOF_SHMEM - 3) :
    VBios.in_range phys VBios.BIOS_SHMEM_BASE (VBios.SIZEOF_SHMEM - 3) = true ∧
    (∀ j, j < 4 → phys - VBios.BIOS_SHMEM_BASE + j < VBios.SIZEOF_SHMEM) ∧
    (∃ s1, VBios.receive serve mem ⟨false, phys, v⟩ s = some (true, v, s1) ∧
      (∀ j, j < 4 → s1.shmem_byte (phys - VBios.BIOS_SHMEM_BASE + j) = byte v j) ∧
      (∀ off, off < phys - VBios.BIOS_SHMEM_BASE ∨ phys - VBios.BIOS_SHMEM_BASE + 4 ≤ off →
        s1.shmem_byte off = s.shmem_byte off) ∧
      s1.vcpu.params_used = s.vcpu.params_used) ∧
    (∀ s1, VBios.trigger serve ⟨true, phys, v⟩ s = some s1 →
      ∃ w, VBios.receive serve mem ⟨true, phys, v⟩ s = some (true, w, s1) ∧
        ∀ j, j < 4 → byte w j = s1.shmem_byte (phys - VBios.BIOS_SHMEM_BASE + j)) ∧
    (¬(phys - VBios.BIOS_SHMEM_BASE < VBios.SIZEOF_PARAMS ∧
        (phys - VBios.BIOS_SHMEM_BASE) % VCpu.SIZEOF_VCPU_PARAMETER = 0) →
      VBios.trigger serve ⟨true, phys, v⟩ s = some s) := by
  have hw : VBios.in_range phys VBios.BIOS_SHMEM_BASE (VBios.SIZEOF_SHMEM - 3) = true := by
    rw [VBios.in_range_iff]
    simp only [VBios.SIZEOF_SHMEM] at *
    omega
  refine ⟨hw, ?_, ?_, ?_, ?_⟩
  · intro j hj
    simp only [VBios.SIZEOF_SHMEM] at *
    omega
  · refine ⟨(((s.shmem_store (phys - VBios.BIOS_SHMEM_BASE) (byte v 0)).shmem_store
        (phys - VBios.BIOS_SHMEM_BASE + 1) (byte v 1)).shmem_store
        (phys - VBios.BIOS_SHMEM_BASE + 2) (byte v 2)).shmem_store
        (phys - VBios.BIOS_SHMEM_BASE + 3) (byte v 3), by
      simp only [VBios.receive, VBios.trigger_write, Option.map_some', hw, if_true,
        Bool.false_eq_true, if_false], ?_, ?_, ?_⟩
    · intro j hj
      generalize phys - VBios.BIOS_SHMEM_BASE = off
      have hb := fun i => Nat.mod_eq_of_lt (byte_lt v i)
      simp only [VBios.shmem_byte_store, hb]
      interval_cases j
      · simp
      · simp
      · simp
      · simp
    · intro off ho
      generalize phys - VBios.BIOS_SHMEM_BASE = o at ho
      simp only [VBios.shmem_byte_store]
      rw [if_neg (by omega), if_neg (by omega), if_neg (by omega), if_neg (by omega)]
    · simp only [VBios.shmem_store_used]
  · intro s1 hs1
    refine ⟨word_of (fun j => s1.shmem_byte (phys - VBios.BIOS_SHMEM_BASE + j)), by
      simp only [VBios.receive, hs1, Option.map_some', hw, if_true], ?_⟩
    intro j hj
    rw [byte_word_of _ j hj]
    exact Nat.mod_eq_of_lt (VBios.shmem_byte_lt _ _)
  · intro hn
    have hc : (VBios.in_range phys VBios.BIOS_SHMEM_BASE VBios.SIZEOF_PARAMS &&
        decide ((phys - VBios.BIOS_SHMEM_BASE) % VCpu.SIZEOF_VCPU_PARAMETER = 0)) = false := by
      rw [Bool.and_eq_false_iff, decide_eq_false_iff_not]
      by_cases hr : VBios.in_range phys VBios.BIOS_SHMEM_BASE VBios.SIZEOF_PARAMS = true
      · right
        intro hm
        exact hn ⟨((VBios.in_range_iff _ _ _).1 hr).2, hm⟩
      · left
        simpa using hr
    simp only [VBios.trigger, Bool.true_and, hc, Bool.false_eq_true, if_false]

theorem C33_window_witness :
    ∃ s1, VBios.receive VBios.no_call VBios.no_mem ⟨false, 0xf1ffc, 0x44332211⟩ VBios.busy
        = some (true, 0x44332211, s1) ∧
      (∀ j, j < 4 → s1.shmem_byte (0xf1ffc - VBios.BIOS_SHMEM_BASE + j) = byte 0x44332211 j) ∧
      s1.vcpu.params_used = 3 :=
  let ⟨s1, h, hb, _, hu⟩ :=
    (C33_window VBios.no_call VBios.no_mem VBios.busy 0xf1ffc 0x44332211 (by decide)
      (by decide)).2.2.1
  ⟨s1, h, hb, hu⟩

/-! ## The queue of all parameters -/

namespace Parameter

theorem iterate_some {σ : Type} (body : Parameter → σ → σ) :
    ∀ (q : List Parameter) (fuel : Nat) (a : Parameter) (s : σ), q.length < fuel →
      iterate body fuel (some a) q s
        = some ⟨(a :: q).dropLast, ((a :: q).dropLast).foldl (fun t p => body p t) s, []⟩ := by
  intro q
  induction q with
  | nil =>
    intro fuel a s hf
    obtain ⟨f, rfl⟩ : ∃ f, fuel = f + 1 := ⟨fuel - 1, by simp at hf; omega⟩
    simp [iterate, Fifo.empty]
  | cons x rest ih =>
    intro fuel a s hf
    obtain ⟨f, rfl⟩ : ∃ f, fuel = f + 1 := ⟨fuel - 1, by simp at hf; omega⟩
    have hf1 : rest.length < f := by simp at hf; omega
    simp only [iterate, Fifo.empty, List.isEmpty_cons, Bool.false_eq_true, if_false,
      Fifo.dequeue, List.head?_cons, List.tail_cons, ih f x (body a s) hf1, Option.map_some']
    simp [List.dropLast]

/-- What a `PARAM_ITER` loop does: the body runs on all parameters of the queue
but the last one, in the order of the queue, and the queue is empty
afterwards. -/
theorem param_iter_eq {σ : Type} (body : Parameter → σ → σ) (q : List Parameter) (s : σ) :
    PARAM_ITER body q s
      = some ⟨q.dropLast, q.dropLast.foldl (fun t p => body p t) s, []⟩ := by
  cases q with
  | nil => simp [PARAM_ITER, iterate, Fifo.dequeue, Fifo.empty]
  | cons a rest =>
    simp only [PARAM_ITER, Fifo.dequeue, List.head?_cons, List.tail_cons, List.length_cons]
    exact iterate_some body rest _ a s (by omega)

end Parameter

/-- C34: a `PARAM_ITER` loop over a queue of `n` parameters ends with the queue
empty, and its body has run on the first `n - 1` of them, in registration
order, not on the last one: the test `!all_parameters().empty()` comes after
the `dequeue`.  With the one parameter `vbios` registered the body does not
run at all. -/
theorem C34_last_parameter_skipped :
    (∀ {σ : Type} (body : Parameter → σ → σ) (q : List Parameter) (s : σ),
      ∃ r, Parameter.PARAM_ITER body q s = some r ∧
        r.visited = q.dropLast ∧ r.visited.length = q.length - 1 ∧
        r.state = q.dropLast.foldl (fun t p => body p t) s ∧
        r.all_parameters = []) ∧
    (Fifo.enqueue [] Parameter.vbios).length = 1 ∧
    (Parameter.PARAM_ITER (fun p (seen : List String) => seen ++ [p.name])
      (Fifo.enqueue [] Parameter.vbios) []).map (fun r => (r.visited, r.state, r.all_parameters))
      = some ([], [], []) ∧
    (Parameter.PARAM_ITER (fun p (seen : List String) => seen ++ [p.name])
      (Fifo.enqueue (Fifo.enqueue (Fifo.enqueue [] ⟨"a", 1⟩) ⟨"b", 2⟩) ⟨"c", 3⟩) []).map
        (fun r => (r.state, r.all_parameters))
      = some (["a", "b"], []) := by
  refine ⟨?_, rfl, by decide, by decide⟩
  intro σ body q s
  exact ⟨_, Parameter.param_iter_eq body q s, rfl, by simp, rfl, rfl⟩
